import Mathlib

/-!
# clipper: a FASTQ quality-control filter

A shallow embedding of `src/clipper.c` and the properties of its record reader
(`get_entry`), of its per-record pipeline (`process_current_fq`) and of its
paired-file loop (`process_paired`).

## Conventions of the embedding

* A byte is modelled by the value it has as a C `char`, an `Int`
  (`'N'` is `78`, `'@'` is `64`, `'+'` is `43`, `'\n'` is `10`, NUL is `0`).
* C `int` and `ssize_t` values are modelled by `Int`.  Loop counters and string
  lengths stay far inside the range of their type.  The one sum that can leave
  the range of an `int` is the running deficit of the quality trim
  (`j += opt->qual_trim - qual`, line 400), since the threshold is any `int` the
  command line gives: there the model reduces the result to 32 bits in two's
  complement (`wrap32`), the value the compiled program holds in `j`.  The
  theorems on the maximal deficit assume that every cumulative deficit fits an
  `int` (`fits_int`), where the reduction changes nothing.  A quality
  `c[i] - opt->phred_offset` is a byte minus 33 or 64 and is not reduced.
* A `char*` buffer is the list of its cells.  The pointer `str` of a `strbuf_t`
  is kept as its offset from `buf`.  A read or a write outside the cells is not a
  value: the function that performs it yields `none` (or `Outcome.fault`).
* `getline` stores the line and the terminating NUL; the cells behind that NUL
  (left over from an earlier, longer line in the reused buffer) are not
  modelled, and no access is made to them unless a fault has occurred before.
* An input stream (`FILE*` opened for reading) is the list of the bytes that are
  still unread.  An output stream is the list of the chunks written by the
  successful `fprintf` calls, in order; the file holds their concatenation.
-/

namespace Clipper

/-! ## Data model (lines 23-71) -/

/-- Mirror of `options_t`, restricted to the fields the pipeline reads. -/
structure options_t where
  min_length : Int
  qual_trim : Int
  qual_filt : Int
  remove_ambig_flg : Int
  paranoid_flg : Int
  phred_offset : Int
  deriving DecidableEq

/-- Mirror of `init_options` (lines 85-99). -/
def init_options : options_t :=
  { min_length := 0, qual_trim := -1, qual_filt := -1,
    remove_ambig_flg := 0, paranoid_flg := 1, phred_offset := 33 }

/-- Mirror of `strbuf_t`: the cells of `buf`, the offset of `str` from `buf`,
and `str_len`. -/
structure strbuf_t where
  buf : List Int
  str : Nat
  str_len : Int
  deriving DecidableEq

/-- Mirror of `init_strbuf` (lines 124-129): no buffer yet. -/
def init_strbuf : strbuf_t := { buf := [], str := 0, str_len := 0 }

/-- Mirror of `fq_entry_t`. -/
structure fq_entry_t where
  id : strbuf_t
  seq : strbuf_t
  qual : strbuf_t
  deriving DecidableEq

/-- Mirror of `init_entry` (lines 136-140). -/
def init_entry : fq_entry_t := { id := init_strbuf, seq := init_strbuf, qual := init_strbuf }

/-- Mirror of `fq_file_t`: the unread input, the chunks written so far and the
current entry. -/
structure fq_file_t where
  inp : List Int
  out : List (List Int)
  entry : fq_entry_t
  deriving DecidableEq

/-- How a call ends: it returns, it calls `exit(EXIT_FAILURE)`, or it accesses
memory outside a buffer. -/
inductive Outcome (α : Type) where
  | ret (a : α)
  | exit_failure
  | fault
  deriving DecidableEq

/-! ## Memory and C library -/

/-- Read of cell `i` of a buffer. -/
def rd (m : List Int) (i : Int) : Option Int :=
  if 0 ≤ i then m[i.toNat]? else none

/-- Write of cell `i` of a buffer. -/
def wr (m : List Int) (i : Int) (v : Int) : Option (List Int) :=
  if 0 ≤ i ∧ i < m.length then some (m.set i.toNat v) else none

/-- The C library `isspace` in the C locale: space, `\t`, `\n`, `\v`, `\f`, `\r`. -/
def isspace (c : Int) : Bool :=
  c == 32 || (decide (9 ≤ c) && decide (c ≤ 13))

/-- The string a `%s` conversion prints from a pointer: the cells up to the first
NUL.  The argument is the list of cells from the pointer to the end of the buffer. -/
def c_str : List Int → Option (List Int)
  | [] => none
  | ch :: rest => if ch = 0 then some [] else (c_str rest).map (fun t => ch :: t)

/-- The string at `sb.str`. -/
def strbuf_t.cstr (sb : strbuf_t) : Option (List Int) :=
  c_str (sb.buf.drop sb.str)

/-- Split of the unread input behind the first `\n` (the delimiter stays with the line). -/
def take_line : List Int → List Int × List Int
  | [] => ([], [])
  | ch :: rest =>
    if ch = 10 then ([ch], rest)
    else ((ch :: (take_line rest).1), (take_line rest).2)

/-- The C library `getline`: `none` is the return value `-1` at end of file, otherwise
the line read (delimiter included) and the input left. -/
def getline (f : List Int) : Option (List Int × List Int) :=
  match f with
  | [] => none
  | _ :: _ => some (take_line f)

/-! ## rtrim_whitespace (lines 219-231) -/

/-- The loop `for(i = *len-1, end = 0; i > -1; --i)` of `rtrim_whitespace`; the first
argument is `i + 1`, the result is `end`. -/
def rtrim_loop (s : List Int) : Nat → Nat → Option Nat
  | 0, en => some en
  | i + 1, en =>
    match s[i]? with
    | none => none
    | some ch => if isspace ch then rtrim_loop s i (en + 1) else some en

/-- Mirror of `rtrim_whitespace`: the new cells and the new `*len`. -/
def rtrim_whitespace (s : List Int) (len : Int) : Option (List Int × Int) :=
  match rtrim_loop s len.toNat 0 with
  | none => none
  | some en =>
    match wr s (len - en) 0 with
    | none => none
    | some s1 => some (s1, len - en)

/-! ## get_entry (lines 233-282) -/

/-- One round of the loop of `get_entry` on the buffer `sb`; `marker` is the byte the
line has to start with (rounds 0 and 2).  The flag tells whether the round went through
(`false` is `return -1`). -/
def get_entry_round (marker : Option Int) (sb : strbuf_t) (f : List Int) :
    Option (Bool × strbuf_t × List Int) :=
  match getline f with
  | none => some (false, { sb with str_len := -1 }, f)
  | some (line, rest) =>
    let sb1 : strbuf_t := { sb with buf := line ++ [0], str_len := line.length }
    if marker.isSome ∧ rd sb1.buf 0 ≠ marker then some (false, sb1, rest)
    else
      match rtrim_whitespace sb1.buf sb1.str_len with
      | none => none
      | some (b, l) => some (true, { buf := b, str := 0, str_len := l }, rest)

/-- Mirror of `get_entry`: the return value, the entry and the input left. -/
def get_entry (f : List Int) (fq : fq_entry_t) : Outcome (Int × fq_entry_t × List Int) :=
  match get_entry_round (some 64) fq.id f with
  | none => .fault
  | some (false, sb, f1) => .ret (-1, { fq with id := sb }, f1)
  | some (true, sb0, f1) =>
  let fq1 := { fq with id := sb0 }
  match get_entry_round none fq1.seq f1 with
  | none => .fault
  | some (false, sb, f2) => .ret (-1, { fq1 with seq := sb }, f2)
  | some (true, sb1, f2) =>
  let fq2 := { fq1 with seq := sb1 }
  match get_entry_round (some 43) fq2.qual f2 with
  | none => .fault
  | some (false, sb, f3) => .ret (-1, { fq2 with qual := sb }, f3)
  | some (true, sb2, f3) =>
  let fq3 := { fq2 with qual := sb2 }
  match get_entry_round none fq3.qual f3 with
  | none => .fault
  | some (false, sb, f4) => .ret (-1, { fq3 with qual := sb }, f4)
  | some (true, sb3, f4) =>
  let fq4 := { fq3 with qual := sb3 }
  if fq4.seq.str_len ≠ fq4.qual.str_len then .exit_failure
  else .ret (0, fq4, f4)

/-! ## paranoid_dna, paranoid_quality (lines 292-334) -/

/-- The loop of `paranoid_dna`; the cells from `s` on, and the number of rounds left. -/
def paranoid_dna_loop : List Int → Nat → Option Int
  | _, 0 => some 0
  | [], _ + 1 => none
  | ch :: rest, n + 1 =>
    if ch = 65 ∨ ch = 71 ∨ ch = 67 ∨ ch = 84 ∨ ch = 78 then paranoid_dna_loop rest n
    else some (-1)

/-- Mirror of `paranoid_dna`. -/
def paranoid_dna (s : List Int) (len : Int) : Option Int :=
  paranoid_dna_loop s len.toNat

/-- The loop of `paranoid_quality`. -/
def paranoid_quality_loop (lo hi : Int) : List Int → Nat → Option Int
  | _, 0 => some 0
  | [], _ + 1 => none
  | ch :: rest, n + 1 =>
    if ch < lo ∨ ch > hi then some (-1) else paranoid_quality_loop lo hi rest n

/-- Mirror of `paranoid_quality`. -/
def paranoid_quality (s : List Int) (len : Int) (offset : Int) : Option Int :=
  if offset = 33 then paranoid_quality_loop 33 74 s len.toNat
  else paranoid_quality_loop 59 104 s len.toNat

/-! ## process_current_fq (lines 336-439) -/

/-- The scan `while(c[++i] == 'N');` (line 346): the cells from `c` on and the value of
`i` after the increment. -/
def scan_up : List Int → Nat → Option Nat
  | [], _ => none
  | ch :: rest, i => if ch = 78 then scan_up rest (i + 1) else some i

/-- The scan `while(c[--j] == 'N');` (line 347) over the whole buffer: the argument is
the position in the buffer of `c[j]` before the decrement, the result the position of
`c[j]` when the scan stops.  The read below the buffer is the case `0`. -/
def scan_down (m : List Int) : Nat → Option Nat
  | 0 => none
  | a + 1 =>
    match m[a]? with
    | none => none
    | some ch => if ch = 78 then scan_down m a else some a

/-- Lines 341-357: trim of the leading and trailing `N`s. -/
def edge_trim (e : fq_entry_t) : Option fq_entry_t :=
  match scan_up (e.seq.buf.drop e.seq.str) 0 with
  | none => none
  | some i =>
    match scan_down e.seq.buf (e.seq.str + e.seq.str_len).toNat with
    | none => none
    | some ja =>
      let j : Int := (ja : Int) - e.seq.str
      match wr e.seq.buf (e.seq.str + (j + 1)) 0 with
      | none => none
      | some sbuf =>
        match wr e.qual.buf (e.qual.str + (j + 1)) 0 with
        | none => none
        | some qbuf =>
          some { e with
            seq := { buf := sbuf, str := e.seq.str + i, str_len := j - i }
            qual := { buf := qbuf, str := e.qual.str + i, str_len := j - i } }

/-- Lines 362-369: the strict checks; `some true` when the record goes on. -/
def paranoid_check (e : fq_entry_t) (opt : options_t) : Option Bool :=
  if opt.paranoid_flg ≠ 0 then
    match paranoid_dna (e.seq.buf.drop e.seq.str) e.seq.str_len with
    | none => none
    | some r =>
      if r < 0 then some false
      else
        match paranoid_quality (e.qual.buf.drop e.qual.str) e.qual.str_len opt.phred_offset with
        | none => none
        | some r2 => if r2 < 0 then some false else some true
  else some true

/-- The loop of lines 381-384. -/
def ambig_loop : List Int → Nat → Option Bool
  | _, 0 => some true
  | [], _ + 1 => none
  | ch :: rest, n + 1 => if ch = 78 then some false else ambig_loop rest n

/-- Lines 377-385: rejection of a read that holds an `N`; `some true` when the record
goes on. -/
def ambig_check (e : fq_entry_t) (opt : options_t) : Option Bool :=
  if opt.remove_ambig_flg ≠ 0 then ambig_loop (e.seq.buf.drop e.seq.str) e.seq.str_len.toNat
  else some true

/-- The value a 32-bit `int` holds after an arithmetic result `x`: the representative of
`x` modulo `2^32` in `[-2^31, 2^31)`. -/
def wrap32 (x : Int) : Int := (x + 2147483648) % 4294967296 - 2147483648

/-- The loop of lines 398-410; the first argument is `i + 1`, then `j`, `max_val` and
`argmax`; the result is `(max_val, argmax)`.  The running sum `j` is an `int`
(line 338): the difference of line 400 and the sum it is added to are reduced to
32 bits. -/
def trim_loop (m : List Int) (str : Nat) (t off : Int) : Nat → Int → Int → Int → Option (Int × Int)
  | 0, _, max_val, argmax => some (max_val, argmax)
  | i + 1, j, max_val, argmax =>
    match rd m (str + (i : Int)) with
    | none => none
    | some ch =>
      let qual := ch - off
      let j1 := wrap32 (j + wrap32 (t - qual))
      if j1 > max_val then trim_loop m str t off i j1 j1 i
      else trim_loop m str t off i j1 max_val argmax

/-- Lines 387-417: the quality trim. -/
def quality_trim (e : fq_entry_t) (opt : options_t) : Option fq_entry_t :=
  if opt.qual_trim > -1 then
    match rd e.qual.buf (e.qual.str + e.qual.str_len) with
    | none => none
    | some last =>
      if last - opt.phred_offset < opt.qual_trim then
        match trim_loop e.qual.buf e.qual.str opt.qual_trim opt.phred_offset
            (e.qual.str_len + 1).toNat 0 0 e.qual.str_len with
        | none => none
        | some (_, argmax) =>
          match wr e.seq.buf (e.seq.str + argmax) 0 with
          | none => none
          | some sbuf =>
            match wr e.qual.buf (e.qual.str + argmax) 0 with
            | none => none
            | some qbuf =>
              some { e with
                seq := { e.seq with buf := sbuf, str_len := argmax }
                qual := { e.qual with buf := qbuf, str_len := argmax } }
      else some e
  else some e

/-- The loop of lines 424-428: the cells from `c` on, the rounds left and the count `j`. -/
def filter_loop (off : Int) : List Int → Nat → Int → Option Int
  | _, 0, j => some j
  | [], _ + 1, _ => none
  | ch :: rest, n + 1, j =>
    if ch - off ≤ 3 then filter_loop off rest n (j + 1) else filter_loop off rest n j

/-- Lines 419-432: the quality filter; `some true` when the record goes on. -/
def quality_filter (e : fq_entry_t) (opt : options_t) : Option Bool :=
  if opt.qual_filt > -1 then
    match filter_loop opt.phred_offset (e.qual.buf.drop e.qual.str) e.seq.str_len.toNat 0 with
    | none => none
    | some j => if j > opt.qual_filt then some false else some true
  else some true

/-- Mirror of `process_current_fq`: the return value and the entry it leaves. -/
def process_current_fq (e : fq_entry_t) (opt : options_t) : Outcome (Int × fq_entry_t) :=
  match edge_trim e with
  | none => .fault
  | some e1 =>
  match paranoid_check e1 opt with
  | none => .fault
  | some false => .ret (-1, e1)
  | some true =>
  match ambig_check e1 opt with
  | none => .fault
  | some false => .ret (-1, e1)
  | some true =>
  match quality_trim e1 opt with
  | none => .fault
  | some e2 =>
  match quality_filter e2 opt with
  | none => .fault
  | some false => .ret (-1, e2)
  | some true =>
  if e2.seq.str_len < opt.min_length then .ret (-1, e2) else .ret (0, e2)

/-! ## output_fq (lines 441-449) -/

/-- The bytes `fprintf(out, "%s\n%s\n+\n%s\n", id, seq, qual)` writes. -/
def record_bytes (id seq qual : List Int) : List Int :=
  id ++ [10] ++ seq ++ [10] ++ [43, 10] ++ qual ++ [10]

/-- The bytes `output_fq` writes for an entry; `none` when a string has no NUL inside
its buffer. -/
def output_bytes (e : fq_entry_t) : Option (List Int) :=
  match e.id.cstr, e.seq.cstr, e.qual.cstr with
  | some i, some s, some q => some (record_bytes i s q)
  | _, _, _ => none

/-- Mirror of `output_fq`: the return value of `fprintf` (the number of bytes) and the
file with the chunk appended. -/
def output_fq (fq : fq_file_t) : Option (Int × fq_file_t) :=
  match output_bytes fq.entry with
  | none => none
  | some w => some ((w.length : Int), { fq with out := fq.out ++ [w] })

/-! ## process_paired (lines 677-703) -/

/-- Mirror of `readnext_fq` (lines 284-286). -/
def readnext_fq (fq : fq_file_t) : Outcome (Int × fq_file_t) :=
  match get_entry fq.inp fq.entry with
  | .ret (r, e, f) => .ret (r, { fq with inp := f, entry := e })
  | .exit_failure => .exit_failure
  | .fault => .fault

/-- Mirror of `done_fq` (lines 288-290): `fgetc(fq->in) == EOF`; the byte read is consumed. -/
def done_fq (fq : fq_file_t) : Bool × fq_file_t :=
  match fq.inp with
  | [] => (true, fq)
  | _ :: rest => (false, { fq with inp := rest })

/-- One evaluation of the loop condition of `process_paired` (line 681) followed, when it
holds, by the loop body (lines 682-689).  The flag tells whether the loop goes on. -/
def paired_round (left right : fq_file_t) (opt : options_t) :
    Outcome (Bool × fq_file_t × fq_file_t) :=
  match readnext_fq left with
  | .fault => .fault
  | .exit_failure => .exit_failure
  | .ret (r1, left1) =>
  if r1 ≠ 0 then .ret (false, left1, right) else
  match readnext_fq right with
  | .fault => .fault
  | .exit_failure => .exit_failure
  | .ret (r2, right1) =>
  if r2 ≠ 0 then .ret (false, left1, right1) else
  match process_current_fq left1.entry opt with
  | .fault => .fault
  | .exit_failure => .exit_failure
  | .ret (c1, el) =>
  let left2 := { left1 with entry := el }
  if c1 ≠ 0 then .ret (true, left2, right1) else
  match process_current_fq right1.entry opt with
  | .fault => .fault
  | .exit_failure => .exit_failure
  | .ret (c2, er) =>
  let right2 := { right1 with entry := er }
  if c2 ≠ 0 then .ret (true, left2, right2) else
  match output_fq left2 with
  | none => .fault
  | some (n1, left3) =>
  if n1 < 0 then .exit_failure else
  match output_fq right2 with
  | none => .fault
  | some (n2, right3) =>
  if n2 < 0 then .exit_failure else .ret (true, left3, right3)

/-- The `while` loop of `process_paired`, bounded by a number of rounds; `none` when the
bound is reached before the loop ends. -/
def process_paired_loop (opt : options_t) : Nat → fq_file_t → fq_file_t →
    Option (Outcome (fq_file_t × fq_file_t))
  | 0, _, _ => none
  | fuel + 1, left, right =>
    match paired_round left right opt with
    | .fault => some .fault
    | .exit_failure => some .exit_failure
    | .ret (false, l, r) => some (.ret (l, r))
    | .ret (true, l, r) => process_paired_loop opt fuel l r

/-- Lines 692-702: the two `done_fq` tests behind the loop. -/
def paired_finish (l r : fq_file_t) : Outcome (fq_file_t × fq_file_t) :=
  match done_fq l with
  | (false, _) => .exit_failure
  | (true, l1) =>
    match done_fq r with
    | (false, _) => .exit_failure
    | (true, r1) => .ret (l1, r1)

/-- Mirror of `process_paired`.  Every round that goes on consumes input of the left
file, so `left.inp.length + 1` rounds are enough (`process_paired_loop_total`). -/
def process_paired (left right : fq_file_t) (opt : options_t) :
    Option (Outcome (fq_file_t × fq_file_t)) :=
  match process_paired_loop opt (left.inp.length + 1) left right with
  | none => none
  | some (.ret (l, r)) => some (paired_finish l r)
  | some .exit_failure => some .exit_failure
  | some .fault => some .fault

/-- A file as `init_fq` leaves it (lines 148-197): the whole input unread, nothing written. -/
def init_fq (input : List Int) : fq_file_t :=
  { inp := input, out := [], entry := init_entry }

/-! ## process_nonpaired (lines 705-723) -/

/-- One evaluation of the loop condition of `process_nonpaired` (line 712) followed, when
it holds, by the loop body (lines 713-720).  The flag tells whether the loop goes on. -/
def nonpaired_round (current : fq_file_t) (opt : options_t) : Outcome (Bool × fq_file_t) :=
  match readnext_fq current with
  | .fault => .fault
  | .exit_failure => .exit_failure
  | .ret (r, cur1) =>
  if r ≠ 0 then .ret (false, cur1) else
  match process_current_fq cur1.entry opt with
  | .fault => .fault
  | .exit_failure => .exit_failure
  | .ret (c, e) =>
  let cur2 := { cur1 with entry := e }
  if c ≠ 0 then .ret (true, cur2) else
  match output_fq cur2 with
  | none => .fault
  | some (n, cur3) =>
  if n < 0 then .exit_failure else .ret (true, cur3)

/-- The `while` loop of `process_nonpaired` on one file, bounded by a number of rounds;
`none` when the bound is reached before the loop ends. -/
def nonpaired_loop (opt : options_t) : Nat → fq_file_t → Option (Outcome fq_file_t)
  | 0, _ => none
  | fuel + 1, current =>
    match nonpaired_round current opt with
    | .fault => some .fault
    | .exit_failure => some .exit_failure
    | .ret (false, cur) => some (.ret cur)
    | .ret (true, cur) => nonpaired_loop opt fuel cur

/-- Mirror of `process_nonpaired`: the `for` loop over the files.  Every round of the inner
loop that goes on consumes input, so `inp.length + 1` rounds are enough for a file
(`nonpaired_loop_total`). -/
def process_nonpaired (opt : options_t) : List fq_file_t → Option (Outcome (List fq_file_t))
  | [] => some (.ret [])
  | current :: rest =>
    match nonpaired_loop opt (current.inp.length + 1) current with
    | none => none
    | some .fault => some .fault
    | some .exit_failure => some .exit_failure
    | some (.ret cur) =>
      match process_nonpaired opt rest with
      | none => none
      | some .fault => some .fault
      | some .exit_failure => some .exit_failure
      | some (.ret done) => some (.ret (cur :: done))

/-! ## Sample inputs -/

/-- The file `@r\nACGTACGTACG\n+\nIIIIII#####\n`: eleven bases, qualities `I` (40 at offset 33)
six times and `#` (2 at offset 33) five times. -/
def fq_trim_sample : List Int :=
  [64, 114, 10, 65, 67, 71, 84, 65, 67, 71, 84, 65, 67, 71, 10, 43, 10,
   73, 73, 73, 73, 73, 73, 35, 35, 35, 35, 35, 10]

/-- The entry `get_entry` leaves for `fq_trim_sample`. -/
def entry_trim_sample : fq_entry_t :=
  { id := ⟨[64, 114, 0, 0], 0, 2⟩
    seq := ⟨[65, 67, 71, 84, 65, 67, 71, 84, 65, 67, 71, 0, 0], 0, 11⟩
    qual := ⟨[73, 73, 73, 73, 73, 73, 35, 35, 35, 35, 35, 0, 0], 0, 11⟩ }

/-- The entry `edge_trim` leaves for `entry_trim_sample`. -/
def edged_trim_sample : fq_entry_t :=
  { id := ⟨[64, 114, 0, 0], 0, 2⟩
    seq := ⟨[65, 67, 71, 84, 65, 67, 71, 84, 65, 67, 71, 0, 0], 0, 10⟩
    qual := ⟨[73, 73, 73, 73, 73, 73, 35, 35, 35, 35, 35, 0, 0], 0, 10⟩ }

/-- The record `@a\nAC\n+\nII\n`. -/
def fq_record : List Int := [64, 97, 10, 65, 67, 10, 43, 10, 73, 73, 10]

/-- A file of three records. -/
def fq_three : List Int := fq_record ++ fq_record ++ fq_record

/-- A file of two records. -/
def fq_two : List Int := fq_record ++ fq_record

/-- The entry `get_entry` leaves for `fq_record`. -/
def entry_record : fq_entry_t :=
  { id := ⟨[64, 97, 0, 0], 0, 2⟩, seq := ⟨[65, 67, 0, 0], 0, 2⟩, qual := ⟨[73, 73, 0, 0], 0, 2⟩ }

/-- The file `@r\nACGT\n+\nIIII\n`. -/
def fq_ACGT : List Int := [64, 114, 10, 65, 67, 71, 84, 10, 43, 10, 73, 73, 73, 73, 10]

/-- The entry `get_entry` leaves for `fq_ACGT`. -/
def entry_ACGT : fq_entry_t :=
  { id := ⟨[64, 114, 0, 0], 0, 2⟩
    seq := ⟨[65, 67, 71, 84, 0, 0], 0, 4⟩
    qual := ⟨[73, 73, 73, 73, 0, 0], 0, 4⟩ }

/-- The entry the edge trim leaves for `entry_ACGT`: the recorded length is 3. -/
def edged_ACGT : fq_entry_t :=
  { id := ⟨[64, 114, 0, 0], 0, 2⟩
    seq := ⟨[65, 67, 71, 84, 0, 0], 0, 3⟩
    qual := ⟨[73, 73, 73, 73, 0, 0], 0, 3⟩ }

/-- The file `@r\nN\n+\nI\n`: a read made of one `N`. -/
def fq_N : List Int := [64, 114, 10, 78, 10, 43, 10, 73, 10]

/-- The entry `get_entry` leaves for `fq_N`. -/
def entry_N : fq_entry_t :=
  { id := ⟨[64, 114, 0, 0], 0, 2⟩, seq := ⟨[78, 0, 0], 0, 1⟩, qual := ⟨[73, 0, 0], 0, 1⟩ }

/-- The file `@r\nACGa\n+\nIIII\n`: the last base is a lowercase `a` (97). -/
def fq_ACGa : List Int := [64, 114, 10, 65, 67, 71, 97, 10, 43, 10, 73, 73, 73, 73, 10]

/-- The entry `get_entry` leaves for `fq_ACGa`. -/
def entry_ACGa : fq_entry_t :=
  { id := ⟨[64, 114, 0, 0], 0, 2⟩
    seq := ⟨[65, 67, 71, 97, 0, 0], 0, 4⟩
    qual := ⟨[73, 73, 73, 73, 0, 0], 0, 4⟩ }

/-- The file `@r\nACGT\n+\n+"""\n`: qualities 10, 1, 1, 1 at offset 33. -/
def fq_lowq : List Int := [64, 114, 10, 65, 67, 71, 84, 10, 43, 10, 43, 34, 34, 34, 10]

/-- The entry `get_entry` leaves for `fq_lowq`. -/
def entry_lowq : fq_entry_t :=
  { id := ⟨[64, 114, 0, 0], 0, 2⟩
    seq := ⟨[65, 67, 71, 84, 0, 0], 0, 4⟩
    qual := ⟨[43, 34, 34, 34, 0, 0], 0, 4⟩ }

/-- The file `@r\nAC\n+\nI` NUL `\n`: the quality line holds a NUL byte. -/
def fq_nul : List Int := [64, 114, 10, 65, 67, 10, 43, 10, 73, 0, 10]

/-- The entry `get_entry` leaves for `fq_nul`. -/
def entry_nul : fq_entry_t :=
  { id := ⟨[64, 114, 0, 0], 0, 2⟩, seq := ⟨[65, 67, 0, 0], 0, 2⟩, qual := ⟨[73, 0, 0, 0], 0, 2⟩ }

/-- The file `@r\nACG\n+\nI` NUL `I\n`: a NUL byte inside the quality line. -/
def fq_nul_mid : List Int := [64, 114, 10, 65, 67, 71, 10, 43, 10, 73, 0, 73, 10]

/-- The entry `get_entry` leaves for `fq_nul_mid`. -/
def entry_nul_mid : fq_entry_t :=
  { id := ⟨[64, 114, 0, 0], 0, 2⟩, seq := ⟨[65, 67, 71, 0, 0], 0, 3⟩,
    qual := ⟨[73, 0, 73, 0, 0], 0, 3⟩ }

/-- The file `@r\nACGT\n+\nIII\n`: four bases, three qualities. -/
def fq_short_qual : List Int := [64, 114, 10, 65, 67, 71, 84, 10, 43, 10, 73, 73, 73, 10]

/-- The record `a\nAC\n+\nII\n`: the first line does not start with `@`. -/
def fq_no_at : List Int := [97, 10, 65, 67, 10, 43, 10, 73, 73, 10]

/-- A file of three records, the second of which lacks its `@`. -/
def fq_malformed : List Int := fq_record ++ fq_no_at ++ fq_record

/-- A file of one record followed by the first two lines of a second record. -/
def fq_truncated : List Int := fq_record ++ [64, 97, 10, 65, 67, 10]

/-- The file `@r\nACGT\n+\nIII~\n`: the last quality byte is `~` (126). -/
def fq_badq : List Int := [64, 114, 10, 65, 67, 71, 84, 10, 43, 10, 73, 73, 73, 126, 10]

/-- The entry `get_entry` leaves for `fq_badq`. -/
def entry_badq : fq_entry_t :=
  { id := ⟨[64, 114, 0, 0], 0, 2⟩
    seq := ⟨[65, 67, 71, 84, 0, 0], 0, 4⟩
    qual := ⟨[73, 73, 73, 126, 0, 0], 0, 4⟩ }

/-- The file `@r\nNACNGN\n+\nABCDEF\n`: `N` at both ends and inside the read. -/
def fq_edges : List Int :=
  [64, 114, 10, 78, 65, 67, 78, 71, 78, 10, 43, 10, 65, 66, 67, 68, 69, 70, 10]

/-- The entry `get_entry` leaves for `fq_edges`. -/
def entry_edges : fq_entry_t :=
  { id := ⟨[64, 114, 0, 0], 0, 2⟩
    seq := ⟨[78, 65, 67, 78, 71, 78, 0, 0], 0, 6⟩
    qual := ⟨[65, 66, 67, 68, 69, 70, 0, 0], 0, 6⟩ }

/-- The entry `edge_trim` leaves for `entry_edges`. -/
def edged_edges : fq_entry_t :=
  { id := ⟨[64, 114, 0, 0], 0, 2⟩
    seq := ⟨[78, 65, 67, 78, 71, 0, 0, 0], 1, 3⟩
    qual := ⟨[65, 66, 67, 68, 69, 0, 0, 0], 1, 3⟩ }

/-- The file `@r\nACGT\n+\n###I\n`: qualities 2, 2, 2, 40 at offset 33. -/
def fq_good_end : List Int := [64, 114, 10, 65, 67, 71, 84, 10, 43, 10, 35, 35, 35, 73, 10]

/-- The entry `get_entry` leaves for `fq_good_end`. -/
def entry_good_end : fq_entry_t :=
  { id := ⟨[64, 114, 0, 0], 0, 2⟩
    seq := ⟨[65, 67, 71, 84, 0, 0], 0, 4⟩
    qual := ⟨[35, 35, 35, 73, 0, 0], 0, 4⟩ }

/-- The entry `edge_trim` leaves for `entry_good_end`. -/
def edged_good_end : fq_entry_t :=
  { id := ⟨[64, 114, 0, 0], 0, 2⟩
    seq := ⟨[65, 67, 71, 84, 0, 0], 0, 3⟩
    qual := ⟨[35, 35, 35, 73, 0, 0], 0, 3⟩ }

/-- The entry `process_current_fq` leaves for `entry_trim_sample` with threshold 20. -/
def trimmed_trim_sample : fq_entry_t :=
  { id := ⟨[64, 114, 0, 0], 0, 2⟩
    seq := ⟨[65, 67, 71, 84, 65, 67, 0, 84, 65, 67, 71, 0, 0], 0, 6⟩
    qual := ⟨[73, 73, 73, 73, 73, 73, 0, 35, 35, 35, 35, 0, 0], 0, 6⟩ }

/-! ## Predicates used by the statements -/

/-- An entry as a successful `get_entry` leaves its sequence and quality buffers: the
stripped lines `sl` and `ql`, each followed by its NUL, `str` at the start, `str_len`
the length of the line, and both lines of one length. -/
def Fresh (e : fq_entry_t) (sl ql : List Int) : Prop :=
  ∃ r1 r2, e.seq = ⟨sl ++ 0 :: r1, 0, sl.length⟩ ∧ e.qual = ⟨ql ++ 0 :: r2, 0, ql.length⟩ ∧
    sl.length = ql.length

/-- An entry behind the edge trim: the sequence buffer holds `s` and a NUL, the quality
buffer `q` and a NUL, both strings start at offset `i` and the recorded length is the
index of the last cell before the NUL. -/
def EdgeTrimmed (e : fq_entry_t) (i : Nat) (s q : List Int) : Prop :=
  ∃ rs rq, e.seq = ⟨s ++ 0 :: rs, i, (s.length : Int) - 1 - i⟩ ∧
    e.qual = ⟨q ++ 0 :: rq, i, (q.length : Int) - 1 - i⟩ ∧
    s.length = q.length ∧ i < s.length

/-- The read as the pipeline sees it behind the edge trim: the cells `str[0 .. str_len]`,
the last one included (`str_len` is set to `j - i`, the index of the last base). -/
def strbuf_t.window (sb : strbuf_t) : List Int :=
  (sb.buf.drop sb.str).take (sb.str_len + 1).toNat

/-- The cumulative deficit of a cut at `k` in the quality bytes `q`: the sum over
`i = k .. L-1` of `t - q_i`, with `q_i` the byte minus the Phred offset. -/
def deficit (t off : Int) (q : List Int) (k : Nat) : Int :=
  ((q.drop k).map (fun c => t - (c - off))).sum

/-- The value `x` is representable in a 32-bit `int`. -/
def fits_int (x : Int) : Prop := -2147483648 ≤ x ∧ x ≤ 2147483647

instance (x : Int) : Decidable (fits_int x) := by
  unfold fits_int
  infer_instance

/-- The line as `get_entry` records it: the `str_len` cells from `str` on. -/
def strbuf_t.line (sb : strbuf_t) : List Int :=
  (sb.buf.drop sb.str).take sb.str_len.toNat

/-- The line without its trailing white space, in the words of the specification: what is
left when the white space characters at the end are removed. -/
def rstrip (s : List Int) : List Int :=
  s.rdropWhile isspace

/-- Four lines are available on the input `f`: four calls of `getline` in a row deliver
`l1`, `l2`, `l3`, `l4` and leave `f4`. -/
def FourLines (f l1 l2 l3 l4 f4 : List Int) : Prop :=
  ∃ f1 f2 f3, getline f = some (l1, f1) ∧ getline f1 = some (l2, f2) ∧
    getline f2 = some (l3, f3) ∧ getline f3 = some (l4, f4)

/-- The number of `N` at the start of a sequence. -/
def leading_N (s : List Int) : Nat :=
  (s.takeWhile (fun c => c == 78)).length

/-- The number of `N` at the end of a sequence. -/
def trailing_N (s : List Int) : Nat :=
  (s.reverse.takeWhile (fun c => c == 78)).length

/-- The sequence without its ambiguous edges, in the words of the specification: the
leading run and the trailing run of `N` are removed, an `N` inside is kept. -/
def strip_ambiguous (s : List Int) : List Int :=
  (s.dropWhile (fun c => c == 78)).rdropWhile (fun c => c == 78)

/-! ## Lemmas on buffers -/

theorem rd_append_left (a b : List Int) (k : Nat) (h : k < a.length) :
    rd (a ++ b) (k : Int) = some (a[k]) := by
  simp [rd, List.getElem?_append_left h, List.getElem?_eq_getElem h]

theorem rd_append_length (a b : List Int) (v : Int) :
    rd (a ++ v :: b) (a.length : Int) = some v := by
  simp [rd, List.getElem?_append_right (Nat.le_refl _)]

theorem wr_append_length (a b : List Int) (v w : Int) :
    wr (a ++ v :: b) (a.length : Int) w = some (a ++ w :: b) := by
  simp [wr]

theorem wr_append_left (a b : List Int) (k : Nat) (w : Int) (h : k < a.length) :
    wr (a ++ b) (k : Int) w = some (a.take k ++ w :: (a.drop (k + 1) ++ b)) := by
  have h2 : k < (a ++ b).length := by simp; omega
  simp only [wr, Int.toNat_ofNat, Int.ofNat_nonneg, true_and]
  rw [if_pos (by exact_mod_cast h2)]
  congr 1
  rw [List.set_eq_take_append_cons_drop]
  simp only [List.length_append] at h2
  simp [List.take_append_of_le_length (Nat.le_of_lt h), List.drop_append_of_le_length (Nat.succ_le_of_lt h)]
  omega

theorem c_str_append (a b : List Int) (h : (0 : Int) ∉ a) :
    c_str (a ++ 0 :: b) = some a := by
  induction a with
  | nil => simp [c_str]
  | cons x t ih =>
    have hx : x ≠ 0 := fun hx => h (by simp [hx])
    have ht : (0 : Int) ∉ t := fun ht => h (by simp [ht])
    simp [c_str, hx, ih ht]

theorem c_str_eq_some (m s : List Int) (h : c_str m = some s) :
    (0 : Int) ∉ s ∧ ∃ r, m = s ++ 0 :: r := by
  induction m generalizing s with
  | nil => simp [c_str] at h
  | cons x t ih =>
    by_cases hx : x = 0
    · simp [c_str, hx] at h
      subst h
      exact ⟨by simp, t, by simp [hx]⟩
    · simp only [c_str, hx, if_false, Option.map_eq_some'] at h
      obtain ⟨u, hu, rfl⟩ := h
      obtain ⟨h0, r, hr⟩ := ih u hu
      refine ⟨?_, r, by simp [hr]⟩
      simp only [List.mem_cons, not_or]
      exact ⟨fun h => hx h.symm, h0⟩

theorem wr_prefix (l r : List Int) (n : Nat) (h : n ≤ l.length) :
    ∃ rs, wr (l ++ 0 :: r) (n : Int) 0 = some (l.take n ++ 0 :: rs) := by
  rcases Nat.lt_or_eq_of_le h with h1 | h1
  · exact ⟨_, wr_append_left l (0 :: r) n 0 h1⟩
  · subst h1
    exact ⟨r, by simpa using wr_append_length l r 0 0⟩

theorem scan_up_spec (cells : List Int) (i0 i : Nat) (h : scan_up cells i0 = some i) :
    i0 ≤ i ∧ (∃ x, cells[i - i0]? = some x ∧ x ≠ 78) ∧
      ∀ k, k < i - i0 → cells[k]? = some 78 := by
  induction cells generalizing i0 with
  | nil => simp [scan_up] at h
  | cons x t ih =>
    by_cases hx : x = 78
    · simp only [scan_up, hx, if_true] at h
      obtain ⟨h1, ⟨y, h2, h3⟩, h4⟩ := ih (i0 + 1) h
      have e1 : i - i0 = (i - (i0 + 1)) + 1 := by omega
      refine ⟨by omega, ⟨y, ?_, h3⟩, ?_⟩
      · rw [e1]; simpa using h2
      · intro k hk
        cases k with
        | zero => simp [hx]
        | succ k => simpa using h4 k (by omega)
    · simp only [scan_up, hx, if_false, Option.some.injEq] at h
      subst h
      exact ⟨le_refl _, ⟨x, by simp, hx⟩, by intro k hk; omega⟩

theorem scan_down_spec (m : List Int) (a ja : Nat) (h : scan_down m a = some ja) :
    ja < a ∧ (∃ x, m[ja]? = some x ∧ x ≠ 78) ∧
      ∀ k, ja < k → k < a → m[k]? = some 78 := by
  induction a with
  | zero => simp [scan_down] at h
  | succ a ih =>
    simp only [scan_down] at h
    cases hm : m[a]? with
    | none => simp [hm] at h
    | some ch =>
      simp only [hm] at h
      by_cases hc : ch = 78
      · simp only [hc, if_true] at h
        obtain ⟨h1, h2, h3⟩ := ih h
        refine ⟨by omega, h2, ?_⟩
        intro k hk1 hk2
        rcases Nat.lt_or_eq_of_le (Nat.le_of_lt_succ hk2) with h4 | h4
        · exact h3 k hk1 h4
        · subst h4; simpa [hc] using hm
      · simp only [hc, if_false, Option.some.injEq] at h
        subst h
        exact ⟨by omega, ⟨ch, hm, hc⟩, by intro k hk1 hk2; omega⟩

theorem edge_trim_fresh (e e1 : fq_entry_t) (sl ql : List Int) (hf : Fresh e sl ql)
    (h : edge_trim e = some e1) :
    ∃ i ja, i ≤ ja ∧ ja < sl.length ∧ EdgeTrimmed e1 i (sl.take (ja + 1)) (ql.take (ja + 1)) ∧
      e1.id = e.id ∧ ((sl.take i = List.replicate i 78) ∧ (∃ x, sl[i]? = some x ∧ x ≠ 78) ∧
      (∃ x, sl[ja]? = some x ∧ x ≠ 78) ∧ sl.drop (ja + 1) = List.replicate (sl.length - (ja + 1)) 78) := by
  obtain ⟨r1, r2, hs, hq, hlen⟩ := hf
  unfold edge_trim at h
  rw [hs, hq] at h
  simp only [List.drop_zero, Nat.cast_zero, zero_add, sub_zero, Int.toNat_ofNat] at h
  cases hu : scan_up (sl ++ 0 :: r1) 0 with
  | none => simp [hu] at h
  | some i =>
    simp only [hu] at h
    cases hd2 : scan_down (sl ++ 0 :: r1) sl.length with
    | none => simp [hd2] at h
    | some ja =>
      simp only [hd2] at h
      obtain ⟨-, ⟨x, hx1, hx2⟩, hx3⟩ := scan_up_spec _ _ _ hu
      obtain ⟨hj1, ⟨y, hy1, hy2⟩, hy3⟩ := scan_down_spec _ _ _ hd2
      simp only [Nat.sub_zero] at hx1 hx3
      have hij : i ≤ ja := by
        by_contra hc
        have := hx3 ja (by omega)
        rw [hy1] at this
        exact hy2 (by simpa using this)
      obtain ⟨rs, hrs⟩ := wr_prefix sl r1 (ja + 1) (by omega)
      obtain ⟨rq, hrq⟩ := wr_prefix ql r2 (ja + 1) (by omega)
      simp only [Nat.cast_add, Nat.cast_one] at hrs hrq
      simp only [hrs, hrq, Option.some.injEq] at h
      subst h
      refine ⟨i, ja, hij, hj1, ⟨rs, rq, ?_, ?_, ?_, ?_⟩, rfl, ?_, ?_, ?_, ?_⟩
      · simp only [List.length_take, Nat.zero_add, strbuf_t.mk.injEq, true_and]
        rw [Nat.min_eq_left (by omega)]; push_cast; ring
      · simp only [List.length_take, Nat.zero_add, strbuf_t.mk.injEq, true_and]
        rw [Nat.min_eq_left (by omega)]; push_cast; ring
      · simp only [List.length_take]; omega
      · simp only [List.length_take]; omega
      · apply List.ext_getElem?
        intro k
        by_cases hk : k < i
        · have := hx3 k hk
          rw [List.getElem?_append_left (by omega)] at this
          simp [List.getElem?_take, hk, this, List.getElem?_replicate]
        · simp [List.getElem?_take, hk, List.getElem?_replicate]
      · rw [List.getElem?_append_left (by omega)] at hx1
        exact ⟨x, hx1, hx2⟩
      · rw [List.getElem?_append_left (by omega)] at hy1
        exact ⟨y, hy1, hy2⟩
      · apply List.ext_getElem?
        intro k
        by_cases hk : ja + 1 + k < sl.length
        · have := hy3 (ja + 1 + k) (by omega) hk
          rw [List.getElem?_append_left hk] at this
          simp only [List.getElem?_drop, this, List.getElem?_replicate]
          rw [if_pos (by omega)]
        · simp only [List.getElem?_drop, List.getElem?_replicate]
          rw [if_neg (by omega), List.getElem?_eq_none (by omega)]

/-! ## Lemmas on the record reader -/

theorem take_line_append (f : List Int) : (take_line f).1 ++ (take_line f).2 = f := by
  induction f with
  | nil => simp [take_line]
  | cons x t ih =>
    by_cases hx : x = 10
    · simp [take_line, hx]
    · simp [take_line, hx, ih]

theorem take_line_pos (x : Int) (t : List Int) : 0 < (take_line (x :: t)).1.length := by
  by_cases hx : x = 10 <;> simp [take_line, hx]

theorem take_line_of_not_mem (l rest : List Int) (h : (10 : Int) ∉ l) :
    take_line (l ++ 10 :: rest) = (l ++ [10], rest) := by
  induction l with
  | nil => simp [take_line]
  | cons x t ih =>
    have hx : x ≠ 10 := fun hx => h (by simp [hx])
    have ht : (10 : Int) ∉ t := fun ht => h (by simp [ht])
    simp [take_line, hx, ih ht]

theorem take_line_fst (f : List Int) :
    (∃ l, (take_line f).1 = l ++ [10] ∧ (10 : Int) ∉ l) ∨ (10 : Int) ∉ (take_line f).1 := by
  induction f with
  | nil => right; simp [take_line]
  | cons x t ih =>
    by_cases hx : x = 10
    · left; exact ⟨[], by simp [take_line, hx]⟩
    · have hx2 : ¬ (10 : Int) = x := fun h => hx h.symm
      rcases ih with ⟨l, h1, h2⟩ | h1
      · left
        exact ⟨x :: l, by simp [take_line, hx, h1], by simp [hx2, h2]⟩
      · right
        simp [take_line, hx, hx2, h1]

theorem getline_some (f line rest : List Int) (h : getline f = some (line, rest)) :
    line ++ rest = f ∧ 0 < line.length := by
  cases f with
  | nil => simp [getline] at h
  | cons x t =>
    simp only [getline, Option.some.injEq] at h
    have h1 := take_line_append (x :: t)
    have h2 := take_line_pos x t
    rw [h] at h1 h2
    exact ⟨h1, h2⟩

theorem rtrim_loop_spec (s : List Int) (n en : Nat) (hn : n ≤ s.length) :
    ∃ c, rtrim_loop s n en = some (en + c) ∧ c ≤ n ∧
      (∀ k, n - c ≤ k → k < n → ∃ x, s[k]? = some x ∧ isspace x = true) ∧
      (∀ x, c < n → s[n - c - 1]? = some x → isspace x = false) := by
  induction n generalizing en with
  | zero => exact ⟨0, by simp [rtrim_loop]⟩
  | succ i ih =>
    have hi : i < s.length := by omega
    simp only [rtrim_loop, List.getElem?_eq_getElem hi]
    by_cases hsp : isspace s[i] = true
    · obtain ⟨c, h1, h2, h3, h4⟩ := ih (en + 1) (by omega)
      refine ⟨c + 1, ?_, by omega, ?_, ?_⟩
      · simp only [hsp, if_true, h1]; congr 1; omega
      · intro k hk1 hk2
        rcases Nat.lt_or_eq_of_le (Nat.le_of_lt_succ hk2) with h5 | h5
        · exact h3 k (by omega) h5
        · subst h5; exact ⟨s[k], List.getElem?_eq_getElem hi, hsp⟩
      · intro x hc hx
        have e1 : i + 1 - (c + 1) - 1 = i - c - 1 := by omega
        rw [e1] at hx
        exact h4 x (by omega) hx
    · refine ⟨0, by simp [hsp], by omega, by intro k hk1 hk2; omega, ?_⟩
      intro x _ hx
      simp only [Nat.sub_zero, Nat.add_sub_cancel, List.getElem?_eq_getElem hi,
        Option.some.injEq] at hx
      subst hx
      simpa using hsp

/-- What `rtrim_whitespace` does to a line as `getline` stores it. -/
theorem rtrim_whitespace_line (line : List Int) :
    ∃ c rs, c ≤ line.length ∧
      rtrim_whitespace (line ++ [0]) line.length
        = some (line.take (line.length - c) ++ 0 :: rs, ((line.length - c : Nat) : Int)) ∧
      (∀ x ∈ line.drop (line.length - c), isspace x = true) ∧
      (∀ x, (line.take (line.length - c)).getLast? = some x → isspace x = false) := by
  obtain ⟨c, h1, h2, h3, h4⟩ := rtrim_loop_spec (line ++ [0]) line.length 0 (by simp)
  obtain ⟨rs, hrs⟩ := wr_prefix line [] (line.length - c) (by omega)
  refine ⟨c, rs, h2, ?_, ?_, ?_⟩
  · simp only [rtrim_whitespace, Int.toNat_ofNat, h1, Nat.zero_add]
    have e1 : (line.length : Int) - (c : Int) = ((line.length - c : Nat) : Int) := by omega
    rw [e1, hrs]
  · intro x hx
    obtain ⟨k, hk, rfl⟩ := List.getElem_of_mem hx
    simp only [List.length_drop] at hk
    obtain ⟨y, hy1, hy2⟩ := h3 (line.length - c + k) (by omega) (by omega)
    rw [List.getElem?_append_left (by omega)] at hy1
    simp only [List.getElem_drop]
    rw [List.getElem?_eq_getElem (by omega)] at hy1
    simp only [Option.some.injEq] at hy1
    rw [hy1]; exact hy2
  · intro x hx
    rcases Nat.eq_zero_or_pos (line.length - c) with h0 | h0
    · simp [h0] at hx
    · apply h4 x (by omega)
      rw [List.getLast?_eq_getElem?] at hx
      simp only [List.length_take, List.getElem?_take] at hx
      rw [Nat.min_eq_left (by omega)] at hx
      rw [if_pos (by omega)] at hx
      rw [List.getElem?_append_left (by omega)]
      exact hx

/-- A round of `get_entry` that goes through leaves a stripped line `l` followed by NUL;
`l` and the white space `ws` behind it make up the line read. -/
theorem get_entry_round_true (mk : Option Int) (sb sb1 : strbuf_t) (f f1 : List Int)
    (h : get_entry_round mk sb f = some (true, sb1, f1)) :
    ∃ l ws r, l ++ ws ++ f1 = f ∧ 0 < (l ++ ws).length ∧ sb1 = ⟨l ++ 0 :: r, 0, l.length⟩ ∧
      (∀ x ∈ ws, isspace x = true) ∧ (∀ x, l.getLast? = some x → isspace x = false) ∧
      (∀ m, mk = some m → (l ++ ws).head? = some m) ∧ (10 : Int) ∉ l := by
  unfold get_entry_round at h
  cases hg : getline f with
  | none => simp [hg] at h
  | some p =>
    obtain ⟨line, rest⟩ := p
    obtain ⟨hl1, hl2⟩ := getline_some _ _ _ hg
    simp only [hg] at h
    obtain ⟨c, rs, hc, hr, hws, hlast⟩ := rtrim_whitespace_line line
    split at h
    · simp at h
    · rename_i hmk
      rw [hr] at h
      simp only [Option.some.injEq, Prod.mk.injEq, true_and] at h
      obtain ⟨h1, h2⟩ := h
      subst h1 h2
      refine ⟨line.take (line.length - c), line.drop (line.length - c), rs, ?_, ?_, ?_, hws, hlast,
        ?_, ?_⟩
      · simp [hl1]
      · simpa using hl2
      · simp only [List.length_take, strbuf_t.mk.injEq, true_and]
        rw [Nat.min_eq_left (by omega)]
      · intro m hm
        subst hm
        simp only [Option.isSome_some, true_and, not_not] at hmk
        rw [List.take_append_drop]
        cases line with
        | nil => simp at hl2
        | cons a t => simpa [rd] using hmk
      · have hline : line = (take_line f).1 := by
          cases f with
          | nil => simp [getline] at hg
          | cons a t =>
            simp only [getline, Option.some.injEq] at hg
            rw [hg]
        rcases take_line_fst f with ⟨l1, h1, h2⟩ | h1
        · rw [← hline] at h1
          have hc0 : c ≠ 0 := by
            intro hc0
            subst hc0
            have := hlast 10 (by simp only [Nat.sub_zero, List.take_length]; simp [h1])
            simp [isspace] at this
          intro hm
          apply h2
          have hsub : line.take (line.length - c) <+: l1 := by
            rw [h1, List.take_append_of_le_length (by simp [h1] at hc ⊢; omega)]
            exact List.take_prefix _ _
          exact hsub.mem hm
        · rw [← hline] at h1
          exact fun hm => h1 (List.mem_of_mem_take hm)

/-- A successful `get_entry` is four rounds that went through, followed by the test of
the two lengths. -/
theorem get_entry_rounds (f f1 : List Int) (e0 e : fq_entry_t)
    (h : get_entry f e0 = .ret (0, e, f1)) :
    ∃ sb0 sb1 sb2 sb3 fa fb fc,
      get_entry_round (some 64) e0.id f = some (true, sb0, fa) ∧
      get_entry_round none e0.seq fa = some (true, sb1, fb) ∧
      get_entry_round (some 43) e0.qual fb = some (true, sb2, fc) ∧
      get_entry_round none sb2 fc = some (true, sb3, f1) ∧
      e = ⟨sb0, sb1, sb3⟩ ∧ sb1.str_len = sb3.str_len := by
  unfold get_entry at h
  split at h
  · simp at h
  · simp at h
  · rename_i sb0 fa h0
    simp only at h
    split at h
    · simp at h
    · simp at h
    · rename_i sb1 fb h1
      split at h
      · simp at h
      · simp at h
      · rename_i sb2 fc h2
        split at h
        · simp at h
        · simp at h
        · rename_i sb3 fd h3
          split at h
          · simp at h
          · rename_i hlen
            simp only [ne_eq, not_not] at hlen
            simp only [Outcome.ret.injEq, Prod.mk.injEq, true_and] at h
            obtain ⟨he, hf⟩ := h
            subst he hf
            exact ⟨sb0, sb1, sb2, sb3, fa, fb, fc, h0, h1, h2, h3, rfl, hlen⟩

/-- A successful `get_entry` leaves a fresh record, made of bytes of the input, and
consumes input. -/
theorem get_entry_fresh (f f1 : List Int) (e0 e : fq_entry_t)
    (h : get_entry f e0 = .ret (0, e, f1)) :
    ∃ sl ql, Fresh e sl ql ∧ (∀ x ∈ sl, x ∈ f) ∧ (∀ x ∈ ql, x ∈ f) ∧ f1.length < f.length := by
  obtain ⟨sb0, sb1, sb2, sb3, fa, fb, fc, h0, h1, h2, h3, he, hlen⟩ := get_entry_rounds f f1 e0 e h
  obtain ⟨l0, w0, r0, ha0, hp0, -, -, -, -⟩ := get_entry_round_true _ _ _ _ _ h0
  obtain ⟨l1, w1, r1, ha1, hp1, hs1, -, -, -⟩ := get_entry_round_true _ _ _ _ _ h1
  obtain ⟨l2, w2, r2, ha2, hp2, -, -, -, -⟩ := get_entry_round_true _ _ _ _ _ h2
  obtain ⟨l3, w3, r3, ha3, hp3, hs3, -, -, -⟩ := get_entry_round_true _ _ _ _ _ h3
  subst hs1 hs3 he
  simp only [Nat.cast_inj] at hlen
  refine ⟨l1, l3, ⟨r1, r3, rfl, rfl, hlen⟩, ?_, ?_, ?_⟩
  · intro x hx
    rw [← ha0, ← ha1]; simp [hx]
  · intro x hx
    rw [← ha0, ← ha1, ← ha2, ← ha3]; simp [hx]
  · rw [← ha0, ← ha1, ← ha2, ← ha3]
    simp only [List.length_append] at hp0 hp1 hp2 hp3 ⊢
    omega

/-- The id buffer a successful `get_entry` leaves: the stripped id line and a NUL. -/
theorem get_entry_id (f f1 : List Int) (e0 e : fq_entry_t)
    (h : get_entry f e0 = .ret (0, e, f1)) :
    ∃ idl r0, e.id = ⟨idl ++ 0 :: r0, 0, idl.length⟩ := by
  obtain ⟨sb0, sb1, sb2, sb3, fa, fb, fc, h0, h1, h2, h3, he, hlen⟩ := get_entry_rounds f f1 e0 e h
  obtain ⟨l0, w0, r0, -, -, hs0, -, -, -⟩ := get_entry_round_true _ _ _ _ _ h0
  subst he
  exact ⟨l0, r0, hs0⟩

/-! ## Lemmas on the quality trim -/

theorem deficit_succ (t off : Int) (q : List Int) (k : Nat) (h : k < q.length) :
    deficit t off q k = (t - (q[k] - off)) + deficit t off q (k + 1) := by
  unfold deficit
  rw [List.drop_eq_getElem_cons h, List.map_cons, List.sum_cons]

theorem deficit_length (t off : Int) (q : List Int) : deficit t off q q.length = 0 := by
  simp [deficit]

theorem wrap32_of_fits (x : Int) (h : fits_int x) : wrap32 x = x := by
  unfold fits_int at h
  unfold wrap32
  omega

theorem wrap32_add_wrap32 (a b : Int) : wrap32 (a + wrap32 b) = wrap32 (a + b) := by
  unfold wrap32
  omega

/-- As long as no running sum leaves the range of an `int`, the loop of the quality trim
keeps the rightmost position of maximal deficit. -/
theorem trim_loop_spec (m : List Int) (str : Nat) (t off : Int) (q : List Int)
    (hq : ∀ k (h : k < q.length), rd m ((str : Int) + (k : Int)) = some q[k])
    (hfit : ∀ k, k < q.length → fits_int (deficit t off q k))
    (n : Nat) (j mv : Int) (am : Nat)
    (hj : j = deficit t off q n) (h1 : n ≤ am) (h2 : am < q.length)
    (hmv : mv = deficit t off q am)
    (hmax : ∀ k, n ≤ k → k < q.length → deficit t off q k ≤ mv)
    (hright : ∀ k, am < k → k < q.length → deficit t off q k < mv) :
    ∃ mv1 am1, trim_loop m str t off n j mv (am : Int) = some (mv1, ((am1 : Nat) : Int)) ∧
      am1 < q.length ∧
      (∀ k, k < q.length → deficit t off q k ≤ deficit t off q am1) ∧
      (∀ k, am1 < k → k < q.length → deficit t off q k < deficit t off q am1) := by
  induction n generalizing j mv am with
  | zero =>
    refine ⟨mv, am, by simp [trim_loop], h2, ?_, ?_⟩
    · intro k hk; rw [← hmv]; exact hmax k (Nat.zero_le _) hk
    · intro k hk1 hk2; rw [← hmv]; exact hright k hk1 hk2
  | succ i ih =>
    have hi : i < q.length := by omega
    have hd := deficit_succ t off q i hi
    simp only [trim_loop, hq i hi]
    have hj1 : wrap32 (j + wrap32 (t - (q[i] - off))) = deficit t off q i := by
      rw [wrap32_add_wrap32]
      have e : j + (t - (q[i] - off)) = deficit t off q i := by rw [hd, hj]; ring
      rw [e]
      exact wrap32_of_fits _ (hfit i hi)
    by_cases hgt : wrap32 (j + wrap32 (t - (q[i] - off))) > mv
    · rw [if_pos hgt]
      apply ih _ _ i hj1 (le_refl _) hi hj1
      · intro k hk1 hk2
        rcases Nat.lt_or_eq_of_le hk1 with h3 | h3
        · have := hmax k (by omega) hk2
          omega
        · subst h3; omega
      · intro k hk1 hk2
        have := hmax k (by omega) hk2
        omega
    · rw [if_neg hgt]
      apply ih _ _ am hj1 (by omega) h2 hmv
      · intro k hk1 hk2
        rcases Nat.lt_or_eq_of_le hk1 with h3 | h3
        · exact hmax k (by omega) hk2
        · subst h3; omega
      · exact hright

/-- Whatever the running sums are, the loop of the quality trim returns, and its
`argmax` is the initial one or a position the loop has visited. -/
theorem trim_loop_cut (m : List Int) (str : Nat) (t off : Int) (q : List Int)
    (hq : ∀ k (h : k < q.length), rd m ((str : Int) + (k : Int)) = some q[k])
    (n : Nat) (j mv : Int) (am : Nat) (h1 : n ≤ q.length) :
    ∃ mv1 am1, trim_loop m str t off n j mv (am : Int) = some (mv1, ((am1 : Nat) : Int)) ∧
      (am1 = am ∨ am1 < n) := by
  induction n generalizing j mv am with
  | zero => exact ⟨mv, am, by simp [trim_loop], Or.inl rfl⟩
  | succ i ih =>
    have hi : i < q.length := by omega
    simp only [trim_loop, hq i hi]
    by_cases hgt : wrap32 (j + wrap32 (t - (q[i] - off))) > mv
    · rw [if_pos hgt]
      obtain ⟨mv1, am1, h2, h3⟩ := ih (wrap32 (j + wrap32 (t - (q[i] - off))))
        (wrap32 (j + wrap32 (t - (q[i] - off)))) i (by omega)
      exact ⟨mv1, am1, h2, by omega⟩
    · rw [if_neg hgt]
      obtain ⟨mv1, am1, h2, h3⟩ := ih (wrap32 (j + wrap32 (t - (q[i] - off)))) mv am (by omega)
      exact ⟨mv1, am1, h2, by omega⟩

theorem window_edge_trimmed (e1 : fq_entry_t) (i : Nat) (s q : List Int)
    (h : EdgeTrimmed e1 i s q) : e1.seq.window = s.drop i ∧ e1.qual.window = q.drop i := by
  obtain ⟨rs, rq, hs, hq, hlen, hi⟩ := h
  have e1 : ((s.length : Int) - 1 - (i : Int) + 1).toNat = s.length - i := by omega
  have e2 : ((q.length : Int) - 1 - (i : Int) + 1).toNat = q.length - i := by omega
  constructor
  · simp only [strbuf_t.window, hs, e1]
    rw [List.drop_append_of_le_length (by omega), List.take_append_of_le_length (by simp)]
    simp
  · simp only [strbuf_t.window, hq, e2]
    rw [List.drop_append_of_le_length (by omega), List.take_append_of_le_length (by simp)]
    simp

theorem rd_window (q rq : List Int) (i k : Nat) (h : k < (q.drop i).length) :
    rd (q ++ 0 :: rq) ((i : Int) + (k : Int)) = some (q.drop i)[k] := by
  simp only [List.length_drop] at h
  have e1 : (i : Int) + (k : Int) = ((i + k : Nat) : Int) := by push_cast; rfl
  rw [e1, rd_append_left q _ (i + k) (by omega)]
  simp [List.getElem_drop]

/-- The quality trim on an edge-trimmed entry whose last quality is below the threshold
cuts both strings at one position `k` inside the read, whatever the running sums are. -/
theorem quality_trim_engaged_cut (e1 : fq_entry_t) (i : Nat) (s q : List Int) (opt : options_t)
    (last : Int) (h : EdgeTrimmed e1 i s q) (ht : opt.qual_trim > -1)
    (hlast : q[q.length - 1]? = some last)
    (hlt : last - opt.phred_offset < opt.qual_trim) :
    ∃ k rs rq, quality_trim e1 opt
        = some ⟨e1.id, ⟨s.take (i + k) ++ 0 :: rs, i, k⟩, ⟨q.take (i + k) ++ 0 :: rq, i, k⟩⟩ ∧
      k < (q.drop i).length := by
  obtain ⟨rs, rq, hs, hq, hlen, hi⟩ := h
  obtain ⟨id1, seq1, qual1⟩ := e1
  simp only at hs hq
  subst hs hq
  obtain ⟨n, hn⟩ : ∃ n, q.length = i + n + 1 := ⟨q.length - i - 1, by omega⟩
  have hdl : (q.drop i).length = n + 1 := by simp [hn]; omega
  have hrd := rd_window q rq i n (by omega)
  have hqn : (q.drop i)[n] = last := by
    have : q[q.length - 1]? = some ((q.drop i)[n]) := by
      rw [List.getElem?_eq_getElem (by omega)]
      simp [List.getElem_drop, hn]
    rw [this] at hlast
    simpa using hlast
  rw [hqn] at hrd
  have e1 : (i : Int) + ((q.length : Int) - 1 - (i : Int)) = (i : Int) + (n : Int) := by omega
  have e2 : ((q.length : Int) - 1 - (i : Int) + 1).toNat = n + 1 := by omega
  have e4 : (q.length : Int) - 1 - (i : Int) = ((n : Nat) : Int) := by omega
  obtain ⟨mv1, am1, hloop, ham⟩ :=
    trim_loop_cut (q ++ 0 :: rq) i opt.qual_trim opt.phred_offset (q.drop i)
      (fun k hk => rd_window q rq i k hk) (n + 1) 0 0 n (by omega)
  have hk : i + am1 < s.length := by omega
  have hk2 : i + am1 < q.length := by omega
  have e3 : (i : Int) + (am1 : Int) = ((i + am1 : Nat) : Int) := by push_cast; rfl
  have hw1 := wr_append_left s (0 :: rs) (i + am1) 0 hk
  have hw2 := wr_append_left q (0 :: rq) (i + am1) 0 hk2
  refine ⟨am1, s.drop (i + am1 + 1) ++ 0 :: rs, q.drop (i + am1 + 1) ++ 0 :: rq, ?_,
    by omega⟩
  unfold quality_trim
  simp only [e1, e2]
  rw [if_pos ht]
  simp only [hrd]
  rw [if_pos hlt]
  simp only [e4, hloop, e3, hw1, hw2]

/-- The quality trim on an edge-trimmed entry whose last quality is below the threshold,
when no running sum leaves the range of an `int`: the loop finds the rightmost cut `k` of
maximal deficit and both strings are cut there. -/
theorem quality_trim_engaged (e1 : fq_entry_t) (i : Nat) (s q : List Int) (opt : options_t)
    (last : Int) (h : EdgeTrimmed e1 i s q) (ht : opt.qual_trim > -1)
    (hlast : q[q.length - 1]? = some last)
    (hlt : last - opt.phred_offset < opt.qual_trim)
    (hfit : ∀ k, k < (q.drop i).length →
      fits_int (deficit opt.qual_trim opt.phred_offset (q.drop i) k)) :
    ∃ k rs rq, quality_trim e1 opt
        = some ⟨e1.id, ⟨s.take (i + k) ++ 0 :: rs, i, k⟩, ⟨q.take (i + k) ++ 0 :: rq, i, k⟩⟩ ∧
      k < (q.drop i).length ∧
      (∀ k1, k1 < (q.drop i).length →
        deficit opt.qual_trim opt.phred_offset (q.drop i) k1
          ≤ deficit opt.qual_trim opt.phred_offset (q.drop i) k) ∧
      (∀ k1, k < k1 → k1 < (q.drop i).length →
        deficit opt.qual_trim opt.phred_offset (q.drop i) k1
          < deficit opt.qual_trim opt.phred_offset (q.drop i) k) := by
  obtain ⟨rs, rq, hs, hq, hlen, hi⟩ := h
  obtain ⟨id1, seq1, qual1⟩ := e1
  simp only at hs hq
  subst hs hq
  obtain ⟨n, hn⟩ : ∃ n, q.length = i + n + 1 := ⟨q.length - i - 1, by omega⟩
  have hdl : (q.drop i).length = n + 1 := by simp [hn]; omega
  have hrd := rd_window q rq i n (by omega)
  have hqn : (q.drop i)[n] = last := by
    have : q[q.length - 1]? = some ((q.drop i)[n]) := by
      rw [List.getElem?_eq_getElem (by omega)]
      simp [List.getElem_drop, hn]
    rw [this] at hlast
    simpa using hlast
  rw [hqn] at hrd
  have e1 : (i : Int) + ((q.length : Int) - 1 - (i : Int)) = (i : Int) + (n : Int) := by omega
  have e2 : ((q.length : Int) - 1 - (i : Int) + 1).toNat = n + 1 := by omega
  have hdn : deficit opt.qual_trim opt.phred_offset (q.drop i) n
      = opt.qual_trim - (last - opt.phred_offset) := by
    rw [deficit_succ _ _ _ n (by omega), hqn]
    have := deficit_length opt.qual_trim opt.phred_offset (q.drop i)
    rw [hdl] at this
    rw [this]; ring
  have hw0 : wrap32 (0 + wrap32 (opt.qual_trim - (last - opt.phred_offset)))
      = opt.qual_trim - (last - opt.phred_offset) := by
    rw [wrap32_add_wrap32, zero_add, ← hdn]
    exact wrap32_of_fits _ (hfit n (by omega))
  obtain ⟨mv1, am1, hloop, ham, hmax, hright⟩ :=
    trim_loop_spec (q ++ 0 :: rq) i opt.qual_trim opt.phred_offset (q.drop i)
      (fun k hk => rd_window q rq i k hk) hfit n
      (opt.qual_trim - (last - opt.phred_offset))
      (opt.qual_trim - (last - opt.phred_offset)) n
      (by rw [hdn]) (le_refl _) (by omega) (by rw [hdn])
      (by
        intro k hk1 hk2
        have : k = n := by omega
        subst this; rw [hdn])
      (by intro k hk1 hk2; omega)
  have hk : i + am1 < s.length := by rw [hdl] at ham; omega
  have hk2 : i + am1 < q.length := by omega
  have e3 : (i : Int) + (am1 : Int) = ((i + am1 : Nat) : Int) := by push_cast; rfl
  have hw1 := wr_append_left s (0 :: rs) (i + am1) 0 hk
  have hw2 := wr_append_left q (0 :: rq) (i + am1) 0 hk2
  refine ⟨am1, s.drop (i + am1 + 1) ++ 0 :: rs, q.drop (i + am1 + 1) ++ 0 :: rq, ?_,
    ham, hmax, hright⟩
  unfold quality_trim
  simp only [e1, e2]
  rw [if_pos ht]
  simp only [hrd]
  rw [if_pos hlt]
  simp only [trim_loop, hrd, hw0]
  rw [if_pos (by omega)]
  simp only [hloop, e3, hw1, hw2]

theorem scan_down_replicate (n : Nat) (r : List Int) (k : Nat) (hk : k ≤ n) :
    scan_down (List.replicate n 78 ++ r) k = none := by
  induction k with
  | zero => simp [scan_down]
  | succ k ih =>
    have h1 : (List.replicate n (78 : Int) ++ r)[k]? = some 78 := by
      rw [List.getElem?_append_left (by simp; omega)]
      simp [List.getElem?_replicate]; omega
    simp only [scan_down, h1, if_true]
    exact ih (by omega)

/-! ## Lemmas on the pipeline as a whole -/

/-- The last quality byte of an edge-trimmed entry is read inside the buffer. -/
theorem rd_last_edge_trimmed (i : Nat) (q rq : List Int) (hi : i < q.length) :
    ∃ last, q[q.length - 1]? = some last ∧
      rd (q ++ 0 :: rq) ((i : Int) + ((q.length : Int) - 1 - (i : Int))) = some last := by
  have h1 : q.length - 1 < q.length := by omega
  refine ⟨q[q.length - 1], List.getElem?_eq_getElem h1, ?_⟩
  have e1 : (i : Int) + ((q.length : Int) - 1 - (i : Int)) = ((q.length - 1 : Nat) : Int) := by
    omega
  rw [e1, rd_append_left q _ _ h1]

/-- The quality trim on an edge-trimmed entry returns, and it either leaves the entry as
it is or cuts both strings at one position `k` inside the read. -/
theorem quality_trim_cases (e1 : fq_entry_t) (i : Nat) (s q : List Int) (opt : options_t)
    (h : EdgeTrimmed e1 i s q) :
    quality_trim e1 opt = some e1 ∨
    ∃ k rs rq, k < (q.drop i).length ∧ quality_trim e1 opt
        = some ⟨e1.id, ⟨s.take (i + k) ++ 0 :: rs, i, k⟩, ⟨q.take (i + k) ++ 0 :: rq, i, k⟩⟩ := by
  have h0 := h
  obtain ⟨rs, rq, hs, hq, hlen, hi⟩ := h0
  obtain ⟨last, hl1, hl2⟩ := rd_last_edge_trimmed i q rq (by omega)
  by_cases ht : opt.qual_trim > -1
  · by_cases hlt : last - opt.phred_offset < opt.qual_trim
    · obtain ⟨k, rs1, rq1, h1, h2⟩ := quality_trim_engaged_cut e1 i s q opt last h ht hl1 hlt
      exact Or.inr ⟨k, rs1, rq1, h2, h1⟩
    · left
      unfold quality_trim
      rw [if_pos ht, hq]
      simp only [hl2]
      rw [if_neg hlt]
  · left
    unfold quality_trim
    rw [if_neg ht]

/-- The shape of the entry `process_current_fq` returns for a fresh record: sequence and
quality are the bytes `[i, b)` of the two lines, each followed by a NUL, and the recorded
lengths agree. -/
theorem process_current_fq_shape (e e2 : fq_entry_t) (sl ql : List Int) (opt : options_t)
    (c : Int) (hf : Fresh e sl ql) (h : process_current_fq e opt = .ret (c, e2)) :
    ∃ i b rs rq, i ≤ b ∧ b ≤ sl.length ∧
      e2.seq.buf = sl.take b ++ 0 :: rs ∧ e2.seq.str = i ∧
      e2.qual.buf = ql.take b ++ 0 :: rq ∧ e2.qual.str = i ∧
      e2.seq.str_len = e2.qual.str_len ∧ e2.id = e.id := by
  unfold process_current_fq at h
  cases hedge : edge_trim e with
  | none => simp [hedge] at h
  | some e1 =>
    obtain ⟨i, ja, hij, hja, hET, hid, -⟩ := edge_trim_fresh e e1 sl ql hf hedge
    have hET0 := hET
    obtain ⟨rs, rq, hs, hq, hlen, hi⟩ := hET0
    have shape1 : ∃ i b rs rq, i ≤ b ∧ b ≤ sl.length ∧
        e1.seq.buf = sl.take b ++ 0 :: rs ∧ e1.seq.str = i ∧
        e1.qual.buf = ql.take b ++ 0 :: rq ∧ e1.qual.str = i ∧
        e1.seq.str_len = e1.qual.str_len ∧ e1.id = e.id := by
      refine ⟨i, ja + 1, rs, rq, by omega, by omega, by simp [hs], by simp [hs], by simp [hq],
        by simp [hq], ?_, hid⟩
      simp only [hs, hq]; omega
    have shape2 : ∀ e3, quality_trim e1 opt = some e3 → ∃ i b rs rq, i ≤ b ∧ b ≤ sl.length ∧
        e3.seq.buf = sl.take b ++ 0 :: rs ∧ e3.seq.str = i ∧
        e3.qual.buf = ql.take b ++ 0 :: rq ∧ e3.qual.str = i ∧
        e3.seq.str_len = e3.qual.str_len ∧ e3.id = e.id := by
      intro e3 h3
      rcases quality_trim_cases e1 i _ _ opt hET with hc | ⟨k, rs1, rq1, hk, hc⟩
      · rw [hc] at h3
        simp only [Option.some.injEq] at h3
        subst h3; exact shape1
      · rw [hc] at h3
        simp only [Option.some.injEq] at h3
        subst h3
        simp only [List.length_drop, List.length_take] at hk
        obtain ⟨r1, r2, hfs, hfq, hfl⟩ := hf
        refine ⟨i, i + k, rs1, rq1, by omega, by omega, ?_, rfl, ?_, rfl, rfl, hid⟩
        · simp only [List.take_take]
          rw [Nat.min_eq_left (by omega)]
        · simp only [List.take_take]
          rw [Nat.min_eq_left (by omega)]
    simp only [hedge] at h
    split at h
    · simp at h
    · simp only [Outcome.ret.injEq, Prod.mk.injEq] at h
      obtain ⟨-, h⟩ := h; subst h; exact shape1
    · split at h
      · simp at h
      · simp only [Outcome.ret.injEq, Prod.mk.injEq] at h
        obtain ⟨-, h⟩ := h; subst h; exact shape1
      · split at h
        · simp at h
        · rename_i e3 h3
          have sh := shape2 e3 h3
          split at h
          · simp at h
          · simp only [Outcome.ret.injEq, Prod.mk.injEq] at h
            obtain ⟨-, h⟩ := h; subst h; exact sh
          · split at h
            · simp only [Outcome.ret.injEq, Prod.mk.injEq] at h
              obtain ⟨-, h⟩ := h; subst h; exact sh
            · simp only [Outcome.ret.injEq, Prod.mk.injEq] at h
              obtain ⟨-, h⟩ := h; subst h; exact sh
/-! ## Lemmas on the paired loop -/

theorem c_str_some (a b : List Int) : ∃ w, c_str (a ++ 0 :: b) = some w := by
  induction a with
  | nil => exact ⟨[], by simp [c_str]⟩
  | cons x t ih =>
    obtain ⟨w, hw⟩ := ih
    by_cases hx : x = 0
    · exact ⟨[], by simp [c_str, hx]⟩
    · exact ⟨x :: w, by simp [c_str, hx, hw]⟩

theorem cstr_some (sb : strbuf_t) (a b : List Int) (hb : sb.buf = a ++ 0 :: b)
    (hs : sb.str ≤ a.length) : ∃ w, sb.cstr = some w := by
  unfold strbuf_t.cstr
  rw [hb, List.drop_append_of_le_length hs]
  exact c_str_some _ _

/-- Whatever `process_current_fq` returns for a freshly read record can be written. -/
theorem output_bytes_some (f f1 : List Int) (e0 e e2 : fq_entry_t) (opt : options_t) (c : Int)
    (hread : get_entry f e0 = .ret (0, e, f1))
    (h : process_current_fq e opt = .ret (c, e2)) : ∃ w, output_bytes e2 = some w := by
  obtain ⟨sl, ql, hfresh, -, -, -⟩ := get_entry_fresh f f1 e0 e hread
  obtain ⟨idl, r0, hid⟩ := get_entry_id f f1 e0 e hread
  obtain ⟨i, b, rs, rq, hib, hb, hs1, hs2, hq1, hq2, -, hid2⟩ :=
    process_current_fq_shape e e2 sl ql opt c hfresh h
  obtain ⟨r1, r2, -, -, hlen⟩ := hfresh
  obtain ⟨w0, hw0⟩ := cstr_some e2.id idl r0 (by rw [hid2, hid]) (by rw [hid2, hid]; simp)
  obtain ⟨w1, hw1⟩ := cstr_some e2.seq _ rs hs1 (by rw [hs2]; simp; omega)
  obtain ⟨w2, hw2⟩ := cstr_some e2.qual _ rq hq1 (by rw [hq2]; simp; omega)
  exact ⟨record_bytes w0 w1 w2, by simp [output_bytes, hw0, hw1, hw2]⟩

theorem readnext_fq_ret (fq fq1 : fq_file_t) (r : Int) (h : readnext_fq fq = .ret (r, fq1)) :
    get_entry fq.inp fq.entry = .ret (r, fq1.entry, fq1.inp) ∧ fq1.out = fq.out := by
  unfold readnext_fq at h
  split at h
  · simp only [Outcome.ret.injEq, Prod.mk.injEq] at h
    obtain ⟨h1, h2⟩ := h
    subst h1 h2
    rename_i heq
    exact ⟨heq, rfl⟩
  · simp at h
  · simp at h

theorem output_fq_some (fq fq1 : fq_file_t) (n : Int) (h : output_fq fq = some (n, fq1)) :
    0 ≤ n ∧ ∃ w, output_bytes fq.entry = some w ∧ fq1 = { fq with out := fq.out ++ [w] } := by
  unfold output_fq at h
  cases hw : output_bytes fq.entry with
  | none => simp [hw] at h
  | some w =>
    simp only [hw, Option.some.injEq, Prod.mk.injEq] at h
    obtain ⟨h1, h2⟩ := h
    subst h1 h2
    exact ⟨by omega, w, rfl, rfl⟩

/-- A round of the paired loop keeps the numbers of written records equal, and a round
after which the loop goes on has consumed input of the left file. -/
theorem paired_round_inv (left right l2 r2 : fq_file_t) (opt : options_t) (b : Bool)
    (h : paired_round left right opt = .ret (b, l2, r2)) :
    (left.out.length = right.out.length → l2.out.length = r2.out.length) ∧
    (b = true → l2.inp.length < left.inp.length) := by
  unfold paired_round at h
  split at h
  · simp at h
  · simp at h
  · rename_i r1 left1 hl
    obtain ⟨hl1, hl2⟩ := readnext_fq_ret _ _ _ hl
    split at h
    · simp only [Outcome.ret.injEq, Prod.mk.injEq] at h
      obtain ⟨h1, h2, h3⟩ := h
      subst h1 h2 h3
      exact ⟨fun hh => by rw [hl2]; exact hh, by simp⟩
    · rename_i hr1
      simp only [ne_eq, not_not] at hr1
      subst hr1
      obtain ⟨-, -, -, -, -, hlt⟩ := get_entry_fresh _ _ _ _ hl1
      split at h
      · simp at h
      · simp at h
      · rename_i r2v right1 hr
        obtain ⟨hr1, hr2⟩ := readnext_fq_ret _ _ _ hr
        split at h
        · simp only [Outcome.ret.injEq, Prod.mk.injEq] at h
          obtain ⟨h1, h2, h3⟩ := h
          subst h1 h2 h3
          exact ⟨fun hh => by rw [hl2, hr2]; exact hh, by simp⟩
        · split at h
          · simp at h
          · simp at h
          · simp only at h
            split at h
            · simp only [Outcome.ret.injEq, Prod.mk.injEq] at h
              obtain ⟨h1, h2, h3⟩ := h
              subst h1 h2 h3
              exact ⟨fun hh => by simp only [hl2, hr2]; exact hh, fun _ => hlt⟩
            · split at h
              · simp at h
              · simp at h
              · split at h
                · simp only [Outcome.ret.injEq, Prod.mk.injEq] at h
                  obtain ⟨h1, h2, h3⟩ := h
                  subst h1 h2 h3
                  exact ⟨fun hh => by simp only [hl2, hr2]; exact hh, fun _ => hlt⟩
                · split at h
                  · simp at h
                  · rename_i n1 left3 ho1
                    obtain ⟨-, w1, -, hw1⟩ := output_fq_some _ _ _ ho1
                    split at h
                    · simp at h
                    · split at h
                      · simp at h
                      · rename_i n2 right3 ho2
                        obtain ⟨-, w2, -, hw2⟩ := output_fq_some _ _ _ ho2
                        split at h
                        · simp at h
                        · simp only [Outcome.ret.injEq, Prod.mk.injEq] at h
                          obtain ⟨h1, h2, h3⟩ := h
                          subst h1 h2 h3
                          subst hw1 hw2
                          refine ⟨fun hh => ?_, fun _ => hlt⟩
                          simp only [List.length_append, List.length_singleton, hl2, hr2, hh]

/-- The loop of `process_paired` keeps the numbers of written records equal. -/
theorem process_paired_loop_inv (opt : options_t) (fuel : Nat) (left right l2 r2 : fq_file_t)
    (h : process_paired_loop opt fuel left right = some (.ret (l2, r2)))
    (heq : left.out.length = right.out.length) : l2.out.length = r2.out.length := by
  induction fuel generalizing left right with
  | zero => simp [process_paired_loop] at h
  | succ n ih =>
    simp only [process_paired_loop] at h
    split at h
    · simp at h
    · simp at h
    · rename_i l r hround
      simp only [Option.some.injEq, Outcome.ret.injEq, Prod.mk.injEq] at h
      obtain ⟨h1, h2⟩ := h
      subst h1 h2
      exact (paired_round_inv _ _ _ _ _ _ hround).1 heq
    · rename_i l r hround
      exact ih l r h ((paired_round_inv _ _ _ _ _ _ hround).1 heq)

/-- The bound of `process_paired` is never reached. -/
theorem process_paired_loop_total (opt : options_t) (fuel : Nat) (left right : fq_file_t)
    (hfuel : left.inp.length < fuel) :
    ∃ o, process_paired_loop opt fuel left right = some o := by
  induction fuel generalizing left right with
  | zero => omega
  | succ n ih =>
    simp only [process_paired_loop]
    split
    · exact ⟨_, rfl⟩
    · exact ⟨_, rfl⟩
    · exact ⟨_, rfl⟩
    · rename_i l r hround
      have := (paired_round_inv _ _ _ _ _ _ hround).2 rfl
      exact ih l r (by omega)

theorem paired_finish_out (l r l2 r2 : fq_file_t) (h : paired_finish l r = .ret (l2, r2)) :
    l2.out = l.out ∧ r2.out = r.out := by
  unfold paired_finish done_fq at h
  cases hl : l.inp <;> cases hr : r.inp <;> simp [hl, hr] at h
  obtain ⟨h1, h2⟩ := h
  subst h1 h2
  exact ⟨rfl, rfl⟩

theorem fresh_line (e : fq_entry_t) (sl ql : List Int) (h : Fresh e sl ql) :
    e.seq.line = sl ∧ e.qual.line = ql := by
  obtain ⟨r1, r2, hs, hq, -⟩ := h
  simp [strbuf_t.line, hs, hq, List.take_append_of_le_length]

/-! ## Lemmas on writing a record and reading it back -/

/-- A round of `get_entry` on a stripped line followed by `\n`. -/
theorem get_entry_round_stripped (mk : Option Int) (sb : strbuf_t) (l rest : List Int)
    (hnl : (10 : Int) ∉ l) (hws : ∀ x, l.getLast? = some x → isspace x = false)
    (hmk : ∀ m, mk = some m → l.head? = some m) :
    ∃ rs, get_entry_round mk sb (l ++ 10 :: rest)
      = some (true, ⟨l ++ 0 :: rs, 0, l.length⟩, rest) := by
  have hg : getline (l ++ 10 :: rest) = some (l ++ [10], rest) := by
    cases h : l ++ 10 :: rest with
    | nil => simp at h
    | cons a t =>
      simp only [getline, Option.some.injEq]
      rw [← h]
      exact take_line_of_not_mem l rest hnl
  obtain ⟨c, rs, hc, hr, hsp, hlast⟩ := rtrim_whitespace_line (l ++ [10])
  simp only [List.length_append, List.length_singleton] at hc hr hsp hlast
  have hc0 : c ≠ 0 := by
    intro h0
    subst h0
    have := hlast 10 (by
      simp only [Nat.sub_zero]
      rw [List.take_of_length_le (by simp)]
      simp)
    simp [isspace] at this
  have hc1 : c ≤ 1 := by
    by_contra hc2
    have hl : 0 < l.length := by omega
    have hmem : l[l.length - 1] ∈ (l ++ [10]).drop (l.length + 1 - c) := by
      rw [List.mem_iff_getElem]
      refine ⟨l.length - 1 - (l.length + 1 - c), by simp; omega, ?_⟩
      simp only [List.getElem_drop]
      rw [List.getElem_append_left (by omega)]
      congr 1
      omega
    have h1 := hsp _ hmem
    have h2 := hws l[l.length - 1] (by
      rw [List.getLast?_eq_getElem?, List.getElem?_eq_getElem (by omega)])
    rw [h1] at h2
    simp at h2
  have hc2 : c = 1 := by omega
  subst hc2
  simp only [Nat.add_sub_cancel, List.take_left'] at hr
  refine ⟨rs, ?_⟩
  unfold get_entry_round
  simp only [hg]
  have hcond : ¬ (mk.isSome ∧ rd (l ++ [10] ++ [0]) 0 ≠ mk) := by
    rintro ⟨h1, h2⟩
    obtain ⟨m, hm⟩ := Option.isSome_iff_exists.mp h1
    have h3 := hmk m hm
    apply h2
    rw [hm]
    cases l with
    | nil => simp at h3
    | cons a t =>
      simp only [List.head?_cons, Option.some.injEq] at h3
      simp [rd, h3]
  rw [if_neg hcond]
  simp only [List.length_append, List.length_singleton]
  rw [hr]

/-- Reading back the four lines `output_fq` writes. -/
theorem get_entry_record_bytes (id s q : List Int) (e3 : fq_entry_t)
    (hid : id.head? = some 64) (hlen : s.length = q.length)
    (hn0 : (10 : Int) ∉ id) (hn1 : (10 : Int) ∉ s) (hn2 : (10 : Int) ∉ q)
    (hw0 : ∀ x, id.getLast? = some x → isspace x = false)
    (hw1 : ∀ x, s.getLast? = some x → isspace x = false)
    (hw2 : ∀ x, q.getLast? = some x → isspace x = false) :
    ∃ r0 r1 r2, get_entry (record_bytes id s q) e3
      = .ret (0, ⟨⟨id ++ 0 :: r0, 0, id.length⟩, ⟨s ++ 0 :: r1, 0, s.length⟩,
                  ⟨q ++ 0 :: r2, 0, q.length⟩⟩, []) := by
  have hb : record_bytes id s q = id ++ 10 :: (s ++ 10 :: ([43] ++ 10 :: (q ++ 10 :: []))) := by
    simp [record_bytes]
  obtain ⟨r0, h0⟩ := get_entry_round_stripped (some 64) e3.id id
    (s ++ 10 :: ([43] ++ 10 :: (q ++ 10 :: []))) hn0 hw0 (by intro m hm; simp at hm; rw [← hm]; exact hid)
  obtain ⟨r1, h1⟩ := get_entry_round_stripped none e3.seq s
    ([43] ++ 10 :: (q ++ 10 :: [])) hn1 hw1 (by intro m hm; simp at hm)
  obtain ⟨rp, h2⟩ := get_entry_round_stripped (some 43) e3.qual [43]
    (q ++ 10 :: []) (by simp) (by intro x hx; simp at hx; subst hx; simp [isspace])
    (by intro m hm; simp at hm; simp [hm])
  obtain ⟨r2, h3⟩ := get_entry_round_stripped none ⟨[43] ++ 0 :: rp, 0, ([43] : List Int).length⟩ q
    [] hn2 hw2 (by intro m hm; simp at hm)
  refine ⟨r0, r1, r2, ?_⟩
  rw [hb]
  unfold get_entry
  simp only [h0, h1, h2, h3]
  simp [hlen]

theorem c_str_prefix (a b w : List Int) (h : c_str (a ++ 0 :: b) = some w) : w <+: a := by
  induction a generalizing w with
  | nil =>
    simp only [List.nil_append, c_str, if_true, Option.some.injEq] at h
    subst h; exact List.prefix_refl _
  | cons x t ih =>
    by_cases hx : x = 0
    · simp only [List.cons_append, c_str, hx, if_true, Option.some.injEq] at h
      subst h; exact List.nil_prefix
    · simp only [List.cons_append, c_str, hx, if_false, Option.map_eq_some'] at h
      obtain ⟨u, hu, rfl⟩ := h
      exact (List.cons_prefix_cons).mpr ⟨rfl, ih u hu⟩

theorem c_str_take (a b b1 w : List Int) (n : Nat) (h : c_str (a ++ 0 :: b) = some w)
    (hn : w.length ≤ n) : c_str (a.take n ++ 0 :: b1) = some w := by
  induction a generalizing w n with
  | nil =>
    simp only [List.nil_append, c_str, if_true, Option.some.injEq] at h
    subst h; simp [c_str]
  | cons x t ih =>
    by_cases hx : x = 0
    · simp only [List.cons_append, c_str, hx, if_true, Option.some.injEq] at h
      subst h
      cases n with
      | zero => simp [c_str]
      | succ n => simp [c_str, hx]
    · simp only [List.cons_append, c_str, hx, if_false, Option.map_eq_some'] at h
      obtain ⟨u, hu, rfl⟩ := h
      cases n with
      | zero => simp at hn
      | succ n =>
        simp only [List.length_cons, Nat.add_le_add_iff_right] at hn
        simp [c_str, hx, ih u n hu hn]

/-- Without quality trim the entry `process_current_fq` returns is the edge-trimmed one. -/
theorem process_no_trim (e e2 : fq_entry_t) (opt : options_t) (c : Int)
    (ht : opt.qual_trim = -1) (h : process_current_fq e opt = .ret (c, e2)) :
    edge_trim e = some e2 := by
  unfold process_current_fq at h
  cases hedge : edge_trim e with
  | none => simp [hedge] at h
  | some e1 =>
    have hq : quality_trim e1 opt = some e1 := by
      unfold quality_trim
      rw [if_neg (by omega)]
    simp only [hedge, hq] at h
    congr 1
    split at h
    · simp at h
    · simp only [Outcome.ret.injEq, Prod.mk.injEq] at h
      exact h.2
    · split at h
      · simp at h
      · simp only [Outcome.ret.injEq, Prod.mk.injEq] at h
        exact h.2
      · split at h
        · simp at h
        · simp only [Outcome.ret.injEq, Prod.mk.injEq] at h
          exact h.2
        · split at h
          · simp only [Outcome.ret.injEq, Prod.mk.injEq] at h
            exact h.2
          · simp only [Outcome.ret.injEq, Prod.mk.injEq] at h
            exact h.2
/-- The three lines a successful `get_entry` leaves hold no `\n`. -/
theorem get_entry_lines (f f1 : List Int) (e0 e : fq_entry_t)
    (h : get_entry f e0 = .ret (0, e, f1)) :
    ∃ idl sl ql r0, e.id = ⟨idl ++ 0 :: r0, 0, idl.length⟩ ∧ Fresh e sl ql ∧
      (10 : Int) ∉ idl ∧ (10 : Int) ∉ sl ∧ (10 : Int) ∉ ql := by
  obtain ⟨sb0, sb1, sb2, sb3, fa, fb, fc, h0, h1, h2, h3, he, hlen⟩ := get_entry_rounds f f1 e0 e h
  obtain ⟨l0, w0, r0, -, -, hs0, -, -, -, hn0⟩ := get_entry_round_true _ _ _ _ _ h0
  obtain ⟨l1, w1, r1, -, -, hs1, -, -, -, hn1⟩ := get_entry_round_true _ _ _ _ _ h1
  obtain ⟨l3, w3, r3, -, -, hs3, -, -, -, hn3⟩ := get_entry_round_true _ _ _ _ _ h3
  subst hs0 hs1 hs3 he
  simp only [Nat.cast_inj] at hlen
  exact ⟨l0, l1, l3, r0, rfl, ⟨r1, r3, rfl, rfl, hlen⟩, hn0, hn1, hn3⟩

theorem c_str_head (m s : List Int) (x : Int) (hx : x ≠ 0) (h : c_str m = some s)
    (hm : m.head? = some x) : s.head? = some x := by
  cases m with
  | nil => simp at hm
  | cons a t =>
    simp only [List.head?_cons, Option.some.injEq] at hm
    subst hm
    simp only [c_str, hx, if_false, Option.map_eq_some'] at h
    obtain ⟨u, -, rfl⟩ := h
    simp

/-! ## Lemmas on the strip of trailing white space -/

theorem wr_prefix_any (l r : List Int) (z : Int) (n : Nat) (h : n ≤ l.length) :
    ∃ rs, wr (l ++ z :: r) (n : Int) 0 = some (l.take n ++ 0 :: rs) ∧ rs.length + n = l.length + r.length := by
  rcases Nat.lt_or_eq_of_le h with h1 | h1
  · refine ⟨_, wr_append_left l (z :: r) n 0 h1, ?_⟩
    simp only [List.length_append, List.length_drop, List.length_cons]
    omega
  · subst h1
    exact ⟨r, by simpa using wr_append_length l r z 0, by omega⟩

theorem rstrip_unique (l ws : List Int) (hws : ∀ x ∈ ws, isspace x = true)
    (hl : ∀ x, l.getLast? = some x → isspace x = false) : rstrip (l ++ ws) = l := by
  unfold rstrip List.rdropWhile
  rw [List.reverse_append, List.dropWhile_append_of_pos (by simpa using hws)]
  have : l.rdropWhile isspace = l := by
    rw [List.rdropWhile_eq_self_iff]
    intro hne
    have := hl (l.getLast hne) (List.getLast?_eq_getLast _ hne)
    simp [this]
  exact this

theorem rstrip_spec (s : List Int) :
    ∃ ws, s = rstrip s ++ ws ∧ (∀ x ∈ ws, isspace x = true) ∧
      (∀ x, (rstrip s).getLast? = some x → isspace x = false) := by
  obtain ⟨ws, hws⟩ : rstrip s <+: s := List.rdropWhile_prefix isspace s
  refine ⟨ws, hws.symm, ?_, ?_⟩
  · intro x hx
    have h1 : s.reverse = ws.reverse ++ (rstrip s).reverse := by
      have := congrArg List.reverse hws
      rw [List.reverse_append] at this
      exact this.symm
    have h2 : (rstrip s).reverse = s.reverse.dropWhile isspace := by simp [rstrip, List.rdropWhile]
    have h3 := List.takeWhile_append_dropWhile isspace s.reverse
    rw [← h2] at h3
    have h4 : s.reverse.takeWhile isspace = ws.reverse := by
      have := h1.symm.trans h3.symm
      exact (List.append_cancel_right this).symm
    have hx2 : x ∈ s.reverse.takeWhile isspace := by rw [h4]; simpa using hx
    exact List.mem_takeWhile_imp hx2
  · intro x hx
    by_cases hne : rstrip s = []
    · simp [hne] at hx
    · have := List.rdropWhile_last_not isspace s hne
      rw [List.getLast?_eq_getLast _ hne] at hx
      simp only [Option.some.injEq] at hx
      rw [← hx]
      simpa [rstrip] using this

/-- What `rtrim_whitespace` does to a line of `n` cells followed by at least one more cell:
the stripped line, a NUL behind it, and its length. -/
theorem rtrim_whitespace_rstrip (line r : List Int) (z : Int) :
    ∃ rs, rtrim_whitespace (line ++ z :: r) line.length
        = some (rstrip line ++ 0 :: rs, ((rstrip line).length : Int)) ∧
      rs.length + (rstrip line).length = line.length + r.length := by
  obtain ⟨c, h1, h2, h3, h4⟩ := rtrim_loop_spec (line ++ z :: r) line.length 0 (by simp)
  obtain ⟨rs, hrs, hrl⟩ := wr_prefix_any line r z (line.length - c) (by omega)
  have hstrip : rstrip line = line.take (line.length - c) := by
    rw [← rstrip_unique (line.take (line.length - c)) (line.drop (line.length - c)) ?_ ?_,
      List.take_append_drop]
    · intro x hx
      obtain ⟨k, hk, rfl⟩ := List.getElem_of_mem hx
      simp only [List.length_drop] at hk
      obtain ⟨y, hy1, hy2⟩ := h3 (line.length - c + k) (by omega) (by omega)
      rw [List.getElem?_append_left (by omega), List.getElem?_eq_getElem (by omega)] at hy1
      simp only [Option.some.injEq] at hy1
      simp only [List.getElem_drop]
      rw [hy1]; exact hy2
    · intro x hx
      rcases Nat.eq_zero_or_pos (line.length - c) with h0 | h0
      · simp [h0] at hx
      · apply h4 x (by omega)
        rw [List.getLast?_eq_getElem?] at hx
        simp only [List.length_take, List.getElem?_take] at hx
        rw [Nat.min_eq_left (by omega), if_pos (by omega)] at hx
        rw [List.getElem?_append_left (by omega)]
        exact hx
  refine ⟨rs, ?_, ?_⟩
  · simp only [rtrim_whitespace, Int.toNat_ofNat, h1, Nat.zero_add]
    have e1 : (line.length : Int) - (c : Int) = ((line.length - c : Nat) : Int) := by omega
    rw [e1, hrs, hstrip]
    simp only [List.length_take]
    rw [Nat.min_eq_left (by omega)]
  · rw [hstrip]
    simp only [List.length_take]
    rw [Nat.min_eq_left (by omega)]
    exact hrl

theorem rtrim_whitespace_fixed (p rs : List Int)
    (hlast : ∀ x, p.getLast? = some x → isspace x = false) :
    rtrim_whitespace (p ++ 0 :: rs) p.length = some (p ++ 0 :: rs, (p.length : Int)) := by
  obtain ⟨c, h1, h2, h3, -⟩ := rtrim_loop_spec (p ++ 0 :: rs) p.length 0 (by simp)
  have hc : c = 0 := by
    by_contra hc
    obtain ⟨y, hy1, hy2⟩ := h3 (p.length - 1) (by omega) (by omega)
    rw [List.getElem?_append_left (by omega)] at hy1
    have := hlast y (by rw [List.getLast?_eq_getElem?]; exact hy1)
    rw [this] at hy2
    simp at hy2
  subst hc
  simp only [rtrim_whitespace, Int.toNat_ofNat, h1, Nat.zero_add, Nat.cast_zero, sub_zero]
  rw [wr_append_length]

theorem isspace_iff (c : Int) :
    isspace c = true ↔ c = 32 ∨ c = 9 ∨ c = 10 ∨ c = 11 ∨ c = 12 ∨ c = 13 := by
  simp only [isspace, Bool.or_eq_true, beq_iff_eq, Bool.and_eq_true, decide_eq_true_eq]
  omega

theorem prefix_not_space_le (s p ws p1 : List Int) (hs : s = p ++ ws)
    (hws : ∀ x ∈ ws, isspace x = true) (hp1 : p1 <+: s)
    (hl1 : ∀ x, p1.getLast? = some x → isspace x = false) : p1.length ≤ p.length := by
  by_contra hc
  obtain ⟨t, ht⟩ := hp1
  have hpos : p1.length - 1 < p1.length := by omega
  have h1 : s[p1.length - 1]? = some p1[p1.length - 1] := by
    rw [← ht, List.getElem?_append_left hpos, List.getElem?_eq_getElem hpos]
  have hlen : p1.length ≤ p.length + ws.length := by
    have := congrArg List.length (ht.trans hs)
    simp only [List.length_append] at this
    omega
  rw [hs, List.getElem?_append_right (by omega), List.getElem?_eq_getElem (by omega)] at h1
  simp only [Option.some.injEq] at h1
  have h2 := hws _ (List.getElem_mem (l := ws) (n := p1.length - 1 - p.length) (by omega))
  have h3 := hl1 p1[p1.length - 1] (by
    rw [List.getLast?_eq_getElem?, List.getElem?_eq_getElem hpos])
  rw [← h1, h2] at h3
  simp at h3

/-! ## Lemmas on the framing of a record -/

theorem rd_line_zero (line : List Int) (h : 0 < line.length) :
    rd (line ++ [0]) 0 = line.head? := by
  cases line with
  | nil => simp at h
  | cons a t => simp [rd]

/-- A round of `get_entry` at the end of the input. -/
theorem get_entry_round_eof (mk : Option Int) (sb : strbuf_t) (f : List Int)
    (hg : getline f = none) :
    get_entry_round mk sb f = some (false, { sb with str_len := -1 }, f) := by
  simp [get_entry_round, hg]

/-- A round of `get_entry` on a line that starts with the wrong byte. -/
theorem get_entry_round_marker (m : Int) (sb : strbuf_t) (f line rest : List Int)
    (hg : getline f = some (line, rest)) (hm : line.head? ≠ some m) :
    get_entry_round (some m) sb f
      = some (false, { sb with buf := line ++ [0], str_len := line.length }, rest) := by
  have hpos := (getline_some _ _ _ hg).2
  simp only [get_entry_round, hg, rd_line_zero line hpos]
  rw [if_pos ⟨by simp, hm⟩]

/-- A round of `get_entry` on a line that starts as required: the stripped line is stored. -/
theorem get_entry_round_line (mk : Option Int) (sb : strbuf_t) (f line rest : List Int)
    (hg : getline f = some (line, rest)) (hm : ∀ m, mk = some m → line.head? = some m) :
    ∃ rs, get_entry_round mk sb f
      = some (true, ⟨rstrip line ++ 0 :: rs, 0, ((rstrip line).length : Int)⟩, rest) := by
  have hpos := (getline_some _ _ _ hg).2
  obtain ⟨rs, hrs, -⟩ := rtrim_whitespace_rstrip line [] 0
  refine ⟨rs, ?_⟩
  simp only [get_entry_round, hg, rd_line_zero line hpos]
  have hcond : ¬ (mk.isSome ∧ line.head? ≠ mk) := by
    rintro ⟨h1, h2⟩
    obtain ⟨m, rfl⟩ := Option.isSome_iff_exists.mp h1
    exact h2 (hm m rfl)
  rw [if_neg hcond, hrs]

/-- A round of `get_entry` that goes through has read a line that starts as required. -/
theorem get_entry_round_true_line (mk : Option Int) (sb sb1 : strbuf_t) (f f1 : List Int)
    (h : get_entry_round mk sb f = some (true, sb1, f1)) :
    ∃ line rs, getline f = some (line, f1) ∧ (∀ m, mk = some m → line.head? = some m) ∧
      sb1 = ⟨rstrip line ++ 0 :: rs, 0, ((rstrip line).length : Int)⟩ := by
  cases hg : getline f with
  | none => rw [get_entry_round_eof mk sb f hg] at h; simp at h
  | some p =>
    obtain ⟨line, rest⟩ := p
    by_cases hm : ∀ m, mk = some m → line.head? = some m
    · obtain ⟨rs, hrs⟩ := get_entry_round_line mk sb f line rest hg hm
      rw [hrs] at h
      simp only [Option.some.injEq, Prod.mk.injEq, true_and] at h
      obtain ⟨h1, h2⟩ := h
      subst h1 h2
      exact ⟨line, rs, rfl, hm, rfl⟩
    · push_neg at hm
      obtain ⟨m, hm1, hm2⟩ := hm
      subst hm1
      rw [get_entry_round_marker m sb f line rest hg hm2] at h
      simp at h

/-- `get_entry` on four lines with the two markers: it leaves the program when the stripped
sequence and quality lines differ in length, and returns the three stripped lines when
they agree. -/
theorem get_entry_four_lines (f l1 l2 l3 l4 f4 : List Int) (e0 : fq_entry_t)
    (h4 : FourLines f l1 l2 l3 l4 f4) (hat : l1.head? = some 64) (hplus : l3.head? = some 43) :
    ((rstrip l2).length ≠ (rstrip l4).length → get_entry f e0 = .exit_failure) ∧
    ((rstrip l2).length = (rstrip l4).length → ∃ r0 r1 r3, get_entry f e0
      = .ret (0, ⟨⟨rstrip l1 ++ 0 :: r0, 0, ((rstrip l1).length : Int)⟩,
                  ⟨rstrip l2 ++ 0 :: r1, 0, ((rstrip l2).length : Int)⟩,
                  ⟨rstrip l4 ++ 0 :: r3, 0, ((rstrip l4).length : Int)⟩⟩, f4)) := by
  obtain ⟨f1, f2, f3, g1, g2, g3, g4⟩ := h4
  obtain ⟨r0, h0⟩ := get_entry_round_line (some 64) e0.id f l1 f1 g1
    (by intro m hm; simp at hm; rw [← hm]; exact hat)
  obtain ⟨r1, h1⟩ := get_entry_round_line none e0.seq f1 l2 f2 g2 (by intro m hm; simp at hm)
  obtain ⟨r2, h2⟩ := get_entry_round_line (some 43) e0.qual f2 l3 f3 g3
    (by intro m hm; simp at hm; rw [← hm]; exact hplus)
  obtain ⟨r3, h3⟩ := get_entry_round_line none
    ⟨rstrip l3 ++ 0 :: r2, 0, ((rstrip l3).length : Int)⟩ f3 l4 f4 g4 (by intro m hm; simp at hm)
  constructor
  · intro hne
    unfold get_entry
    simp only [h0, h1, h2, h3]
    rw [if_pos (by simpa using hne)]
  · intro heq
    refine ⟨r0, r1, r3, ?_⟩
    unfold get_entry
    simp only [h0, h1, h2, h3]
    rw [if_neg (by simpa using heq)]

/-- `get_entry` either finds four lines with the two markers or returns `-1`. -/
theorem get_entry_cases (f : List Int) (e0 : fq_entry_t) :
    (∃ l1 l2 l3 l4 f4, FourLines f l1 l2 l3 l4 f4 ∧ l1.head? = some 64 ∧ l3.head? = some 43) ∨
    (∃ e f1, get_entry f e0 = .ret (-1, e, f1)) := by
  cases g1 : getline f with
  | none =>
    right
    exact ⟨_, _, by simp only [get_entry, get_entry_round_eof _ _ _ g1]; rfl⟩
  | some p1 =>
    obtain ⟨l1, f1⟩ := p1
    by_cases hat : l1.head? = some 64
    · obtain ⟨r0, h0⟩ := get_entry_round_line (some 64) e0.id f l1 f1 g1
        (by intro m hm; simp at hm; rw [← hm]; exact hat)
      cases g2 : getline f1 with
      | none =>
        right
        exact ⟨_, _, by simp only [get_entry, h0, get_entry_round_eof _ _ _ g2]; rfl⟩
      | some p2 =>
        obtain ⟨l2, f2⟩ := p2
        obtain ⟨r1, h1⟩ := get_entry_round_line none e0.seq f1 l2 f2 g2
          (by intro m hm; simp at hm)
        cases g3 : getline f2 with
        | none =>
          right
          exact ⟨_, _, by simp only [get_entry, h0, h1, get_entry_round_eof _ _ _ g3]; rfl⟩
        | some p3 =>
          obtain ⟨l3, f3⟩ := p3
          by_cases hplus : l3.head? = some 43
          · obtain ⟨r2, h2⟩ := get_entry_round_line (some 43) e0.qual f2 l3 f3 g3
              (by intro m hm; simp at hm; rw [← hm]; exact hplus)
            cases g4 : getline f3 with
            | none =>
              right
              exact ⟨_, _, by simp only [get_entry, h0, h1, h2, get_entry_round_eof _ _ _ g4]; rfl⟩
            | some p4 =>
              obtain ⟨l4, f4⟩ := p4
              left
              exact ⟨l1, l2, l3, l4, f4, ⟨f1, f2, f3, g1, g2, g3, g4⟩, hat, hplus⟩
          · right
            exact ⟨_, _, by
              simp only [get_entry, h0, h1, get_entry_round_marker 43 _ _ _ _ g3 hplus]; rfl⟩
    · right
      exact ⟨_, _, by simp only [get_entry, get_entry_round_marker 64 _ _ _ _ g1 hat]; rfl⟩

theorem four_lines_unique (f l1 l2 l3 l4 f4 k1 k2 k3 k4 g4 : List Int)
    (h : FourLines f l1 l2 l3 l4 f4) (k : FourLines f k1 k2 k3 k4 g4) :
    l1 = k1 ∧ l2 = k2 ∧ l3 = k3 ∧ l4 = k4 ∧ f4 = g4 := by
  obtain ⟨a1, a2, a3, h1, h2, h3, h4⟩ := h
  obtain ⟨b1, b2, b3, j1, j2, j3, j4⟩ := k
  rw [h1] at j1
  simp only [Option.some.injEq, Prod.mk.injEq] at j1
  obtain ⟨e1, e1'⟩ := j1
  subst e1 e1'
  rw [h2] at j2
  simp only [Option.some.injEq, Prod.mk.injEq] at j2
  obtain ⟨e2, e2'⟩ := j2
  subst e2 e2'
  rw [h3] at j3
  simp only [Option.some.injEq, Prod.mk.injEq] at j3
  obtain ⟨e3, e3'⟩ := j3
  subst e3 e3'
  rw [h4] at j4
  simp only [Option.some.injEq, Prod.mk.injEq] at j4
  obtain ⟨e4, e4'⟩ := j4
  subst e4 e4'
  exact ⟨rfl, rfl, rfl, rfl, rfl⟩

/-! ## Lemmas on the steps of the pipeline -/

/-- An accepted record went through every step of `process_current_fq`. -/
theorem process_accept_steps (e e2 : fq_entry_t) (opt : options_t)
    (h : process_current_fq e opt = .ret (0, e2)) :
    ∃ e1, edge_trim e = some e1 ∧ paranoid_check e1 opt = some true ∧
      ambig_check e1 opt = some true ∧ quality_trim e1 opt = some e2 ∧
      quality_filter e2 opt = some true ∧ ¬ e2.seq.str_len < opt.min_length := by
  unfold process_current_fq at h
  cases hedge : edge_trim e with
  | none => simp [hedge] at h
  | some e1 =>
    simp only [hedge] at h
    cases hp : paranoid_check e1 opt with
    | none => simp [hp] at h
    | some bp =>
      cases bp with
      | false => simp [hp] at h
      | true =>
        simp only [hp] at h
        cases ha : ambig_check e1 opt with
        | none => simp [ha] at h
        | some ba =>
          cases ba with
          | false => simp [ha] at h
          | true =>
            simp only [ha] at h
            cases hq : quality_trim e1 opt with
            | none => simp [hq] at h
            | some e3 =>
              simp only [hq] at h
              cases hf : quality_filter e3 opt with
              | none => simp [hf] at h
              | some bf =>
                cases bf with
                | false => simp [hf] at h
                | true =>
                  simp only [hf] at h
                  by_cases hm : e3.seq.str_len < opt.min_length
                  · simp [hm] at h
                  · simp only [hm, if_false, Outcome.ret.injEq, Prod.mk.injEq, true_and] at h
                    subst h
                    exact ⟨e1, rfl, hp, ha, hq, hf, hm⟩

theorem scan_up_total (cells : List Int) (i0 : Nat) (h : ∃ x ∈ cells, x ≠ 78) :
    ∃ i, scan_up cells i0 = some i := by
  induction cells generalizing i0 with
  | nil => simp at h
  | cons a t ih =>
    by_cases ha : a = 78
    · simp only [scan_up, ha, if_true]
      apply ih
      obtain ⟨x, hx, hne⟩ := h
      rcases List.mem_cons.mp hx with h1 | h1
      · exact absurd (h1.trans ha) hne
      · exact ⟨x, h1, hne⟩
    · exact ⟨i0, by simp [scan_up, ha]⟩

theorem scan_down_total (m : List Int) (a : Nat) (ha : a ≤ m.length)
    (h : ∃ k x, k < a ∧ m[k]? = some x ∧ x ≠ 78) : ∃ ja, scan_down m a = some ja := by
  induction a with
  | zero => obtain ⟨k, x, hk, -⟩ := h; omega
  | succ a ih =>
    have hlt : a < m.length := by omega
    simp only [scan_down, List.getElem?_eq_getElem hlt]
    by_cases hc : m[a] = 78
    · simp only [hc, if_true]
      apply ih (by omega)
      obtain ⟨k, x, hk, hx, hne⟩ := h
      rcases Nat.lt_or_eq_of_le (Nat.le_of_lt_succ hk) with h1 | h1
      · exact ⟨k, x, h1, hx, hne⟩
      · subst h1
        rw [List.getElem?_eq_getElem hlt] at hx
        simp only [Option.some.injEq] at hx
        exact absurd (hx.symm.trans hc) hne
    · exact ⟨a, by simp [hc]⟩

/-- The edge trim returns on a fresh record whose sequence line holds a byte other than `N`. -/
theorem edge_trim_total (e : fq_entry_t) (sl ql : List Int) (hf : Fresh e sl ql)
    (hx : ∃ x ∈ sl, x ≠ 78) : ∃ e1, edge_trim e = some e1 := by
  obtain ⟨r1, r2, hs, hq, hlen⟩ := hf
  obtain ⟨i, hi⟩ := scan_up_total (sl ++ 0 :: r1) 0 ⟨0, by simp, by decide⟩
  obtain ⟨ja, hja⟩ := scan_down_total (sl ++ 0 :: r1) sl.length (by simp) (by
    obtain ⟨x, hx1, hx2⟩ := hx
    obtain ⟨k, hk, rfl⟩ := List.getElem_of_mem hx1
    exact ⟨k, sl[k], hk, by rw [List.getElem?_append_left hk, List.getElem?_eq_getElem hk], hx2⟩)
  obtain ⟨hj1, -, -⟩ := scan_down_spec _ _ _ hja
  obtain ⟨rs, hrs⟩ := wr_prefix sl r1 (ja + 1) (by omega)
  obtain ⟨rq, hrq⟩ := wr_prefix ql r2 (ja + 1) (by omega)
  simp only [Nat.cast_add, Nat.cast_one] at hrs hrq
  unfold edge_trim
  rw [hs, hq]
  simp only [List.drop_zero, Nat.cast_zero, zero_add, sub_zero, Int.toNat_ofNat, hi, hja, hrs, hrq]
  exact ⟨_, rfl⟩

theorem paranoid_dna_loop_total (cells : List Int) (n : Nat) (h : n ≤ cells.length) :
    ∃ r, paranoid_dna_loop cells n = some r := by
  induction n generalizing cells with
  | zero => exact ⟨0, by cases cells <;> simp [paranoid_dna_loop]⟩
  | succ n ih =>
    cases cells with
    | nil => simp at h
    | cons a t =>
      simp only [paranoid_dna_loop]
      split
      · exact ih t (by simpa using h)
      · exact ⟨_, rfl⟩

theorem paranoid_quality_loop_total (lo hi : Int) (cells : List Int) (n : Nat)
    (h : n ≤ cells.length) : ∃ r, paranoid_quality_loop lo hi cells n = some r := by
  induction n generalizing cells with
  | zero => exact ⟨0, by cases cells <;> simp [paranoid_quality_loop]⟩
  | succ n ih =>
    cases cells with
    | nil => simp at h
    | cons a t =>
      simp only [paranoid_quality_loop]
      split
      · exact ⟨_, rfl⟩
      · exact ih t (by simpa using h)

theorem ambig_loop_total (cells : List Int) (n : Nat) (h : n ≤ cells.length) :
    ∃ r, ambig_loop cells n = some r := by
  induction n generalizing cells with
  | zero => exact ⟨true, by cases cells <;> simp [ambig_loop]⟩
  | succ n ih =>
    cases cells with
    | nil => simp at h
    | cons a t =>
      simp only [ambig_loop]
      split
      · exact ⟨_, rfl⟩
      · exact ih t (by simpa using h)

theorem filter_loop_total (off : Int) (cells : List Int) (n : Nat) (j : Int)
    (h : n ≤ cells.length) : ∃ r, filter_loop off cells n j = some r := by
  induction n generalizing cells j with
  | zero => exact ⟨j, by cases cells <;> simp [filter_loop]⟩
  | succ n ih =>
    cases cells with
    | nil => simp at h
    | cons a t =>
      simp only [filter_loop]
      split
      · exact ih t _ (by simpa using h)
      · exact ih t _ (by simpa using h)

/-- What `ambig_loop` has seen when it lets a read through. -/
theorem ambig_loop_true (cells : List Int) (n : Nat) (h : ambig_loop cells n = some true) :
    ∀ k, k < n → ∃ x, cells[k]? = some x ∧ x ≠ 78 := by
  induction n generalizing cells with
  | zero => intro k hk; omega
  | succ n ih =>
    cases cells with
    | nil => simp [ambig_loop] at h
    | cons a t =>
      simp only [ambig_loop] at h
      by_cases ha : a = 78
      · simp [ha] at h
      · simp only [ha, if_false] at h
        intro k hk
        cases k with
        | zero => exact ⟨a, by simp, ha⟩
        | succ k => simpa using ih t h k (by omega)

theorem paranoid_check_total (e1 : fq_entry_t) (i : Nat) (s q : List Int) (opt : options_t)
    (h : EdgeTrimmed e1 i s q) : ∃ b, paranoid_check e1 opt = some b := by
  obtain ⟨rs, rq, hs, hq, hlen, hi⟩ := h
  unfold paranoid_check
  by_cases hp : opt.paranoid_flg ≠ 0
  · rw [if_pos hp]
    obtain ⟨r, hr⟩ := paranoid_dna_loop_total (e1.seq.buf.drop e1.seq.str) e1.seq.str_len.toNat
      (by rw [hs]; simp; omega)
    simp only [paranoid_dna, hr]
    by_cases hr0 : r < 0
    · exact ⟨false, by simp [hr0]⟩
    · rw [if_neg hr0]
      have hn : e1.qual.str_len.toNat ≤ (e1.qual.buf.drop e1.qual.str).length := by
        rw [hq]; simp; omega
      obtain ⟨r2, hr2⟩ : ∃ r2, paranoid_quality (e1.qual.buf.drop e1.qual.str) e1.qual.str_len
          opt.phred_offset = some r2 := by
        unfold paranoid_quality
        split
        · exact paranoid_quality_loop_total _ _ _ _ hn
        · exact paranoid_quality_loop_total _ _ _ _ hn
      simp only [hr2]
      by_cases hr3 : r2 < 0
      · exact ⟨false, by simp [hr3]⟩
      · exact ⟨true, by simp [hr3]⟩
  · rw [if_neg hp]
    exact ⟨true, rfl⟩

theorem ambig_check_total (e1 : fq_entry_t) (i : Nat) (s q : List Int) (opt : options_t)
    (h : EdgeTrimmed e1 i s q) : ∃ b, ambig_check e1 opt = some b := by
  obtain ⟨rs, rq, hs, hq, hlen, hi⟩ := h
  unfold ambig_check
  split
  · exact ambig_loop_total _ _ (by rw [hs]; simp; omega)
  · exact ⟨true, rfl⟩

theorem quality_filter_total (e2 : fq_entry_t) (opt : options_t)
    (h : e2.seq.str_len.toNat ≤ (e2.qual.buf.drop e2.qual.str).length) :
    ∃ b, quality_filter e2 opt = some b := by
  unfold quality_filter
  split
  · obtain ⟨j, hj⟩ := filter_loop_total opt.phred_offset _ _ 0 h
    simp only [hj]
    split
    · exact ⟨false, rfl⟩
    · exact ⟨true, rfl⟩
  · exact ⟨true, rfl⟩

/-- `process_current_fq` returns on a fresh record whose sequence line holds a byte other
than `N`. -/
theorem process_current_fq_total (e : fq_entry_t) (sl ql : List Int) (opt : options_t)
    (hf : Fresh e sl ql) (hx : ∃ x ∈ sl, x ≠ 78) :
    ∃ c e2, process_current_fq e opt = .ret (c, e2) := by
  obtain ⟨e1, hedge⟩ := edge_trim_total e sl ql hf hx
  obtain ⟨i, ja, hij, hja, hET, -, -⟩ := edge_trim_fresh e e1 sl ql hf hedge
  obtain ⟨bp, hbp⟩ := paranoid_check_total e1 i _ _ opt hET
  obtain ⟨ba, hba⟩ := ambig_check_total e1 i _ _ opt hET
  have hET0 := hET
  obtain ⟨rs, rq, hs, hq, hlen, hi⟩ := hET0
  have hfl0 : sl.length = ql.length := by
    obtain ⟨-, -, -, -, h0⟩ := hf
    exact h0
  simp only [List.length_take] at hlen hi
  obtain ⟨e2, he2, hfl⟩ : ∃ e2, quality_trim e1 opt = some e2 ∧
      e2.seq.str_len.toNat ≤ (e2.qual.buf.drop e2.qual.str).length := by
    rcases quality_trim_cases e1 i _ _ opt hET with hc | ⟨k, rs1, rq1, hk, hc⟩
    · exact ⟨e1, hc, by rw [hs, hq]; simp; omega⟩
    · refine ⟨_, hc, ?_⟩
      simp only [List.length_drop, List.length_take] at hk
      simp only [Int.toNat_ofNat, List.length_drop, List.length_append, List.length_take,
        List.length_cons]
      omega
  obtain ⟨bf, hbf⟩ := quality_filter_total e2 opt hfl
  unfold process_current_fq
  simp only [hedge, hbp]
  cases bp with
  | false => exact ⟨_, _, rfl⟩
  | true =>
    simp only [hba]
    cases ba with
    | false => exact ⟨_, _, rfl⟩
    | true =>
      simp only [he2, hbf]
      cases bf with
      | false => exact ⟨_, _, rfl⟩
      | true =>
        simp only []
        split
        · exact ⟨_, _, rfl⟩
        · exact ⟨_, _, rfl⟩

/-- The entry the quality trim leaves for an edge-trimmed fresh record: both buffers hold
the first `b` bytes of their line and a NUL, both strings start at `i`; either nothing was
changed (`b = ja + 1`) or both recorded lengths are `b - i`; and with a threshold `t ≥ 0`
whose running deficits all fit an `int`, the last byte before the NUL, when there is one,
has quality at least `t`. -/
theorem quality_trim_shape (e1 e2 : fq_entry_t) (sl ql : List Int) (i ja : Nat)
    (opt : options_t) (hij : i ≤ ja) (hja : ja < sl.length) (hlen : sl.length = ql.length)
    (hET : EdgeTrimmed e1 i (sl.take (ja + 1)) (ql.take (ja + 1)))
    (hq : quality_trim e1 opt = some e2) :
    ∃ b rs rq, i ≤ b ∧ b ≤ ja + 1 ∧
      e2.seq.buf = sl.take b ++ 0 :: rs ∧ e2.seq.str = i ∧
      e2.qual.buf = ql.take b ++ 0 :: rq ∧ e2.qual.str = i ∧ e2.id = e1.id ∧
      ((e2 = e1 ∧ b = ja + 1) ∨
        (e2.seq.str_len = ((b - i : Nat) : Int) ∧ e2.qual.str_len = ((b - i : Nat) : Int))) ∧
      (0 ≤ opt.qual_trim →
        (∀ k, k < ((ql.take (ja + 1)).drop i).length →
          fits_int (deficit opt.qual_trim opt.phred_offset ((ql.take (ja + 1)).drop i) k)) →
        i < b →
        ∃ last, ql[b - 1]? = some last ∧ opt.qual_trim ≤ last - opt.phred_offset) := by
  have hET0 := hET
  obtain ⟨rs, rq, hs, hqq, hl2, hi⟩ := hET0
  simp only [List.length_take] at hl2 hi
  have hqlen : (ql.take (ja + 1)).length = ja + 1 := by
    simp only [List.length_take]; omega
  obtain ⟨last, hl1, hlrd⟩ := rd_last_edge_trimmed i (ql.take (ja + 1)) rq (by omega)
  have hlast : ql[ja]? = some last := by
    rw [hqlen, List.getElem?_take] at hl1
    simpa using hl1
  by_cases hen : opt.qual_trim > -1 ∧ last - opt.phred_offset < opt.qual_trim
  · obtain ⟨k, rs1, rq1, h1, h2⟩ :=
      quality_trim_engaged_cut e1 i _ _ opt last hET hen.1 hl1 hen.2
    rw [h1] at hq
    simp only [Option.some.injEq] at hq
    subst hq
    simp only [List.length_drop, hqlen] at h2
    refine ⟨i + k, rs1, rq1, by omega, by omega, ?_, rfl, ?_, rfl, rfl, Or.inr ⟨?_, ?_⟩, ?_⟩
    · simp only [List.take_take]
      rw [Nat.min_eq_left (by omega)]
    · simp only [List.take_take]
      rw [Nat.min_eq_left (by omega)]
    · simp
    · simp
    · intro _ hfit hk
      obtain ⟨k1, rs2, rq2, h4, -, h3, -⟩ :=
        quality_trim_engaged e1 i _ _ opt last hET hen.1 hl1 hen.2 hfit
      rw [h1] at h4
      have hkk : (k : Int) = (k1 : Int) :=
        congrArg (fun e => e.seq.str_len) (Option.some.inj h4)
      have hkk1 : k = k1 := by omega
      subst hkk1
      have hk1 : k - 1 < ((ql.take (ja + 1)).drop i).length := by
        simp only [List.length_drop, hqlen]; omega
      have hmax := h3 (k - 1) hk1
      rw [deficit_succ _ _ _ (k - 1) hk1] at hmax
      have e1 : k - 1 + 1 = k := by omega
      rw [e1] at hmax
      refine ⟨((ql.take (ja + 1)).drop i)[k - 1], ?_, by omega⟩
      simp only [List.getElem_drop, List.getElem_take]
      rw [List.getElem?_eq_getElem (by omega)]
      congr 2
      omega
  · have hsame : quality_trim e1 opt = some e1 := by
      unfold quality_trim
      by_cases ht : opt.qual_trim > -1
      · rw [if_pos ht, hqq]
        simp only [hlrd]
        rw [if_neg (fun h => hen ⟨ht, h⟩)]
      · rw [if_neg ht]
    rw [hsame] at hq
    simp only [Option.some.injEq] at hq
    subst hq
    refine ⟨ja + 1, rs, rq, by omega, le_refl _, by simp [hs], by simp [hs], by simp [hqq],
      by simp [hqq], rfl, Or.inl ⟨rfl, rfl⟩, ?_⟩
    intro ht _ _
    refine ⟨last, by simpa using hlast, ?_⟩
    by_contra hc
    exact hen ⟨by omega, by omega⟩

/-! ## Lemmas on the ambiguous edges -/

theorem rdropWhile_append_unique (p : Int → Bool) (l ws : List Int)
    (hws : ∀ x ∈ ws, p x = true) (hl : ∀ x, l.getLast? = some x → p x = false) :
    (l ++ ws).rdropWhile p = l := by
  unfold List.rdropWhile
  rw [List.reverse_append, List.dropWhile_append_of_pos (by simpa using hws)]
  have : l.rdropWhile p = l := by
    rw [List.rdropWhile_eq_self_iff]
    intro hne
    have := hl (l.getLast hne) (List.getLast?_eq_getLast _ hne)
    simp [this]
  exact this

/-- The three parts of a sequence line: `i` times `N`, the bytes `[i, ja]` that start and
end with a byte other than `N`, and `N` up to the end. -/
theorem strip_ambiguous_eq (sl : List Int) (i ja : Nat) (hij : i ≤ ja) (hja : ja < sl.length)
    (h1 : sl.take i = List.replicate i 78) (h2 : ∃ x, sl[i]? = some x ∧ x ≠ 78)
    (h3 : ∃ x, sl[ja]? = some x ∧ x ≠ 78)
    (h4 : sl.drop (ja + 1) = List.replicate (sl.length - (ja + 1)) 78) :
    leading_N sl = i ∧ sl.length - trailing_N sl = ja + 1 ∧
      strip_ambiguous sl = (sl.take (ja + 1)).drop i := by
  obtain ⟨x, hx1, hx2⟩ := h2
  obtain ⟨y, hy1, hy2⟩ := h3
  have hi : i < sl.length := by omega
  rw [List.getElem?_eq_getElem hi] at hx1
  rw [List.getElem?_eq_getElem hja] at hy1
  simp only [Option.some.injEq] at hx1 hy1
  have hsplit : sl = List.replicate i 78 ++ (sl[i] :: sl.drop (i + 1)) := by
    rw [← h1, ← List.drop_eq_getElem_cons hi, List.take_append_drop]
  have hp : ∀ a ∈ List.replicate i (78 : Int), (fun c : Int => c == 78) a = true := by
    intro a ha
    simp [List.eq_of_mem_replicate ha]
  have hxn : ((fun c : Int => c == 78) sl[i]) = false := by
    simp only [beq_eq_false_iff_ne, ne_eq]
    rw [hx1]; exact hx2
  have hmid : sl.drop i = (sl.take (ja + 1)).drop i ++ sl.drop (ja + 1) := by
    rw [List.drop_take]
    have e1 : sl.drop (ja + 1) = (sl.drop i).drop (ja + 1 - i) := by
      rw [List.drop_drop]
      congr 1
      omega
    rw [e1, List.take_append_drop]
  have hmidlast : ((sl.take (ja + 1)).drop i).getLast? = some sl[ja] := by
    rw [List.getLast?_drop, if_neg (by simp; omega), List.getLast?_eq_getElem?]
    simp only [List.length_take]
    rw [Nat.min_eq_left (by omega)]
    simp [List.getElem?_take, List.getElem?_eq_getElem hja]
  have hp2 : ∀ a ∈ sl.drop (ja + 1), (fun c : Int => c == 78) a = true := by
    intro a ha
    rw [h4] at ha
    simp [List.eq_of_mem_replicate ha]
  refine ⟨?_, ?_, ?_⟩
  · unfold leading_N
    rw [hsplit, List.takeWhile_append_of_pos hp, List.takeWhile_cons_of_neg (by simpa using hxn)]
    simp
  · unfold trailing_N
    have hrev : sl.reverse = (sl.drop (ja + 1)).reverse ++ (sl.take (ja + 1)).reverse := by
      rw [← List.reverse_append, List.take_append_drop]
    have htk : (sl.take (ja + 1)).reverse = sl[ja] :: (sl.take ja).reverse := by
      rw [List.take_succ, List.getElem?_eq_getElem hja]
      simp
    rw [hrev, List.takeWhile_append_of_pos (by simpa using hp2), htk,
      List.takeWhile_cons_of_neg (by
        simp only [beq_iff_eq]
        rw [hy1]; exact hy2)]
    simp only [List.append_nil, List.length_reverse, List.length_drop]
    omega
  · unfold strip_ambiguous
    have hdw : sl.dropWhile (fun c => c == 78) = sl.drop i := by
      conv_lhs => rw [hsplit]
      rw [List.dropWhile_append_of_pos hp, List.dropWhile_cons_of_neg (by simpa using hxn),
        ← List.drop_eq_getElem_cons hi]
    rw [hdw, hmid]
    apply rdropWhile_append_unique _ _ _ hp2
    intro z hz
    rw [hmidlast] at hz
    simp only [Option.some.injEq] at hz
    simp only [beq_eq_false_iff_ne, ne_eq]
    rw [← hz, hy1]; exact hy2

/-! ## Lemmas on the single-file loop -/

/-- A round of the single-file loop after which the loop goes on has consumed input. -/
theorem nonpaired_round_consumes (current cur2 : fq_file_t) (opt : options_t)
    (h : nonpaired_round current opt = .ret (true, cur2)) :
    cur2.inp.length < current.inp.length := by
  unfold nonpaired_round at h
  split at h
  · simp at h
  · simp at h
  · rename_i r1 cur1 hl
    obtain ⟨hl1, hl2⟩ := readnext_fq_ret _ _ _ hl
    split at h
    · simp at h
    · rename_i hr1
      simp only [ne_eq, not_not] at hr1
      subst hr1
      obtain ⟨-, -, -, -, -, hlt⟩ := get_entry_fresh _ _ _ _ hl1
      split at h
      · simp at h
      · simp at h
      · simp only at h
        split at h
        · simp only [Outcome.ret.injEq, Prod.mk.injEq, true_and] at h
          subst h
          exact hlt
        · split at h
          · simp at h
          · rename_i n cur3 ho
            obtain ⟨-, w, -, hw⟩ := output_fq_some _ _ _ ho
            split at h
            · simp at h
            · simp only [Outcome.ret.injEq, Prod.mk.injEq, true_and] at h
              subst h hw
              exact hlt

/-- The bound of the single-file loop is never reached. -/
theorem nonpaired_loop_total (opt : options_t) (fuel : Nat) (current : fq_file_t)
    (hfuel : current.inp.length < fuel) : ∃ o, nonpaired_loop opt fuel current = some o := by
  induction fuel generalizing current with
  | zero => omega
  | succ n ih =>
    simp only [nonpaired_loop]
    split
    · exact ⟨_, rfl⟩
    · exact ⟨_, rfl⟩
    · exact ⟨_, rfl⟩
    · rename_i cur hround
      have := nonpaired_round_consumes _ _ _ hround
      exact ih cur (by omega)

/-- `process_nonpaired` ends on every list of files. -/
theorem process_nonpaired_total (opt : options_t) (files : List fq_file_t) :
    ∃ o, process_nonpaired opt files = some o := by
  induction files with
  | nil => exact ⟨_, rfl⟩
  | cons current rest ih =>
    obtain ⟨o1, h1⟩ := nonpaired_loop_total opt (current.inp.length + 1) current (by omega)
    obtain ⟨o2, h2⟩ := ih
    simp only [process_nonpaired, h1]
    cases o1 with
    | fault => exact ⟨_, rfl⟩
    | exit_failure => exact ⟨_, rfl⟩
    | ret cur =>
      simp only [h2]
      cases o2 with
      | fault => exact ⟨_, rfl⟩
      | exit_failure => exact ⟨_, rfl⟩
      | ret done => exact ⟨_, rfl⟩

/-! ## Lemmas on the recorded length -/

/-- The quality trim on an edge-trimmed entry whose last quality is not below the
threshold, or with the trim disabled, leaves the entry as it is. -/
theorem quality_trim_not_engaged (e1 : fq_entry_t) (i : Nat) (s q : List Int)
    (opt : options_t) (last : Int) (h : EdgeTrimmed e1 i s q)
    (hlast : q[q.length - 1]? = some last)
    (hne : ¬ (0 ≤ opt.qual_trim ∧ last - opt.phred_offset < opt.qual_trim)) :
    quality_trim e1 opt = some e1 := by
  obtain ⟨rs, rq, hs, hq, hlen, hi⟩ := h
  obtain ⟨l2, hl1, hl2⟩ := rd_last_edge_trimmed i q rq (by omega)
  rw [hlast] at hl1
  simp only [Option.some.injEq] at hl1
  subst hl1
  unfold quality_trim
  by_cases ht : opt.qual_trim > -1
  · rw [if_pos ht, hq]
    simp only [hl2]
    rw [if_neg (fun hlt => hne ⟨by omega, hlt⟩)]
  · rw [if_neg ht]

/-! ## C1: the quality trim -/

/-- C1 as stated fails. The read `ACGT` with qualities `IIII` (40 each, offset 33) and the
threshold `t = 2000000000`: the last quality is below `t`, the cumulative deficit is
largest, `7999999840`, at the cut `0`, and the quality trim cuts sequence and quality at
`3`, leaving `ACG` and `III`.  The running sum of the loop is an `int`: after the second
addition it has left the range of 32 bits and is negative. -/
theorem quality_trim_overflow_cut :
    get_entry fq_ACGT init_entry = .ret (0, entry_ACGT, []) ∧
    edge_trim entry_ACGT = some edged_ACGT ∧
    edged_ACGT.qual.window = [73, 73, 73, 73] ∧
    edged_ACGT.qual.window.getLast? = some 73 ∧
    ((73 : Int) - 33 < 2000000000) ∧
    quality_trim edged_ACGT { init_options with qual_trim := 2000000000 }
      = some { edged_ACGT with seq := ⟨[65, 67, 71, 0, 0, 0], 0, 3⟩,
                               qual := ⟨[73, 73, 73, 0, 0, 0], 0, 3⟩ } ∧
    strbuf_t.cstr ⟨[65, 67, 71, 0, 0, 0], 0, 3⟩ = some [65, 67, 71] ∧
    strbuf_t.cstr ⟨[73, 73, 73, 0, 0, 0], 0, 3⟩ = some [73, 73, 73] ∧
    deficit 2000000000 33 edged_ACGT.qual.window 0 = 7999999840 ∧
    deficit 2000000000 33 edged_ACGT.qual.window 3 = 1999999960 ∧
    (∀ k1, k1 < 4 → 0 < k1 →
      deficit 2000000000 33 edged_ACGT.qual.window k1
        < deficit 2000000000 33 edged_ACGT.qual.window 0) ∧
    wrap32 (1999999960 + wrap32 (2000000000 - (73 - 33))) = -294967376 := by
  decide

/-- C1, amended. Quality-adaptive trim: for a freshly read record (`hread`) behind the edge
trim (`hedge`), a threshold `t = opt.qual_trim ≥ 0`, a last quality byte of the read with
`last - offset < t`, and cumulative deficits (sum over `i = k .. L-1` of `t - q_i`, for
every cut `k` below the length `L` of the read) that all fit a 32-bit `int` (`hfit`), the
quality trim returns an entry cut at `k`: the recorded lengths of sequence and quality are
`k`, `k` is a cut position below `L` whose cumulative deficit is maximal, and every cut
position right of `k` has a strictly smaller deficit (`k` is the rightmost maximum).  When
the read holds no NUL byte, the strings that are written are the first `k` bytes of the
edge-trimmed sequence and quality. -/
theorem quality_trim_rightmost_max (f f1 : List Int) (e0 e e1 : fq_entry_t) (opt : options_t)
    (last : Int)
    (hread : get_entry f e0 = .ret (0, e, f1))
    (hedge : edge_trim e = some e1)
    (ht : 0 ≤ opt.qual_trim)
    (hlast : e1.qual.window.getLast? = some last)
    (hlt : last - opt.phred_offset < opt.qual_trim)
    (hfit : ∀ k, k < e1.qual.window.length →
      fits_int (deficit opt.qual_trim opt.phred_offset e1.qual.window k)) :
    ∃ k e2, quality_trim e1 opt = some e2 ∧
      k < e1.qual.window.length ∧ e1.seq.window.length = e1.qual.window.length ∧
      (∀ k1, k1 < e1.qual.window.length →
        deficit opt.qual_trim opt.phred_offset e1.qual.window k1
          ≤ deficit opt.qual_trim opt.phred_offset e1.qual.window k) ∧
      (∀ k1, k < k1 → k1 < e1.qual.window.length →
        deficit opt.qual_trim opt.phred_offset e1.qual.window k1
          < deficit opt.qual_trim opt.phred_offset e1.qual.window k) ∧
      e2.seq.str_len = k ∧ e2.qual.str_len = k ∧
      e2.seq.str = e1.seq.str ∧ e2.qual.str = e1.qual.str ∧ e2.id = e1.id ∧
      ((0 : Int) ∉ e1.seq.window →
        e1.seq.cstr = some e1.seq.window ∧ e2.seq.cstr = some (e1.seq.window.take k)) ∧
      ((0 : Int) ∉ e1.qual.window →
        e1.qual.cstr = some e1.qual.window ∧ e2.qual.cstr = some (e1.qual.window.take k)) := by
  obtain ⟨sl, ql, hfresh, -, -, -⟩ := get_entry_fresh f f1 e0 e hread
  obtain ⟨i, ja, -, -, hET, -, -⟩ := edge_trim_fresh e e1 sl ql hfresh hedge
  obtain ⟨hws, hwq⟩ := window_edge_trimmed e1 i _ _ hET
  generalize sl.take (ja + 1) = s at hET hws
  generalize ql.take (ja + 1) = q at hET hwq
  rw [hwq] at hfit
  have hET2 := hET
  obtain ⟨rs, rq, hs, hq, hlen, hi⟩ := hET2
  have hlast2 : q[q.length - 1]? = some last := by
    rw [hwq, List.getLast?_drop, if_neg (by omega), List.getLast?_eq_getElem?] at hlast
    exact hlast
  obtain ⟨k, rs1, rq1, h1, h2, h3, h4⟩ :=
    quality_trim_engaged e1 i s q opt last hET (by omega) hlast2 hlt hfit
  rw [hws, hwq]
  refine ⟨k, _, h1, h2, by simp [hlen], h3, h4, rfl, rfl, by simp [hs], by simp [hq], rfl, ?_, ?_⟩
  · intro h0
    simp only [strbuf_t.cstr, hs]
    rw [List.drop_append_of_le_length (by omega), List.drop_append_of_le_length (by simp; omega),
      List.take_drop]
    refine ⟨c_str_append _ _ h0, c_str_append _ _ ?_⟩
    rw [← List.take_drop]
    exact fun hm => h0 (List.mem_of_mem_take hm)
  · intro h0
    simp only [strbuf_t.cstr, hq]
    rw [List.drop_append_of_le_length (by omega), List.drop_append_of_le_length (by simp; omega),
      List.take_drop]
    refine ⟨c_str_append _ _ h0, c_str_append _ _ ?_⟩
    rw [← List.take_drop]
    exact fun hm => h0 (List.mem_of_mem_take hm)

/-- C1, amended, at the example of the specification: offset 33, threshold 20 and
qualities `IIIIII#####` cut the read to length 6; the cumulative deficits lie between
`-60` and `30`. -/
theorem quality_trim_rightmost_max_witness :
    get_entry fq_trim_sample init_entry = .ret (0, entry_trim_sample, []) ∧
    edge_trim entry_trim_sample = some edged_trim_sample ∧
    (∀ k, k < edged_trim_sample.qual.window.length →
      fits_int (deficit 20 33 edged_trim_sample.qual.window k)) ∧
    quality_trim edged_trim_sample { init_options with qual_trim := 20 }
      = some { id := ⟨[64, 114, 0, 0], 0, 2⟩
               seq := ⟨[65, 67, 71, 84, 65, 67, 0, 84, 65, 67, 71, 0, 0], 0, 6⟩
               qual := ⟨[73, 73, 73, 73, 73, 73, 0, 35, 35, 35, 35, 0, 0], 0, 6⟩ } ∧
    ∃ k e2, quality_trim edged_trim_sample { init_options with qual_trim := 20 } = some e2 ∧
      k < edged_trim_sample.qual.window.length ∧
      edged_trim_sample.seq.window.length = edged_trim_sample.qual.window.length ∧
      (∀ k1, k1 < edged_trim_sample.qual.window.length →
        deficit 20 33 edged_trim_sample.qual.window k1
          ≤ deficit 20 33 edged_trim_sample.qual.window k) ∧
      (∀ k1, k < k1 → k1 < edged_trim_sample.qual.window.length →
        deficit 20 33 edged_trim_sample.qual.window k1
          < deficit 20 33 edged_trim_sample.qual.window k) ∧
      e2.seq.str_len = k ∧ e2.qual.str_len = k ∧
      e2.seq.str = edged_trim_sample.seq.str ∧ e2.qual.str = edged_trim_sample.qual.str ∧
      e2.id = edged_trim_sample.id ∧
      ((0 : Int) ∉ edged_trim_sample.seq.window →
        edged_trim_sample.seq.cstr = some edged_trim_sample.seq.window ∧
        e2.seq.cstr = some (edged_trim_sample.seq.window.take k)) ∧
      ((0 : Int) ∉ edged_trim_sample.qual.window →
        edged_trim_sample.qual.cstr = some edged_trim_sample.qual.window ∧
        e2.qual.cstr = some (edged_trim_sample.qual.window.take k)) :=
  ⟨by decide, by decide, by decide, by decide,
    quality_trim_rightmost_max fq_trim_sample [] init_entry entry_trim_sample edged_trim_sample
      { init_options with qual_trim := 20 } 35 (by decide) (by decide) (by decide) (by decide)
      (by decide) (by decide)⟩

/-! ## C2: paired files of different record counts -/

/-- C2. With three records in the first file and two in the second, `process_paired`
returns normally: the third round reads the third record of the first file before the
second file reports its end, both `done_fq` tests then see an end of file, and two pairs
have been written. -/
theorem process_paired_three_two_returns :
    process_paired (init_fq fq_three) (init_fq fq_two) init_options
      = some (.ret
          ({ inp := [], out := [fq_record, fq_record], entry := entry_record },
           { inp := [], out := [fq_record, fq_record],
             entry := { id := ⟨[64, 97, 0, 0], 0, -1⟩, seq := ⟨[65, 67, 0, 0], 0, 1⟩,
                        qual := ⟨[73, 73, 0, 0], 0, 1⟩ } })) := by
  decide

/-! ## C3: the length filter -/

/-- C3. A read of four bases, no quality trim and `min_length = 4`: `process_current_fq`
rejects the record although the sequence it would write has four bases. -/
theorem length_filter_rejects_exact_length :
    get_entry fq_ACGT init_entry = .ret (0, entry_ACGT, []) ∧
    process_current_fq entry_ACGT { init_options with min_length := 4 }
      = .ret (-1, { entry_ACGT with seq := ⟨[65, 67, 71, 84, 0, 0], 0, 3⟩,
                                    qual := ⟨[73, 73, 73, 73, 0, 0], 0, 3⟩ }) ∧
    strbuf_t.cstr ⟨[65, 67, 71, 84, 0, 0], 0, 3⟩ = some [65, 67, 71, 84] := by
  decide

/-! ## C4: the edge trim applied twice -/

/-- C4. On the read `AC` the edge trim leaves the string `AC` with recorded length 1; a
second application cuts the string to `A` and the quality to `I` and records length 0. -/
theorem edge_trim_twice_changes :
    get_entry fq_record init_entry = .ret (0, entry_record, []) ∧
    edge_trim entry_record
      = some { entry_record with seq := ⟨[65, 67, 0, 0], 0, 1⟩, qual := ⟨[73, 73, 0, 0], 0, 1⟩ } ∧
    edge_trim { entry_record with seq := ⟨[65, 67, 0, 0], 0, 1⟩, qual := ⟨[73, 73, 0, 0], 0, 1⟩ }
      = some { entry_record with seq := ⟨[65, 0, 0, 0], 0, 0⟩, qual := ⟨[73, 0, 0, 0], 0, 0⟩ } ∧
    strbuf_t.cstr ⟨[65, 67, 0, 0], 0, 1⟩ = some [65, 67] ∧
    strbuf_t.cstr ⟨[65, 0, 0, 0], 0, 0⟩ = some [65] := by
  decide

/-! ## C5: a read made of `N` only -/

/-- C5. A freshly read record whose sequence line is `n` times `N` (`n` of any size): the
backward scan of the edge trim runs through the whole line and reads the cell below the
buffer, so the edge trim sets no window and `process_current_fq` does not return. -/
theorem all_N_read_faults (f f1 : List Int) (e0 e : fq_entry_t) (n : Nat) (opt : options_t)
    (hread : get_entry f e0 = .ret (0, e, f1))
    (hN : e.seq.line = List.replicate n 78) :
    scan_down e.seq.buf (e.seq.str + e.seq.str_len).toNat = none ∧
      edge_trim e = none ∧ process_current_fq e opt = .fault := by
  obtain ⟨sl, ql, hfresh, -, -, -⟩ := get_entry_fresh f f1 e0 e hread
  rw [(fresh_line e sl ql hfresh).1] at hN
  subst hN
  obtain ⟨r1, r2, hs, hq, hlen⟩ := hfresh
  have h1 : scan_down e.seq.buf (e.seq.str + e.seq.str_len).toNat = none := by
    rw [hs]
    simp only [List.length_replicate, Nat.cast_zero, zero_add, Int.toNat_ofNat]
    exact scan_down_replicate n _ n (le_refl _)
  have h2 : edge_trim e = none := by
    unfold edge_trim
    rw [h1]
    split <;> rfl
  refine ⟨h1, h2, ?_⟩
  unfold process_current_fq
  rw [h2]

/-- C5 at the read `N` with `min_length = 1`. -/
theorem all_N_read_faults_witness :
    get_entry fq_N init_entry = .ret (0, entry_N, []) ∧
    entry_N.seq.line = List.replicate 1 78 ∧
    (scan_down entry_N.seq.buf (entry_N.seq.str + entry_N.seq.str_len).toNat = none ∧
      edge_trim entry_N = none ∧
      process_current_fq entry_N { init_options with min_length := 1 } = .fault) :=
  ⟨by decide, by decide,
    all_N_read_faults fq_N [] init_entry entry_N 1 { init_options with min_length := 1 }
      (by decide) (by decide)⟩

/-! ## C6: a pair is written only when both mates pass -/

/-- C6. In a round of `process_paired` in which both files deliver a record (`hl`, `hr`):
when `process_current_fq` accepts both mates, both are written, each to its own output;
when it rejects the left mate, or accepts the left and rejects the right mate, nothing is
written to either output.  A round therefore keeps the numbers of records in the two
outputs equal, and so does the whole run of `process_paired`. -/
theorem paired_round_writes_both_or_neither (left right left1 right1 : fq_file_t)
    (opt : options_t)
    (hl : readnext_fq left = .ret (0, left1)) (hr : readnext_fq right = .ret (0, right1)) :
    (∀ el er, process_current_fq left1.entry opt = .ret (0, el) →
        process_current_fq right1.entry opt = .ret (0, er) →
        ∃ wl wr, output_bytes el = some wl ∧ output_bytes er = some wr ∧
          paired_round left right opt = .ret (true,
            { left1 with entry := el, out := left.out ++ [wl] },
            { right1 with entry := er, out := right.out ++ [wr] })) ∧
    (∀ c el, c ≠ 0 → process_current_fq left1.entry opt = .ret (c, el) →
        paired_round left right opt = .ret (true,
          { left1 with entry := el, out := left.out }, { right1 with out := right.out })) ∧
    (∀ c el er, c ≠ 0 → process_current_fq left1.entry opt = .ret (0, el) →
        process_current_fq right1.entry opt = .ret (c, er) →
        paired_round left right opt = .ret (true,
          { left1 with entry := el, out := left.out },
          { right1 with entry := er, out := right.out })) ∧
    (∀ b l2 r2, paired_round left right opt = .ret (b, l2, r2) →
        left.out.length = right.out.length → l2.out.length = r2.out.length) ∧
    (∀ l2 r2, process_paired left right opt = some (.ret (l2, r2)) →
        left.out.length = right.out.length → l2.out.length = r2.out.length) := by
  obtain ⟨hgl, hol⟩ := readnext_fq_ret _ _ _ hl
  obtain ⟨hgr, hor⟩ := readnext_fq_ret _ _ _ hr
  refine ⟨?_, ?_, ?_, ?_, ?_⟩
  · intro el er hpl hpr
    obtain ⟨wl, hwl⟩ := output_bytes_some _ _ _ _ _ _ _ hgl hpl
    obtain ⟨wr, hwr⟩ := output_bytes_some _ _ _ _ _ _ _ hgr hpr
    refine ⟨wl, wr, hwl, hwr, ?_⟩
    have h1 : ¬ ((wl.length : Int) < 0) := by omega
    have h2 : ¬ ((wr.length : Int) < 0) := by omega
    simp [paired_round, hl, hr, hpl, hpr, output_fq, hwl, hwr, hol, hor, h1, h2]
  · intro c el hc hpl
    simp only [paired_round, hl, hr, hpl, hc, hol, ne_eq, not_true_eq_false, not_false_eq_true,
      if_true, if_false]
    rw [← hor]
  · intro c el er hc hpl hpr
    simp [paired_round, hl, hr, hpl, hpr, hc, hol, hor]
  · intro b l2 r2 h
    exact (paired_round_inv _ _ _ _ _ _ h).1
  · intro l2 r2 h heq
    unfold process_paired at h
    split at h
    · simp at h
    · rename_i l r hloop
      simp only [Option.some.injEq] at h
      obtain ⟨h1, h2⟩ := paired_finish_out _ _ _ _ h
      rw [h1, h2]
      exact process_paired_loop_inv opt _ _ _ _ _ hloop heq
    · simp at h
    · simp at h

/-- C6 at the example of the specification: the left mate `ACGT` passes, the right mate
`AC` fails the minimum length 3, and the round writes neither. -/
theorem paired_round_writes_both_or_neither_witness :
    readnext_fq (init_fq fq_ACGT) = .ret (0, { inp := [], out := [], entry := entry_ACGT }) ∧
    readnext_fq (init_fq fq_record) = .ret (0, { inp := [], out := [], entry := entry_record }) ∧
    process_current_fq entry_ACGT { init_options with min_length := 3 }
      = .ret (0, { entry_ACGT with seq := ⟨[65, 67, 71, 84, 0, 0], 0, 3⟩,
                                   qual := ⟨[73, 73, 73, 73, 0, 0], 0, 3⟩ }) ∧
    process_current_fq entry_record { init_options with min_length := 3 }
      = .ret (-1, { entry_record with seq := ⟨[65, 67, 0, 0], 0, 1⟩,
                                      qual := ⟨[73, 73, 0, 0], 0, 1⟩ }) ∧
    paired_round (init_fq fq_ACGT) (init_fq fq_record) { init_options with min_length := 3 }
      = .ret (true,
          { inp := [], out := [],
            entry := { entry_ACGT with seq := ⟨[65, 67, 71, 84, 0, 0], 0, 3⟩,
                                       qual := ⟨[73, 73, 73, 73, 0, 0], 0, 3⟩ } },
          { inp := [], out := [],
            entry := { entry_record with seq := ⟨[65, 67, 0, 0], 0, 1⟩,
                                         qual := ⟨[73, 73, 0, 0], 0, 1⟩ } }) :=
  ⟨by decide, by decide, by decide, by decide,
    (paired_round_writes_both_or_neither (init_fq fq_ACGT) (init_fq fq_record)
      { inp := [], out := [], entry := entry_ACGT } { inp := [], out := [], entry := entry_record }
      { init_options with min_length := 3 } (by decide) (by decide)).2.2.1 (-1) _ _ (by decide)
      (by decide) (by decide)⟩

/-! ## C7: the strict alphabet check -/

/-- C7. With strict validation on (`paranoid_flg = 1`, the default), the read `ACGa` is
accepted: `paranoid_dna` is called with the recorded length 3 and never looks at the last
base. -/
theorem paranoid_accepts_bad_last_base :
    get_entry fq_ACGa init_entry = .ret (0, entry_ACGa, []) ∧
    init_options.paranoid_flg = 1 ∧
    process_current_fq entry_ACGa init_options
      = .ret (0, { entry_ACGa with seq := ⟨[65, 67, 71, 97, 0, 0], 0, 3⟩,
                                   qual := ⟨[73, 73, 73, 73, 0, 0], 0, 3⟩ }) ∧
    strbuf_t.cstr ⟨[65, 67, 71, 97, 0, 0], 0, 3⟩ = some [65, 67, 71, 97] := by
  decide

/-! ## C8: the quality-count filter -/

/-- C8. Filter threshold 2, no quality trim, qualities 10, 1, 1, 1: three bases of the
read that is written have a quality of at most 3, yet the record is accepted, since the
count runs over the recorded length 3 and misses the last base. -/
theorem quality_filter_misses_last_base :
    get_entry fq_lowq init_entry = .ret (0, entry_lowq, []) ∧
    process_current_fq entry_lowq { init_options with qual_filt := 2 }
      = .ret (0, { entry_lowq with seq := ⟨[65, 67, 71, 84, 0, 0], 0, 3⟩,
                                   qual := ⟨[43, 34, 34, 34, 0, 0], 0, 3⟩ }) ∧
    strbuf_t.cstr ⟨[43, 34, 34, 34, 0, 0], 0, 3⟩ = some [43, 34, 34, 34] ∧
    (([43, 34, 34, 34] : List Int).filter (fun c => c - 33 ≤ 3)).length = 3 := by
  decide

/-! ## C9: sequence and quality of one length -/

/-- C9. The record `AC` with the quality line `I`, NUL (two bytes each, equal lengths for
`get_entry`) is accepted with every default, strict validation included, and `output_fq`
writes the sequence `AC` and the quality `I`: the validation runs over the recorded
length, which is one less than the length of the read, and never sees the last byte.  The
same NUL byte one position earlier, in the quality line `I`, NUL, `I` of the read `ACG`,
is seen and the record is rejected. -/
theorem written_lengths_differ_with_nul :
    get_entry fq_nul init_entry = .ret (0, entry_nul, []) ∧
    init_options.paranoid_flg = 1 ∧
    process_current_fq entry_nul init_options
      = .ret (0, { entry_nul with seq := ⟨[65, 67, 0, 0], 0, 1⟩, qual := ⟨[73, 0, 0, 0], 0, 1⟩ }) ∧
    paranoid_quality [73, 0, 0, 0] 1 33 = some 0 ∧
    paranoid_quality [73, 0, 0, 0] 2 33 = some (-1) ∧
    output_bytes { entry_nul with seq := ⟨[65, 67, 0, 0], 0, 1⟩, qual := ⟨[73, 0, 0, 0], 0, 1⟩ }
      = some [64, 114, 10, 65, 67, 10, 43, 10, 73, 10] ∧
    (¬ ∃ s q, strbuf_t.cstr ⟨[65, 67, 0, 0], 0, 1⟩ = some s ∧
      strbuf_t.cstr ⟨[73, 0, 0, 0], 0, 1⟩ = some q ∧ s.length = q.length) ∧
    get_entry fq_nul_mid init_entry = .ret (0, entry_nul_mid, []) ∧
    process_current_fq entry_nul_mid init_options
      = .ret (-1, { entry_nul_mid with seq := ⟨[65, 67, 71, 0, 0], 0, 2⟩,
                                       qual := ⟨[73, 0, 73, 0, 0], 0, 2⟩ }) := by
  refine ⟨by decide, by decide, by decide, by decide, by decide, by decide, ?_, by decide,
    by decide⟩
  rintro ⟨s, q, hs, hq, hlen⟩
  have h1 : strbuf_t.cstr ⟨[65, 67, 0, 0], 0, 1⟩ = some [65, 67] := by decide
  have h2 : strbuf_t.cstr ⟨[73, 0, 0, 0], 0, 1⟩ = some [73] := by decide
  rw [h1] at hs; rw [h2] at hq
  simp only [Option.some.injEq] at hs hq
  subst hs hq
  simp at hlen

/-- Where no line of the record holds a NUL byte the invariant holds: for every record
returned by `get_entry` and every configuration, if `process_current_fq` accepts the
record, the recorded lengths `seq.str_len` and `qual.str_len` are equal, and when the
sequence and quality lines hold no NUL byte the sequence and the quality string that
`output_fq` writes have one length. -/
theorem written_lengths_equal (f f1 : List Int) (e0 e e2 : fq_entry_t) (opt : options_t)
    (hread : get_entry f e0 = .ret (0, e, f1))
    (hacc : process_current_fq e opt = .ret (0, e2)) :
    e2.seq.str_len = e2.qual.str_len ∧
    ((0 : Int) ∉ e.seq.line → (0 : Int) ∉ e.qual.line →
      ∃ id s q, e2.id.cstr = some id ∧ e2.seq.cstr = some s ∧ e2.qual.cstr = some q ∧
        output_bytes e2 = some (record_bytes id s q) ∧ s.length = q.length) := by
  obtain ⟨sl, ql, hfresh, -, -, -⟩ := get_entry_fresh f f1 e0 e hread
  obtain ⟨idl, r0, hid⟩ := get_entry_id f f1 e0 e hread
  obtain ⟨hl1, hl2⟩ := fresh_line e sl ql hfresh
  obtain ⟨i, b, rs, rq, hib, hb, hs1, hs2, hq1, hq2, hlen2, hid2⟩ :=
    process_current_fq_shape e e2 sl ql opt 0 hfresh hacc
  refine ⟨hlen2, ?_⟩
  intro hs0 hq0
  rw [hl1] at hs0
  rw [hl2] at hq0
  obtain ⟨r1, r2, -, -, hlen⟩ := hfresh
  obtain ⟨w0, hw0⟩ := cstr_some e2.id idl r0 (by rw [hid2, hid]) (by rw [hid2, hid]; simp)
  have hcs : e2.seq.cstr = some ((sl.take b).drop i) := by
    unfold strbuf_t.cstr
    rw [hs1, hs2, List.drop_append_of_le_length (by simp; omega)]
    exact c_str_append _ _ (fun hm => hs0 (List.mem_of_mem_take (List.mem_of_mem_drop hm)))
  have hcq : e2.qual.cstr = some ((ql.take b).drop i) := by
    unfold strbuf_t.cstr
    rw [hq1, hq2, List.drop_append_of_le_length (by simp; omega)]
    exact c_str_append _ _ (fun hm => hq0 (List.mem_of_mem_take (List.mem_of_mem_drop hm)))
  refine ⟨w0, _, _, hw0, hcs, hcq, by simp [output_bytes, hw0, hcs, hcq], ?_⟩
  simp only [List.length_drop, List.length_take]
  omega

/-! ## C10: a record written and read back -/

/-- C10. Round trip: a record returned by `get_entry` with id `id` (starting with `@`),
sequence `s` and quality `q` (the C strings of the entry) of equal length, none of them
ending in white space, `s` neither starting nor ending with `N`, that
`process_current_fq` accepts with the quality trim disabled: `output_fq` writes exactly the
four lines `id`, `s`, `+`, `q`, each ended by `\n`, and `get_entry` on these bytes (with
any buffers `e3`) succeeds, consumes all of them and returns the same id, sequence and
quality. -/
theorem write_read_round_trip (f f1 : List Int) (e0 e e2 e3 : fq_entry_t) (opt : options_t)
    (id s q : List Int)
    (hread : get_entry f e0 = .ret (0, e, f1))
    (hid : e.id.cstr = some id) (hs : e.seq.cstr = some s) (hq : e.qual.cstr = some q)
    (hat : id.head? = some 64) (hlen : s.length = q.length)
    (hw0 : ∀ x, id.getLast? = some x → isspace x = false)
    (hw1 : ∀ x, s.getLast? = some x → isspace x = false)
    (hw2 : ∀ x, q.getLast? = some x → isspace x = false)
    (hN1 : s.head? ≠ some 78) (hN2 : s.getLast? ≠ some 78)
    (htrim : opt.qual_trim = -1)
    (hacc : process_current_fq e opt = .ret (0, e2)) :
    e2.id.cstr = some id ∧ e2.seq.cstr = some s ∧ e2.qual.cstr = some q ∧
    (∀ inp out, ∃ n, output_fq { inp := inp, out := out, entry := e2 }
      = some (n, { inp := inp, out := out ++ [id ++ [10] ++ s ++ [10] ++ [43, 10] ++ q ++ [10]],
                   entry := e2 })) ∧
    ∃ e4, get_entry (id ++ [10] ++ s ++ [10] ++ [43, 10] ++ q ++ [10]) e3 = .ret (0, e4, []) ∧
      e4.id.cstr = some id ∧ e4.seq.cstr = some s ∧ e4.qual.cstr = some q := by
  obtain ⟨idl, sl, ql, r0, hidl, hfresh, hn0, hn1, hn2⟩ := get_entry_lines f f1 e0 e hread
  have hedge := process_no_trim e e2 opt 0 htrim hacc
  obtain ⟨i, ja, hij, hja, hET, hid2, hNi, -, -, hNj⟩ := edge_trim_fresh e e2 sl ql hfresh hedge
  obtain ⟨r1, r2, hfs, hfq, hfl⟩ := hfresh
  obtain ⟨rs, rq, hes, heq, -, -⟩ := hET
  -- the strings of the fresh entry
  have hs' : c_str (sl ++ 0 :: r1) = some s := by simpa [strbuf_t.cstr, hfs] using hs
  have hq' : c_str (ql ++ 0 :: r2) = some q := by simpa [strbuf_t.cstr, hfq] using hq
  have hid' : c_str (idl ++ 0 :: r0) = some id := by simpa [strbuf_t.cstr, hidl] using hid
  have hps := c_str_prefix _ _ _ hs'
  have hpq := c_str_prefix _ _ _ hq'
  have hpid := c_str_prefix _ _ _ hid'
  have h0s := (c_str_eq_some _ _ hs').1
  have h0q := (c_str_eq_some _ _ hq').1
  have h0id := (c_str_eq_some _ _ hid').1
  -- no leading `N`: the string starts at offset 0
  have hi0 : i = 0 := by
    by_contra hi
    have h78 : (sl ++ 0 :: r1).head? = some 78 := by
      have : (sl.take i)[0]? = some 78 := by
        rw [hNi, List.getElem?_replicate, if_pos (by omega)]
      rw [List.getElem?_take, if_pos (by omega)] at this
      cases sl with
      | nil => simp at hja
      | cons a t => simpa using this
    exact hN1 (c_str_head _ _ 78 (by decide) hs' h78)
  subst hi0
  -- no trailing `N`: the NUL is written behind the string
  have hsj : s.length ≤ ja + 1 := by
    by_contra hc
    have hpos : s.length - 1 < s.length := by omega
    have hle := hps.length_le
    have h1 : sl[s.length - 1]? = some s[s.length - 1] := by
      obtain ⟨t, ht⟩ := hps
      rw [← ht, List.getElem?_append_left hpos, List.getElem?_eq_getElem hpos]
    have h2 : (sl.drop (ja + 1))[s.length - 1 - (ja + 1)]? = some 78 := by
      rw [hNj, List.getElem?_replicate, if_pos (by omega)]
    rw [List.getElem?_drop] at h2
    have e1 : ja + 1 + (s.length - 1 - (ja + 1)) = s.length - 1 := by omega
    rw [e1, h1] at h2
    apply hN2
    rw [List.getLast?_eq_getElem?, List.getElem?_eq_getElem hpos]
    exact h2
  have hcs : e2.seq.cstr = some s := by
    simp only [strbuf_t.cstr, hes, List.drop_zero]
    exact c_str_take sl r1 rs s (ja + 1) hs' hsj
  have hcq : e2.qual.cstr = some q := by
    simp only [strbuf_t.cstr, heq, List.drop_zero]
    exact c_str_take ql r2 rq q (ja + 1) hq' (by omega)
  have hcid : e2.id.cstr = some id := by rw [hid2]; exact hid
  have hout : output_bytes e2 = some (id ++ [10] ++ s ++ [10] ++ [43, 10] ++ q ++ [10]) := by
    simp [output_bytes, hcid, hcs, hcq, record_bytes]
  obtain ⟨t0, t1, t2, hback⟩ := get_entry_record_bytes id s q e3 hat hlen
    (fun hm => hn0 (hpid.mem hm)) (fun hm => hn1 (hps.mem hm)) (fun hm => hn2 (hpq.mem hm))
    hw0 hw1 hw2
  refine ⟨hcid, hcs, hcq,
    fun inp out => ⟨((id ++ [10] ++ s ++ [10] ++ [43, 10] ++ q ++ [10]).length : Int),
      by simp only [output_fq, hout]⟩,
    _, hback, ?_, ?_, ?_⟩
  · simpa [strbuf_t.cstr] using c_str_append id t0 h0id
  · simpa [strbuf_t.cstr] using c_str_append s t1 h0s
  · simpa [strbuf_t.cstr] using c_str_append q t2 h0q

/-- C10 at the record `@r` / `ACGT` / `IIII`. -/
theorem write_read_round_trip_witness :
    get_entry fq_ACGT init_entry = .ret (0, entry_ACGT, []) ∧
    process_current_fq entry_ACGT init_options
      = .ret (0, { entry_ACGT with seq := ⟨[65, 67, 71, 84, 0, 0], 0, 3⟩,
                                   qual := ⟨[73, 73, 73, 73, 0, 0], 0, 3⟩ }) ∧
    output_fq { inp := [], out := [],
                entry := { entry_ACGT with seq := ⟨[65, 67, 71, 84, 0, 0], 0, 3⟩,
                                           qual := ⟨[73, 73, 73, 73, 0, 0], 0, 3⟩ } }
      = some (15, { inp := [], out := [fq_ACGT],
                    entry := { entry_ACGT with seq := ⟨[65, 67, 71, 84, 0, 0], 0, 3⟩,
                                               qual := ⟨[73, 73, 73, 73, 0, 0], 0, 3⟩ } }) ∧
    ∃ e4, get_entry fq_ACGT init_entry = .ret (0, e4, []) ∧
      e4.id.cstr = some [64, 114] ∧ e4.seq.cstr = some [65, 67, 71, 84] ∧
      e4.qual.cstr = some [73, 73, 73, 73] :=
  ⟨by decide, by decide, by decide,
    (write_read_round_trip fq_ACGT [] init_entry entry_ACGT
      { entry_ACGT with seq := ⟨[65, 67, 71, 84, 0, 0], 0, 3⟩,
                        qual := ⟨[73, 73, 73, 73, 0, 0], 0, 3⟩ }
      init_entry init_options [64, 114] [65, 67, 71, 84] [73, 73, 73, 73]
      (by decide) (by decide) (by decide) (by decide) (by decide) (by decide)
      (by decide) (by decide) (by decide) (by decide) (by decide) (by decide) (by decide)).2.2.2.2⟩

/-! ## C11: malformed records in single-file mode -/

/-- C11 as stated fails: on a file of three records whose second record lacks its `@`, and
on a file that ends after the first two lines of its second record, `process_nonpaired`
returns normally with the first record written; what follows it is never read. -/
theorem process_nonpaired_malformed_returns :
    process_nonpaired init_options [init_fq fq_malformed]
      = some (.ret [{ inp := [65, 67, 10, 43, 10, 73, 73, 10] ++ fq_record, out := [fq_record],
                      entry := { id := ⟨[97, 10, 0], 0, 2⟩, seq := ⟨[65, 67, 0, 0], 0, 1⟩,
                                 qual := ⟨[73, 73, 0, 0], 0, 1⟩ } }]) ∧
    process_nonpaired init_options [init_fq fq_truncated]
      = some (.ret [{ inp := [], out := [fq_record],
                      entry := { id := ⟨[64, 97, 0, 0], 0, 2⟩, seq := ⟨[65, 67, 0, 0], 0, 2⟩,
                                 qual := ⟨[73, 73, 0, 0], 0, -1⟩ } }]) := by
  decide

/-- C11, amended. In single-file mode a malformed record is treated as the end of the
input: for every file whose unread input does not start with four lines carrying the
markers `@` and `+`, `readnext_fq` returns `-1`, the loop of `process_nonpaired` ends
there without writing anything more, and `process_nonpaired` returns normally. -/
theorem nonpaired_stops_at_malformed (current : fq_file_t) (opt : options_t) (fuel : Nat)
    (hmal : ¬ ∃ l1 l2 l3 l4 f4, FourLines current.inp l1 l2 l3 l4 f4 ∧ l1.head? = some 64 ∧
      l3.head? = some 43) :
    ∃ cur1, readnext_fq current = .ret (-1, cur1) ∧ cur1.out = current.out ∧
      nonpaired_round current opt = .ret (false, cur1) ∧
      nonpaired_loop opt (fuel + 1) current = some (.ret cur1) ∧
      process_nonpaired opt [current] = some (.ret [cur1]) := by
  rcases get_entry_cases current.inp current.entry with hyes | ⟨e, f1, hret⟩
  · exact absurd hyes hmal
  · have hnext : readnext_fq current = .ret (-1, { current with inp := f1, entry := e }) := by
      simp only [readnext_fq, hret]
    have hround : nonpaired_round current opt
        = .ret (false, { current with inp := f1, entry := e }) := by
      simp only [nonpaired_round, hnext]
      rfl
    have hloop : ∀ n, nonpaired_loop opt (n + 1) current
        = some (.ret { current with inp := f1, entry := e }) := by
      intro n
      simp only [nonpaired_loop, hround]
    refine ⟨_, hnext, rfl, hround, hloop fuel, ?_⟩
    simp only [process_nonpaired, hloop]

/-- C11, amended, at a file that starts with a record without `@`. -/
theorem nonpaired_stops_at_malformed_witness :
    (¬ ∃ l1 l2 l3 l4 f4, FourLines (init_fq (fq_no_at ++ fq_record)).inp l1 l2 l3 l4 f4 ∧
      l1.head? = some 64 ∧ l3.head? = some 43) ∧
    ∃ cur1, readnext_fq (init_fq (fq_no_at ++ fq_record)) = .ret (-1, cur1) ∧
      cur1.out = (init_fq (fq_no_at ++ fq_record)).out ∧
      nonpaired_round (init_fq (fq_no_at ++ fq_record)) init_options = .ret (false, cur1) ∧
      nonpaired_loop init_options (0 + 1) (init_fq (fq_no_at ++ fq_record)) = some (.ret cur1) ∧
      process_nonpaired init_options [init_fq (fq_no_at ++ fq_record)] = some (.ret [cur1]) :=
  have hmal : ¬ ∃ l1 l2 l3 l4 f4, FourLines (init_fq (fq_no_at ++ fq_record)).inp l1 l2 l3 l4 f4 ∧
      l1.head? = some 64 ∧ l3.head? = some 43 := by
    rintro ⟨l1, l2, l3, l4, f4, ⟨f1, f2, f3, g1, -, -, -⟩, hat, -⟩
    have h1 : getline (init_fq (fq_no_at ++ fq_record)).inp
        = some ([97, 10], [65, 67, 10, 43, 10, 73, 73, 10] ++ fq_record) := by decide
    rw [h1] at g1
    simp only [Option.some.injEq, Prod.mk.injEq] at g1
    rw [← g1.1] at hat
    simp at hat
  ⟨hmal, nonpaired_stops_at_malformed (init_fq (fq_no_at ++ fq_record)) init_options 0 hmal⟩

/-! ## C12: no `N` in an accepted read when ambiguous reads are filtered -/

/-- C12. With `remove_ambig_flg` set, for every freshly read record that
`process_current_fq` accepts, the sequence it leaves (the string `output_fq` writes, behind
the edge trim and the quality trim) holds no `N` at any position, the last one included. -/
theorem accepted_read_has_no_N (f f1 : List Int) (e0 e e2 : fq_entry_t) (opt : options_t)
    (hread : get_entry f e0 = .ret (0, e, f1))
    (hflag : opt.remove_ambig_flg ≠ 0)
    (hacc : process_current_fq e opt = .ret (0, e2)) :
    ∃ s, e2.seq.cstr = some s ∧ (78 : Int) ∉ s ∧ s.getLast? ≠ some 78 := by
  obtain ⟨sl, ql, hfresh, -, -, -⟩ := get_entry_fresh f f1 e0 e hread
  obtain ⟨e1, hedge, -, hamb, hqt, -, -⟩ := process_accept_steps e e2 opt hacc
  obtain ⟨i, ja, hij, hja, hET, -, -, -, ⟨y, hy1, hy2⟩, -⟩ := edge_trim_fresh e e1 sl ql hfresh hedge
  have hlen : sl.length = ql.length := by
    obtain ⟨-, -, -, -, h0⟩ := hfresh
    exact h0
  -- every cell of the edge-trimmed read is different from `N`
  have hcells : ∀ k, i ≤ k → k ≤ ja → ∃ x, sl[k]? = some x ∧ x ≠ 78 := by
    intro k hk1 hk2
    rcases Nat.lt_or_eq_of_le hk2 with h1 | h1
    · obtain ⟨rs, rq, hs, -, -, -⟩ := hET
      unfold ambig_check at hamb
      rw [if_pos hflag, hs] at hamb
      simp only [List.length_take] at hamb
      have hn : ((((ja + 1) ⊓ sl.length : Nat) : Int) - 1 - (i : Int)).toNat = ja - i := by omega
      rw [hn, List.drop_append_of_le_length (by simp; omega)] at hamb
      obtain ⟨x, hx1, hx2⟩ := ambig_loop_true _ _ hamb (k - i) (by omega)
      rw [List.getElem?_append_left (by simp; omega), List.getElem?_drop, List.getElem?_take,
        if_pos (by omega)] at hx1
      have e1 : i + (k - i) = k := by omega
      rw [e1] at hx1
      exact ⟨x, hx1, hx2⟩
    · subst h1; exact ⟨y, hy1, hy2⟩
  obtain ⟨b, rs, rq, hib, hb, hs1, hs2, -, -, -, -, -⟩ :=
    quality_trim_shape e1 e2 sl ql i ja opt hij hja hlen hET hqt
  have hdrop : e2.seq.buf.drop e2.seq.str = (sl.take b).drop i ++ 0 :: rs := by
    rw [hs1, hs2, List.drop_append_of_le_length (by simp; omega)]
  obtain ⟨w, hw⟩ := c_str_some ((sl.take b).drop i) rs
  have hpre := c_str_prefix _ _ _ hw
  have hno : (78 : Int) ∉ w := by
    intro hm
    obtain ⟨k, hk, hk2⟩ := List.getElem_of_mem (hpre.mem hm)
    simp only [List.length_drop, List.length_take] at hk
    simp only [List.getElem_drop, List.getElem_take] at hk2
    obtain ⟨x, hx1, hx2⟩ := hcells (i + k) (by omega) (by omega)
    rw [List.getElem?_eq_getElem (by omega)] at hx1
    simp only [Option.some.injEq] at hx1
    exact hx2 (hx1.symm.trans hk2)
  refine ⟨w, by simp only [strbuf_t.cstr, hdrop, hw], hno, ?_⟩
  intro hl
  exact hno (List.mem_of_getLast?_eq_some hl)

/-- C12 at the record `NACNGN`: with the filter on it is rejected (an `N` is left inside),
and the record `ACGT` is accepted and holds no `N`. -/
theorem accepted_read_has_no_N_witness :
    get_entry fq_ACGT init_entry = .ret (0, entry_ACGT, []) ∧
    process_current_fq entry_ACGT { init_options with remove_ambig_flg := 1 }
      = .ret (0, { entry_ACGT with seq := ⟨[65, 67, 71, 84, 0, 0], 0, 3⟩,
                                   qual := ⟨[73, 73, 73, 73, 0, 0], 0, 3⟩ }) ∧
    process_current_fq entry_edges { init_options with remove_ambig_flg := 1 }
      = .ret (-1, edged_edges) ∧
    ∃ s, strbuf_t.cstr ⟨[65, 67, 71, 84, 0, 0], 0, 3⟩ = some s ∧ (78 : Int) ∉ s ∧
      s.getLast? ≠ some 78 :=
  ⟨by decide, by decide, by decide,
    accepted_read_has_no_N fq_ACGT [] init_entry entry_ACGT
      { entry_ACGT with seq := ⟨[65, 67, 71, 84, 0, 0], 0, 3⟩,
                        qual := ⟨[73, 73, 73, 73, 0, 0], 0, 3⟩ }
      { init_options with remove_ambig_flg := 1 } (by decide) (by decide) (by decide)⟩

/-! ## C13: the ambiguous-edge trim -/

/-- C13. For every freshly read record whose sequence line holds a byte other than `N`,
the edge trim returns; the read it leaves (the cells `str[0 .. str_len]`) is the sequence
line without its leading and trailing runs of `N` (`strip_ambiguous`, an `N` inside is
kept), that is the bytes `[leading_N, length - trailing_N)` of the line, and the quality it
leaves is the quality line over exactly that index range; both strings start at offset
`leading_N`.  When a line holds no NUL byte these cells are the string that is written. -/
theorem edge_trim_strips_N (f f1 : List Int) (e0 e : fq_entry_t)
    (hread : get_entry f e0 = .ret (0, e, f1))
    (hx : ∃ x ∈ e.seq.line, x ≠ 78) :
    ∃ e1, edge_trim e = some e1 ∧
      e1.seq.window = strip_ambiguous e.seq.line ∧
      strip_ambiguous e.seq.line
        = (e.seq.line.take (e.seq.line.length - trailing_N e.seq.line)).drop
            (leading_N e.seq.line) ∧
      e1.qual.window
        = (e.qual.line.take (e.seq.line.length - trailing_N e.seq.line)).drop
            (leading_N e.seq.line) ∧
      e1.seq.str = leading_N e.seq.line ∧ e1.qual.str = leading_N e.seq.line ∧
      e1.id = e.id ∧
      ((0 : Int) ∉ e.seq.line → e1.seq.cstr = some (strip_ambiguous e.seq.line)) ∧
      ((0 : Int) ∉ e.qual.line → e1.qual.cstr
        = some ((e.qual.line.take (e.seq.line.length - trailing_N e.seq.line)).drop
            (leading_N e.seq.line))) := by
  obtain ⟨sl, ql, hfresh, -, -, -⟩ := get_entry_fresh f f1 e0 e hread
  obtain ⟨hl1, hl2⟩ := fresh_line e sl ql hfresh
  rw [hl1] at hx ⊢
  rw [hl2]
  obtain ⟨e1, hedge⟩ := edge_trim_total e sl ql hfresh hx
  obtain ⟨i, ja, hij, hja, hET, hid, hn1, hn2, hn3, hn4⟩ := edge_trim_fresh e e1 sl ql hfresh hedge
  obtain ⟨hws, hwq⟩ := window_edge_trimmed e1 i _ _ hET
  obtain ⟨hlead, htrail, hstrip⟩ := strip_ambiguous_eq sl i ja hij hja hn1 hn2 hn3 hn4
  obtain ⟨rs, rq, hs, hq, -, -⟩ := hET
  rw [hlead, htrail, hstrip]
  refine ⟨e1, hedge, hws, rfl, hwq, by simp [hs], by simp [hq], hid, ?_, ?_⟩
  · intro h0
    simp only [strbuf_t.cstr, hs]
    rw [List.drop_append_of_le_length (by simp; omega)]
    exact c_str_append _ _ (fun hm => h0 (List.mem_of_mem_take (List.mem_of_mem_drop hm)))
  · intro h0
    simp only [strbuf_t.cstr, hq]
    have hlen : sl.length = ql.length := by
      obtain ⟨-, -, -, -, h0⟩ := hfresh
      exact h0
    rw [List.drop_append_of_le_length (by simp; omega)]
    exact c_str_append _ _ (fun hm => h0 (List.mem_of_mem_take (List.mem_of_mem_drop hm)))

/-- C13 at the read `NACNGN` with qualities `ABCDEF`: the edge trim leaves `ACNG` and `BCDE`. -/
theorem edge_trim_strips_N_witness :
    get_entry fq_edges init_entry = .ret (0, entry_edges, []) ∧
    (∃ x ∈ entry_edges.seq.line, x ≠ 78) ∧
    edge_trim entry_edges = some edged_edges ∧
    strip_ambiguous entry_edges.seq.line = [65, 67, 78, 71] ∧
    edged_edges.seq.cstr = some [65, 67, 78, 71] ∧ edged_edges.qual.cstr = some [66, 67, 68, 69] ∧
    ∃ e1, edge_trim entry_edges = some e1 ∧
      e1.seq.window = strip_ambiguous entry_edges.seq.line ∧
      strip_ambiguous entry_edges.seq.line
        = (entry_edges.seq.line.take (entry_edges.seq.line.length
            - trailing_N entry_edges.seq.line)).drop (leading_N entry_edges.seq.line) ∧
      e1.qual.window
        = (entry_edges.qual.line.take (entry_edges.seq.line.length
            - trailing_N entry_edges.seq.line)).drop (leading_N entry_edges.seq.line) ∧
      e1.seq.str = leading_N entry_edges.seq.line ∧
      e1.qual.str = leading_N entry_edges.seq.line ∧
      e1.id = entry_edges.id ∧
      ((0 : Int) ∉ entry_edges.seq.line →
        e1.seq.cstr = some (strip_ambiguous entry_edges.seq.line)) ∧
      ((0 : Int) ∉ entry_edges.qual.line → e1.qual.cstr
        = some ((entry_edges.qual.line.take (entry_edges.seq.line.length
            - trailing_N entry_edges.seq.line)).drop (leading_N entry_edges.seq.line))) :=
  ⟨by decide, ⟨65, by decide, by decide⟩, by decide, by decide, by decide, by decide,
    edge_trim_strips_N fq_edges [] init_entry entry_edges (by decide) ⟨65, by decide, by decide⟩⟩

/-! ## C14: the quality range check -/

/-- C14. With strict validation on (`paranoid_flg = 1`, the default) and offset 33, the
qualities `III~` are accepted although `~` (126) lies outside `[33, 74]`:
`paranoid_quality` is called with the recorded length 3 and never looks at the last byte. -/
theorem paranoid_accepts_bad_last_quality :
    get_entry fq_badq init_entry = .ret (0, entry_badq, []) ∧
    init_options.paranoid_flg = 1 ∧ init_options.phred_offset = 33 ∧
    process_current_fq entry_badq init_options
      = .ret (0, { entry_badq with seq := ⟨[65, 67, 71, 84, 0, 0], 0, 3⟩,
                                   qual := ⟨[73, 73, 73, 126, 0, 0], 0, 3⟩ }) ∧
    strbuf_t.cstr ⟨[73, 73, 73, 126, 0, 0], 0, 3⟩ = some [73, 73, 73, 126] ∧
    ¬ ((126 : Int) ≤ 74) := by
  decide

/-! ## C15: the framing of a record -/

/-- C15. `get_entry` returns `0` (a record) only when four lines are available on the
input, the first starting with `@` and the third with `+`; whenever that is not the case
it returns `-1`, in particular on an input made of blank lines only. -/
theorem get_entry_framing (f : List Int) (e0 : fq_entry_t) :
    (∀ e f1, get_entry f e0 = .ret (0, e, f1) →
      ∃ l1 l2 l3 l4, FourLines f l1 l2 l3 l4 f1 ∧ l1.head? = some 64 ∧ l3.head? = some 43) ∧
    ((¬ ∃ l1 l2 l3 l4 f4, FourLines f l1 l2 l3 l4 f4 ∧ l1.head? = some 64 ∧
        l3.head? = some 43) →
      ∃ e f1, get_entry f e0 = .ret (-1, e, f1)) ∧
    (∀ n, ∃ e f1, get_entry (List.replicate n 10) e0 = .ret (-1, e, f1)) := by
  refine ⟨?_, ?_, ?_⟩
  · intro e f1 h
    rcases get_entry_cases f e0 with ⟨l1, l2, l3, l4, f4, h4, hat, hplus⟩ | ⟨e1, f2, h1⟩
    · obtain ⟨hne, heq⟩ := get_entry_four_lines f l1 l2 l3 l4 f4 e0 h4 hat hplus
      by_cases hl : (rstrip l2).length = (rstrip l4).length
      · obtain ⟨r0, r1, r3, hr⟩ := heq hl
        rw [hr] at h
        simp only [Outcome.ret.injEq, Prod.mk.injEq, true_and] at h
        obtain ⟨-, hf⟩ := h
        subst hf
        exact ⟨l1, l2, l3, l4, h4, hat, hplus⟩
      · rw [hne hl] at h
        simp at h
    · rw [h1] at h
      simp at h
  · intro hno
    rcases get_entry_cases f e0 with hyes | hret
    · exact absurd hyes hno
    · exact hret
  · intro n
    rcases get_entry_cases (List.replicate n 10) e0 with ⟨l1, l2, l3, l4, f4, h4, hat, -⟩ | hret
    · exfalso
      obtain ⟨f1, f2, f3, g1, -, -, -⟩ := h4
      obtain ⟨ha, hp⟩ := getline_some _ _ _ g1
      cases l1 with
      | nil => simp at hp
      | cons a t =>
        simp only [List.head?_cons, Option.some.injEq] at hat
        subst hat
        have hm : (64 : Int) ∈ List.replicate n (10 : Int) := by rw [← ha]; simp
        have := List.eq_of_mem_replicate hm
        omega
    · exact hret

/-! ## C16: the short-circuit of the quality trim -/

/-- C16. For every freshly read record behind the edge trim and every threshold: when the
quality of the last base of the read is at least the threshold, the quality trim returns
the entry unchanged (buffers, string offsets and recorded lengths), whatever the
qualities before the last base are. -/
theorem quality_trim_short_circuit (f f1 : List Int) (e0 e e1 : fq_entry_t) (opt : options_t)
    (last : Int)
    (hread : get_entry f e0 = .ret (0, e, f1))
    (hedge : edge_trim e = some e1)
    (hlast : e1.qual.window.getLast? = some last)
    (hge : opt.qual_trim ≤ last - opt.phred_offset) :
    quality_trim e1 opt = some e1 := by
  obtain ⟨sl, ql, hfresh, -, -, -⟩ := get_entry_fresh f f1 e0 e hread
  obtain ⟨i, ja, -, -, hET, -, -⟩ := edge_trim_fresh e e1 sl ql hfresh hedge
  obtain ⟨-, hwq⟩ := window_edge_trimmed e1 i _ _ hET
  obtain ⟨rs, rq, hs, hq, hlen, hi⟩ := hET
  obtain ⟨l2, hl1, hl2⟩ := rd_last_edge_trimmed i (ql.take (ja + 1)) rq (by omega)
  rw [hwq, List.getLast?_drop, if_neg (by omega), List.getLast?_eq_getElem?, hl1] at hlast
  simp only [Option.some.injEq] at hlast
  subst hlast
  unfold quality_trim
  by_cases ht : opt.qual_trim > -1
  · rw [if_pos ht, hq]
    simp only [hl2]
    rw [if_neg (by omega)]
  · rw [if_neg ht]

/-- C16 at qualities `###I` with threshold 20: the last quality is 40, the trim changes
nothing, although a cut at 0 has the positive deficit 34. -/
theorem quality_trim_short_circuit_witness :
    get_entry fq_good_end init_entry = .ret (0, entry_good_end, []) ∧
    edge_trim entry_good_end = some edged_good_end ∧
    edged_good_end.qual.window.getLast? = some 73 ∧
    deficit 20 33 edged_good_end.qual.window 0 = 34 ∧
    quality_trim edged_good_end { init_options with qual_trim := 20 } = some edged_good_end :=
  ⟨by decide, by decide, by decide, by decide,
    quality_trim_short_circuit fq_good_end [] init_entry entry_good_end edged_good_end
      { init_options with qual_trim := 20 } 73 (by decide) (by decide) (by decide) (by decide)⟩

/-! ## C17: sequence and quality lines of different length -/

/-- C17. On four lines `l1 .. l4` with the markers `@` and `+`, `get_entry` calls
`exit(EXIT_FAILURE)` exactly when the sequence line and the quality line differ in length
once their trailing white space is stripped; otherwise it returns `0` with the three
stripped lines as id, sequence and quality and with the input behind the four lines. -/
theorem get_entry_length_mismatch (f l1 l2 l3 l4 f4 : List Int) (e0 : fq_entry_t)
    (h4 : FourLines f l1 l2 l3 l4 f4) (hat : l1.head? = some 64) (hplus : l3.head? = some 43) :
    (get_entry f e0 = .exit_failure ↔ (rstrip l2).length ≠ (rstrip l4).length) ∧
    ((rstrip l2).length = (rstrip l4).length →
      ∃ e, get_entry f e0 = .ret (0, e, f4) ∧
        e.id.line = rstrip l1 ∧ e.seq.line = rstrip l2 ∧ e.qual.line = rstrip l4) := by
  obtain ⟨hne, heq⟩ := get_entry_four_lines f l1 l2 l3 l4 f4 e0 h4 hat hplus
  refine ⟨⟨?_, hne⟩, ?_⟩
  · intro hex hl
    obtain ⟨r0, r1, r3, hr⟩ := heq hl
    rw [hr] at hex
    simp at hex
  · intro hl
    obtain ⟨r0, r1, r3, hr⟩ := heq hl
    refine ⟨_, hr, ?_, ?_, ?_⟩ <;> simp [strbuf_t.line]

/-- C17 at the record `@r` / `ACGT` / `+` / `III`: the run is aborted. -/
theorem get_entry_length_mismatch_witness :
    FourLines fq_short_qual [64, 114, 10] [65, 67, 71, 84, 10] [43, 10] [73, 73, 73, 10] [] ∧
    rstrip [65, 67, 71, 84, 10] = [65, 67, 71, 84] ∧ rstrip [73, 73, 73, 10] = [73, 73, 73] ∧
    get_entry fq_short_qual init_entry = .exit_failure :=
  ⟨⟨[65, 67, 71, 84, 10, 43, 10, 73, 73, 73, 10], [43, 10, 73, 73, 73, 10], [73, 73, 73, 10],
      by decide, by decide, by decide, by decide⟩,
    by decide, by decide,
    (get_entry_length_mismatch fq_short_qual [64, 114, 10] [65, 67, 71, 84, 10] [43, 10]
      [73, 73, 73, 10] [] init_entry
      ⟨[65, 67, 71, 84, 10, 43, 10, 73, 73, 73, 10], [43, 10, 73, 73, 73, 10], [73, 73, 73, 10],
        by decide, by decide, by decide, by decide⟩
      (by decide) (by decide)).1.mpr (by decide)⟩

/-! ## C18: the strip of trailing white space -/

/-- C18. For every line `s` stored in a buffer (the `n = s.length` cells of the line and at
least one more cell behind them), `rtrim_whitespace` returns: the buffer then starts with
`p`, the longest prefix of `s` that does not end in a white space character (`p` is a
prefix of `s`, its last cell is no white space, and no longer prefix has that property;
it is `rstrip s`), a NUL follows `p`, the length is set to the length of `p`, the number
of cells is unchanged, and a second call on the result changes nothing.  White space is
space, `\t`, `\n`, `\v`, `\f`, `\r`. -/
theorem rtrim_whitespace_longest_prefix (s r : List Int) (z : Int) :
    ∃ p rs, rtrim_whitespace (s ++ z :: r) s.length = some (p ++ 0 :: rs, (p.length : Int)) ∧
      p = rstrip s ∧ p <+: s ∧ (∀ x, p.getLast? = some x → isspace x = false) ∧
      (∀ p1, p1 <+: s → (∀ x, p1.getLast? = some x → isspace x = false) →
        p1.length ≤ p.length) ∧
      (p ++ 0 :: rs).length = (s ++ z :: r).length ∧
      rtrim_whitespace (p ++ 0 :: rs) p.length = some (p ++ 0 :: rs, (p.length : Int)) ∧
      (∀ c, isspace c = true ↔ c = 32 ∨ c = 9 ∨ c = 10 ∨ c = 11 ∨ c = 12 ∨ c = 13) := by
  obtain ⟨rs, h1, h2⟩ := rtrim_whitespace_rstrip s r z
  obtain ⟨ws, hs, hws, hlast⟩ := rstrip_spec s
  refine ⟨rstrip s, rs, h1, rfl, ⟨ws, hs.symm⟩, hlast, ?_, ?_, rtrim_whitespace_fixed _ _ hlast,
    isspace_iff⟩
  · intro p1 hp1 hl1
    exact prefix_not_space_le s (rstrip s) ws p1 hs hws hp1 hl1
  · simp only [List.length_append, List.length_cons]
    omega

/-! ## C19: the quality of the last retained base -/

/-- C19 as stated fails. The read `ACGT` with qualities `IIII` (40 each, offset 33) and the
threshold `t = 2000000000`: `process_current_fq` accepts the record and leaves the read
`ACG` with qualities `III`, whose last quality 40 is below `t`.  The running sum of the
quality trim is an `int` and has left the range of 32 bits at the second addition, so the
cut stays at 3. -/
theorem last_quality_below_threshold :
    get_entry fq_ACGT init_entry = .ret (0, entry_ACGT, []) ∧
    process_current_fq entry_ACGT { init_options with qual_trim := 2000000000 }
      = .ret (0, { entry_ACGT with seq := ⟨[65, 67, 71, 0, 0, 0], 0, 3⟩,
                                   qual := ⟨[73, 73, 73, 0, 0, 0], 0, 3⟩ }) ∧
    strbuf_t.cstr ⟨[65, 67, 71, 0, 0, 0], 0, 3⟩ = some [65, 67, 71] ∧
    strbuf_t.cstr ⟨[73, 73, 73, 0, 0, 0], 0, 3⟩ = some [73, 73, 73] ∧
    ([73, 73, 73] : List Int).getLast? = some 73 ∧
    ((73 : Int) - init_options.phred_offset < 2000000000) := by
  decide

/-- C19, amended. With a threshold `t = opt.qual_trim ≥ 0` for which the cumulative
deficits of the edge-trimmed read (sum over `i = k .. L-1` of `t - q_i`, for every cut `k`
below its length `L`) all fit a 32-bit `int` (`hedge`, `hfit`), for every freshly read
record that `process_current_fq` accepts: the read it leaves is the bytes `[a, b)` of the
sequence and quality lines (both buffers hold the first `b` bytes of their line and a NUL
behind them, both strings start at `a`), and when the read is not empty the quality byte of
its last base, the byte `b - 1` of the quality line, has numeric quality at least `t`,
whether the trim engaged or not.  When the lines hold no NUL byte, the last byte of the
quality string that is written has quality at least `t`. -/
theorem last_retained_quality (f f1 : List Int) (e0 e e1 e2 : fq_entry_t) (opt : options_t)
    (hread : get_entry f e0 = .ret (0, e, f1))
    (ht : 0 ≤ opt.qual_trim)
    (hedge : edge_trim e = some e1)
    (hfit : ∀ k, k < e1.qual.window.length →
      fits_int (deficit opt.qual_trim opt.phred_offset e1.qual.window k))
    (hacc : process_current_fq e opt = .ret (0, e2)) :
    ∃ a b rs rq, a ≤ b ∧ b ≤ e.seq.line.length ∧
      e2.seq.str = a ∧ e2.qual.str = a ∧
      e2.seq.buf = e.seq.line.take b ++ 0 :: rs ∧ e2.qual.buf = e.qual.line.take b ++ 0 :: rq ∧
      (a < b → ∃ last, e.qual.line[b - 1]? = some last ∧
        opt.qual_trim ≤ last - opt.phred_offset) ∧
      ((0 : Int) ∉ e.seq.line → (0 : Int) ∉ e.qual.line →
        ∃ s q, e2.seq.cstr = some s ∧ e2.qual.cstr = some q ∧ s.length = q.length ∧
          s = (e.seq.line.take b).drop a ∧ q = (e.qual.line.take b).drop a ∧
          ∀ last, q.getLast? = some last → opt.qual_trim ≤ last - opt.phred_offset) := by
  obtain ⟨sl, ql, hfresh, -, -, -⟩ := get_entry_fresh f f1 e0 e hread
  obtain ⟨hl1, hl2⟩ := fresh_line e sl ql hfresh
  rw [hl1, hl2]
  obtain ⟨e3, hedge3, -, -, hqt, -, -⟩ := process_accept_steps e e2 opt hacc
  have he3 : e3 = e1 := by
    rw [hedge] at hedge3
    exact (Option.some.inj hedge3).symm
  rw [he3] at hqt
  obtain ⟨i, ja, hij, hja, hET, -, -⟩ := edge_trim_fresh e e1 sl ql hfresh hedge
  have hlen : sl.length = ql.length := by
    obtain ⟨-, -, -, -, h0⟩ := hfresh
    exact h0
  rw [(window_edge_trimmed e1 i _ _ hET).2] at hfit
  obtain ⟨b, rs, rq, hib, hb, hs1, hs2, hq1, hq2, -, -, hbound0⟩ :=
    quality_trim_shape e1 e2 sl ql i ja opt hij hja hlen hET hqt
  have hbound := fun h => hbound0 h hfit
  refine ⟨i, b, rs, rq, hib, by omega, hs2, hq2, hs1, hq1, hbound ht, ?_⟩
  intro h0s h0q
  refine ⟨_, _, ?_, ?_, ?_, rfl, rfl, ?_⟩
  · simp only [strbuf_t.cstr, hs1, hs2]
    rw [List.drop_append_of_le_length (by simp; omega)]
    exact c_str_append _ _ (fun hm => h0s (List.mem_of_mem_take (List.mem_of_mem_drop hm)))
  · simp only [strbuf_t.cstr, hq1, hq2]
    rw [List.drop_append_of_le_length (by simp; omega)]
    exact c_str_append _ _ (fun hm => h0q (List.mem_of_mem_take (List.mem_of_mem_drop hm)))
  · simp only [List.length_drop, List.length_take]
    omega
  · intro last hlast
    by_cases hab : i < b
    · obtain ⟨l2, hl3, hl4⟩ := hbound ht hab
      rw [List.getLast?_drop, if_neg (by simp; omega), List.getLast?_eq_getElem?] at hlast
      simp only [List.length_take] at hlast
      rw [Nat.min_eq_left (by omega), List.getElem?_take, if_pos (by omega), hl3] at hlast
      simp only [Option.some.injEq] at hlast
      rw [← hlast]; exact hl4
    · have : (ql.take b).drop i = [] := by
        apply List.drop_eq_nil_of_le
        simp only [List.length_take]
        omega
      rw [this] at hlast
      simp at hlast

/-- C19, amended, at the example of the quality trim: threshold 20, qualities
`IIIIII#####`; the read that is left is `IIIIII` and its last quality is 40. -/
theorem last_retained_quality_witness :
    get_entry fq_trim_sample init_entry = .ret (0, entry_trim_sample, []) ∧
    edge_trim entry_trim_sample = some edged_trim_sample ∧
    (∀ k, k < edged_trim_sample.qual.window.length →
      fits_int (deficit 20 33 edged_trim_sample.qual.window k)) ∧
    process_current_fq entry_trim_sample { init_options with qual_trim := 20 }
      = .ret (0, trimmed_trim_sample) ∧
    trimmed_trim_sample.qual.cstr = some [73, 73, 73, 73, 73, 73] ∧
    ∃ a b rs rq, a ≤ b ∧ b ≤ entry_trim_sample.seq.line.length ∧
      trimmed_trim_sample.seq.str = a ∧ trimmed_trim_sample.qual.str = a ∧
      trimmed_trim_sample.seq.buf = entry_trim_sample.seq.line.take b ++ 0 :: rs ∧
      trimmed_trim_sample.qual.buf = entry_trim_sample.qual.line.take b ++ 0 :: rq ∧
      (a < b → ∃ last, entry_trim_sample.qual.line[b - 1]? = some last ∧ (20 : Int) ≤ last - 33) ∧
      ((0 : Int) ∉ entry_trim_sample.seq.line → (0 : Int) ∉ entry_trim_sample.qual.line →
        ∃ s q, trimmed_trim_sample.seq.cstr = some s ∧ trimmed_trim_sample.qual.cstr = some q ∧
          s.length = q.length ∧
          s = (entry_trim_sample.seq.line.take b).drop a ∧
          q = (entry_trim_sample.qual.line.take b).drop a ∧
          ∀ last, q.getLast? = some last → (20 : Int) ≤ last - 33) :=
  ⟨by decide, by decide, by decide, by decide, by decide,
    last_retained_quality fq_trim_sample [] init_entry entry_trim_sample edged_trim_sample
      trimmed_trim_sample { init_options with qual_trim := 20 } (by decide) (by decide)
      (by decide) (by decide) (by decide)⟩

/-! ## C20: bases and qualities stay paired -/

/-- C20. For every freshly read record whose sequence line holds a byte other than `N`
and for every configuration, `process_current_fq` returns, and the sequence and quality it
leaves are the bytes of the sequence line and of the quality line over one index range
`[a, b)`: both strings start at offset `a`, both buffers hold the first `b` bytes of their
line followed by a NUL, so for every `k < b - a` the `k`-th base and the `k`-th quality
byte are the bytes `a + k` of the two lines.  When a line holds no NUL byte, the string
that is written is that range of the line. -/
theorem base_quality_pairing (f f1 : List Int) (e0 e : fq_entry_t) (opt : options_t)
    (hread : get_entry f e0 = .ret (0, e, f1))
    (hx : ∃ x ∈ e.seq.line, x ≠ 78) :
    ∃ c e2 a b rs rq, process_current_fq e opt = .ret (c, e2) ∧
      a ≤ b ∧ b ≤ e.seq.line.length ∧ e.seq.line.length = e.qual.line.length ∧
      e2.seq.str = a ∧ e2.qual.str = a ∧
      e2.seq.buf = e.seq.line.take b ++ 0 :: rs ∧ e2.qual.buf = e.qual.line.take b ++ 0 :: rq ∧
      (∀ k, k < b - a →
        rd e2.seq.buf ((e2.seq.str : Int) + (k : Int)) = e.seq.line[a + k]? ∧
        rd e2.qual.buf ((e2.qual.str : Int) + (k : Int)) = e.qual.line[a + k]?) ∧
      ((0 : Int) ∉ e.seq.line → e2.seq.cstr = some ((e.seq.line.take b).drop a)) ∧
      ((0 : Int) ∉ e.qual.line → e2.qual.cstr = some ((e.qual.line.take b).drop a)) := by
  obtain ⟨sl, ql, hfresh, -, -, -⟩ := get_entry_fresh f f1 e0 e hread
  obtain ⟨hl1, hl2⟩ := fresh_line e sl ql hfresh
  rw [hl1] at hx ⊢
  rw [hl2]
  obtain ⟨c, e2, hret⟩ := process_current_fq_total e sl ql opt hfresh hx
  obtain ⟨i, b, rs, rq, hib, hb, hs1, hs2, hq1, hq2, -, -⟩ :=
    process_current_fq_shape e e2 sl ql opt c hfresh hret
  have hlen : sl.length = ql.length := by
    obtain ⟨-, -, -, -, h0⟩ := hfresh
    exact h0
  refine ⟨c, e2, i, b, rs, rq, hret, hib, hb, hlen, hs2, hq2, hs1, hq1, ?_, ?_, ?_⟩
  · intro k hk
    have e1 : ((i : Nat) : Int) + (k : Int) = ((i + k : Nat) : Int) := by push_cast; rfl
    rw [hs1, hs2, hq1, hq2, e1, rd_append_left _ _ (i + k) (by simp; omega),
      rd_append_left _ _ (i + k) (by simp; omega)]
    simp only [List.getElem_take]
    rw [List.getElem?_eq_getElem (by omega), List.getElem?_eq_getElem (by omega)]
    exact ⟨rfl, rfl⟩
  · intro h0
    simp only [strbuf_t.cstr, hs1, hs2]
    rw [List.drop_append_of_le_length (by simp; omega)]
    exact c_str_append _ _ (fun hm => h0 (List.mem_of_mem_take (List.mem_of_mem_drop hm)))
  · intro h0
    simp only [strbuf_t.cstr, hq1, hq2]
    rw [List.drop_append_of_le_length (by simp; omega)]
    exact c_str_append _ _ (fun hm => h0 (List.mem_of_mem_take (List.mem_of_mem_drop hm)))

/-- C20 at the read `NACNGN` with qualities `ABCDEF` and the default configuration: the
strings left are `ACNG` and `BCDE`, the bytes `[1, 5)` of the two lines. -/
theorem base_quality_pairing_witness :
    get_entry fq_edges init_entry = .ret (0, entry_edges, []) ∧
    (∃ x ∈ entry_edges.seq.line, x ≠ 78) ∧
    process_current_fq entry_edges init_options = .ret (0, edged_edges) ∧
    edged_edges.seq.cstr = some [65, 67, 78, 71] ∧ edged_edges.qual.cstr = some [66, 67, 68, 69] ∧
    ∃ c e2 a b rs rq, process_current_fq entry_edges init_options = .ret (c, e2) ∧
      a ≤ b ∧ b ≤ entry_edges.seq.line.length ∧
      entry_edges.seq.line.length = entry_edges.qual.line.length ∧
      e2.seq.str = a ∧ e2.qual.str = a ∧
      e2.seq.buf = entry_edges.seq.line.take b ++ 0 :: rs ∧
      e2.qual.buf = entry_edges.qual.line.take b ++ 0 :: rq ∧
      (∀ k, k < b - a →
        rd e2.seq.buf ((e2.seq.str : Int) + (k : Int)) = entry_edges.seq.line[a + k]? ∧
        rd e2.qual.buf ((e2.qual.str : Int) + (k : Int)) = entry_edges.qual.line[a + k]?) ∧
      ((0 : Int) ∉ entry_edges.seq.line →
        e2.seq.cstr = some ((entry_edges.seq.line.take b).drop a)) ∧
      ((0 : Int) ∉ entry_edges.qual.line →
        e2.qual.cstr = some ((entry_edges.qual.line.take b).drop a)) :=
  ⟨by decide, ⟨65, by decide, by decide⟩, by decide, by decide, by decide,
    base_quality_pairing fq_edges [] init_entry entry_edges init_options (by decide)
      ⟨65, by decide, by decide⟩⟩

/-! ## C21: the recorded length behind the edge trim -/

/-- C21. For every freshly read record whose sequence line holds a byte other than `N`
and every configuration, the edge trim and the quality trim return (`e1`, `e2`), and:
behind the edge trim `seq.str_len = qual.str_len` is one less than the number of cells of
the read, the NUL sits at `str[str_len + 1]`, and `str[str_len]` is the last base of the
read (a byte other than `N`), so the recorded length is the index of the last base; with
no NUL byte in the line the string has `str_len + 1` bytes.  When the quality trim engages
(threshold `≥ 0` and last quality below it) the NUL sits at `str[str_len]` in both
buffers; when it does not engage the entry is unchanged.  With no NUL byte in the line, the
recorded length equals the length of the string exactly when the trim engaged. -/
theorem recorded_length_is_last_index (f f1 : List Int) (e0 e : fq_entry_t) (opt : options_t)
    (hread : get_entry f e0 = .ret (0, e, f1))
    (hx : ∃ x ∈ e.seq.line, x ≠ 78) :
    ∃ e1 e2 last, edge_trim e = some e1 ∧ quality_trim e1 opt = some e2 ∧
      e1.qual.window.getLast? = some last ∧
      e1.seq.str_len = e1.qual.str_len ∧
      (e1.seq.window.length : Int) = e1.seq.str_len + 1 ∧
      (e1.qual.window.length : Int) = e1.qual.str_len + 1 ∧
      rd e1.seq.buf ((e1.seq.str : Int) + (e1.seq.str_len + 1)) = some 0 ∧
      rd e1.qual.buf ((e1.qual.str : Int) + (e1.qual.str_len + 1)) = some 0 ∧
      (∃ x, rd e1.seq.buf ((e1.seq.str : Int) + e1.seq.str_len) = some x ∧ x ≠ 78 ∧
        e1.seq.window.getLast? = some x) ∧
      ((0 : Int) ∉ e.seq.line →
        ∃ s, e1.seq.cstr = some s ∧ (s.length : Int) = e1.seq.str_len + 1) ∧
      ((0 ≤ opt.qual_trim ∧ last - opt.phred_offset < opt.qual_trim) →
        e2.seq.str_len = e2.qual.str_len ∧
        rd e2.seq.buf ((e2.seq.str : Int) + e2.seq.str_len) = some 0 ∧
        rd e2.qual.buf ((e2.qual.str : Int) + e2.qual.str_len) = some 0) ∧
      (¬ (0 ≤ opt.qual_trim ∧ last - opt.phred_offset < opt.qual_trim) → e2 = e1) ∧
      ((0 : Int) ∉ e.seq.line →
        ∃ s, e2.seq.cstr = some s ∧
          ((s.length : Int) = e2.seq.str_len ↔
            (0 ≤ opt.qual_trim ∧ last - opt.phred_offset < opt.qual_trim))) := by
  obtain ⟨sl, ql, hfresh, -, -, -⟩ := get_entry_fresh f f1 e0 e hread
  obtain ⟨hl1, -⟩ := fresh_line e sl ql hfresh
  rw [hl1] at hx ⊢
  obtain ⟨e1, hedge⟩ := edge_trim_total e sl ql hfresh hx
  obtain ⟨i, ja, hij, hja, hET, -, -, -, ⟨y, hy1, hy2⟩, -⟩ :=
    edge_trim_fresh e e1 sl ql hfresh hedge
  have hlen : sl.length = ql.length := by
    obtain ⟨-, -, -, -, h0⟩ := hfresh
    exact h0
  obtain ⟨hws, hwq⟩ := window_edge_trimmed e1 i _ _ hET
  have hET0 := hET
  obtain ⟨rs, rq, hs, hq, -, -⟩ := hET0
  have hsl : (sl.take (ja + 1)).length = ja + 1 := by
    simp only [List.length_take]; omega
  have hqlen : (ql.take (ja + 1)).length = ja + 1 := by
    simp only [List.length_take]; omega
  obtain ⟨last, hq1, -⟩ := rd_last_edge_trimmed i (ql.take (ja + 1)) rq (by omega)
  -- facts behind the edge trim
  have hwlast : e1.qual.window.getLast? = some last := by
    rw [hwq, List.getLast?_drop, if_neg (by omega), List.getLast?_eq_getElem?]
    exact hq1
  have hnul_s : rd e1.seq.buf ((e1.seq.str : Int) + (e1.seq.str_len + 1)) = some 0 := by
    rw [hs]
    have e1 : ((i : Nat) : Int) + (((sl.take (ja + 1)).length : Int) - 1 - (i : Int) + 1)
        = ((sl.take (ja + 1)).length : Int) := by ring
    simp only [e1]
    exact rd_append_length _ _ _
  have hnul_q : rd e1.qual.buf ((e1.qual.str : Int) + (e1.qual.str_len + 1)) = some 0 := by
    rw [hq]
    have e1 : ((i : Nat) : Int) + (((ql.take (ja + 1)).length : Int) - 1 - (i : Int) + 1)
        = ((ql.take (ja + 1)).length : Int) := by ring
    simp only [e1]
    exact rd_append_length _ _ _
  have hbase : ∃ x, rd e1.seq.buf ((e1.seq.str : Int) + e1.seq.str_len) = some x ∧ x ≠ 78 ∧
      e1.seq.window.getLast? = some x := by
    refine ⟨y, ?_, hy2, ?_⟩
    · rw [hs]
      have e1 : ((i : Nat) : Int) + (((sl.take (ja + 1)).length : Int) - 1 - (i : Int))
          = ((ja : Nat) : Int) := by rw [hsl]; push_cast; ring
      simp only [e1]
      rw [rd_append_left _ _ ja (by omega)]
      rw [List.getElem?_eq_getElem hja] at hy1
      simp only [List.getElem_take]
      exact hy1
    · rw [hws, List.getLast?_drop, if_neg (by omega), List.getLast?_eq_getElem?, hsl,
        List.getElem?_take, if_pos (by omega)]
      simpa using hy1
  have hcs1 : (0 : Int) ∉ sl →
      ∃ s, e1.seq.cstr = some s ∧ (s.length : Int) = e1.seq.str_len + 1 := by
    intro h0
    refine ⟨(sl.take (ja + 1)).drop i, ?_, ?_⟩
    · simp only [strbuf_t.cstr, hs]
      rw [List.drop_append_of_le_length (by omega)]
      exact c_str_append _ _ (fun hm => h0 (List.mem_of_mem_take (List.mem_of_mem_drop hm)))
    · rw [hs]
      simp only [List.length_drop, hsl]
      omega
  by_cases hen : 0 ≤ opt.qual_trim ∧ last - opt.phred_offset < opt.qual_trim
  · obtain ⟨k, rs1, rq1, h1, h2⟩ :=
      quality_trim_engaged_cut e1 i _ _ opt last hET (by omega) hq1 hen.2
    simp only [List.length_drop, hqlen] at h2
    have htk_s : (sl.take (ja + 1)).take (i + k) = sl.take (i + k) := by
      rw [List.take_take, Nat.min_eq_left (by omega)]
    have htk_q : (ql.take (ja + 1)).take (i + k) = ql.take (i + k) := by
      rw [List.take_take, Nat.min_eq_left (by omega)]
    have hls : (sl.take (i + k)).length = i + k := by
      simp only [List.length_take]; omega
    have hlq : (ql.take (i + k)).length = i + k := by
      simp only [List.length_take]; omega
    have e3 : ((i : Nat) : Int) + ((k : Nat) : Int) = ((sl.take (i + k)).length : Int) := by
      rw [hls]; push_cast; rfl
    have e4 : ((i : Nat) : Int) + ((k : Nat) : Int) = ((ql.take (i + k)).length : Int) := by
      rw [hlq]; push_cast; rfl
    refine ⟨e1, _, last, hedge, h1, hwlast, by rw [hs, hq]; simp only [hsl, hqlen],
      by rw [hws, hs]; simp only [List.length_drop, hsl]; omega,
      by rw [hwq, hq]; simp only [List.length_drop, hqlen]; omega,
      hnul_s, hnul_q, hbase, hcs1, ?_, fun hne => absurd hen hne, ?_⟩
    · intro _
      refine ⟨rfl, ?_, ?_⟩
      · simp only [htk_s, e3]
        exact rd_append_length _ _ _
      · simp only [htk_q, e4]
        exact rd_append_length _ _ _
    · intro h0
      refine ⟨(sl.take (i + k)).drop i, ?_, ?_⟩
      · simp only [strbuf_t.cstr, htk_s]
        rw [List.drop_append_of_le_length (by omega)]
        exact c_str_append _ _ (fun hm => h0 (List.mem_of_mem_take (List.mem_of_mem_drop hm)))
      · simp only [List.length_drop, hls]
        constructor
        · intro _; exact hen
        · intro _; omega
  · have hsame := quality_trim_not_engaged e1 i _ _ opt last hET hq1 hen
    refine ⟨e1, e1, last, hedge, hsame, hwlast, by rw [hs, hq]; simp only [hsl, hqlen],
      by rw [hws, hs]; simp only [List.length_drop, hsl]; omega,
      by rw [hwq, hq]; simp only [List.length_drop, hqlen]; omega,
      hnul_s, hnul_q, hbase, hcs1, fun h => absurd h hen, fun _ => rfl, ?_⟩
    intro h0
    obtain ⟨s, hs1, hs2⟩ := hcs1 h0
    refine ⟨s, hs1, ?_⟩
    constructor
    · intro h; omega
    · intro h; exact absurd h hen

/-- C21 at the example of the quality trim (`IIIIII#####`): behind the edge trim the eleven
bases are recorded with length 10; behind the quality trim with threshold 20, which
engages, the six bases are recorded with length 6; with the trim disabled the entry stays
as the edge trim left it. -/
theorem recorded_length_is_last_index_witness :
    get_entry fq_trim_sample init_entry = .ret (0, entry_trim_sample, []) ∧
    (∃ x ∈ entry_trim_sample.seq.line, x ≠ 78) ∧
    edge_trim entry_trim_sample = some edged_trim_sample ∧
    edged_trim_sample.seq.str_len = 10 ∧
    edged_trim_sample.seq.cstr = some [65, 67, 71, 84, 65, 67, 71, 84, 65, 67, 71] ∧
    quality_trim edged_trim_sample { init_options with qual_trim := 20 }
      = some trimmed_trim_sample ∧
    trimmed_trim_sample.seq.str_len = 6 ∧
    trimmed_trim_sample.seq.cstr = some [65, 67, 71, 84, 65, 67] ∧
    quality_trim edged_trim_sample init_options = some edged_trim_sample ∧
    ∃ e1 e2 last, edge_trim entry_trim_sample = some e1 ∧
      quality_trim e1 { init_options with qual_trim := 20 } = some e2 ∧
      e1.qual.window.getLast? = some last ∧
      e1.seq.str_len = e1.qual.str_len ∧
      (e1.seq.window.length : Int) = e1.seq.str_len + 1 :=
  ⟨by decide, ⟨65, by decide, by decide⟩, by decide, by decide, by decide, by decide, by decide,
    by decide, by decide,
    let ⟨e1, e2, last, h1, h2, h3, h4, h5, _⟩ :=
      recorded_length_is_last_index fq_trim_sample [] init_entry entry_trim_sample
        { init_options with qual_trim := 20 } (by decide) ⟨65, by decide, by decide⟩
    ⟨e1, e2, last, h1, h2, h3, h4, h5⟩⟩

end Clipper
